import Mathlib

/-!
# Passface core cryptography: a shallow embedding with proofs

This file embeds the cryptographic core of the Passface repository in Lean 4
and proves the specification claims about it.

The embedded modules are:

* `KeyDerivation` (`src/lib/crypto/keyDerivation.ts`): HKDF-SHA-256 based
  derivation of a secp256k1 signing key from `(credentialId, userId, salt?)`,
  with the re-hash-until-valid scalar loop, public-key derivation and the
  (SHA-256 based) address derivation.
* `MessageSigner` (`src/lib/crypto/signing.ts`): prefixed-message hashing with
  SHA-256, deterministic (RFC 6979) recoverable ECDSA over secp256k1,
  hex wire formatting, verification and public-key recovery.
* `Encryption` (`src/lib/crypto/encryption.ts`): AES-256-GCM authenticated
  encryption under an HKDF-derived key, plus base64 helpers.
* `KeyStorage` (`src/lib/storage/keyStorage.ts`): the encrypted key vault,
  modelled as a record store passed in explicitly.

External libraries the source calls (`@noble/hashes`, `@noble/secp256k1`, the
WebCrypto AES-GCM primitive) are embedded by implementing the algorithms they
provide (FIPS 180-4 SHA-256, RFC 2104 HMAC, RFC 5869 HKDF, RFC 6979 ECDSA over
secp256k1, NIST SP 800-38D GCM with AES-256) directly on `Nat`-valued bytes.
Byte strings are `List Nat` with each entry below 256; machine words are `Nat`
with explicit reduction `% 2 ^ 32` (or the relevant modulus).  Loops that are
unbounded in the source are embedded with an explicit fuel parameter; `none`
means the fuel ran out (the source would still be looping or would have
thrown).  Ambient effects of the JavaScript runtime (the entropy source
`crypto.getRandomValues`, the clock `Date.now()`) are passed in explicitly as
values, so every embedded operation is a pure function.
-/

set_option maxRecDepth 40000

namespace Passface

/-! ## Bytes and words -/

/-- Truncation of a `Nat` to a 32-bit word, the wrap-around arithmetic of the
source's `Uint32` operations. -/
def w32 (x : Nat) : Nat := x % 2 ^ 32

/-- Right rotation of a 32-bit word by `k` places. -/
def rotr32 (x k : Nat) : Nat := w32 ((x >>> k) ||| (x <<< (32 - k)))

/-- Big-endian bytes of a 32-bit word. -/
def word32ToBytes (x : Nat) : List Nat :=
  [(x >>> 24) % 256, (x >>> 16) % 256, (x >>> 8) % 256, x % 256]

/-- Big-endian bytes (8 of them) of a 64-bit word. -/
def word64ToBytes (x : Nat) : List Nat :=
  [(x >>> 56) % 256, (x >>> 48) % 256, (x >>> 40) % 256, (x >>> 32) % 256,
   (x >>> 24) % 256, (x >>> 16) % 256, (x >>> 8) % 256, x % 256]

/-- Big-endian 32-bit words of a byte string whose length is a multiple
of 4. -/
def bytesToWords32 : List Nat → List Nat
  | b0 :: b1 :: b2 :: b3 :: rest =>
      (b0 * 2 ^ 24 + b1 * 2 ^ 16 + b2 * 2 ^ 8 + b3) :: bytesToWords32 rest
  | _ => []

/-- Big-endian interpretation of a byte string as a natural number. -/
def bytesToNat (l : List Nat) : Nat := l.foldl (fun acc b => acc * 256 + b) 0

/-- Big-endian `len`-byte encoding of a natural number (most significant
first). -/
def natToBytes (len x : Nat) : List Nat :=
  match len with
  | 0 => []
  | k + 1 => natToBytes k (x >>> 8) ++ [x % 256]

/-! ## SHA-256 (FIPS 180-4), as provided by `@noble/hashes/sha2` -/

/-- The eight SHA-256 initial hash values. -/
def sha256IV : List Nat :=
  [0x6a09e667, 0xbb67ae85, 0x3c6ef372, 0xa54ff53a,
   0x510e527f, 0x9b05688c, 0x1f83d9ab, 0x5be0cd19]

/-- The 64 SHA-256 round constants. -/
def sha256K : List Nat :=
  [0x428A2F98, 0x71374491, 0xB5C0FBCF, 0xE9B5DBA5, 0x3956C25B, 0x59F111F1, 0x923F82A4, 0xAB1C5ED5,
   0xD807AA98, 0x12835B01, 0x243185BE, 0x550C7DC3, 0x72BE5D74, 0x80DEB1FE, 0x9BDC06A7, 0xC19BF174,
   0xE49B69C1, 0xEFBE4786, 0x0FC19DC6, 0x240CA1CC, 0x2DE92C6F, 0x4A7484AA, 0x5CB0A9DC, 0x76F988DA,
   0x983E5152, 0xA831C66D, 0xB00327C8, 0xBF597FC7, 0xC6E00BF3, 0xD5A79147, 0x06CA6351, 0x14292967,
   0x27B70A85, 0x2E1B2138, 0x4D2C6DFC, 0x53380D13, 0x650A7354, 0x766A0ABB, 0x81C2C92E, 0x92722C85,
   0xA2BFE8A1, 0xA81A664B, 0xC24B8B70, 0xC76C51A3, 0xD192E819, 0xD6990624, 0xF40E3585, 0x106AA070,
   0x19A4C116, 0x1E376C08, 0x2748774C, 0x34B0BCB5, 0x391C0CB3, 0x4ED8AA4A, 0x5B9CCA4F, 0x682E6FF3,
   0x748F82EE, 0x78A5636F, 0x84C87814, 0x8CC70208, 0x90BEFFFA, 0xA4506CEB, 0xBEF9A3F7, 0xC67178F2]

/-- The SHA-256 message-schedule extension step: prepend the next word to the
reversed schedule `rev`. -/
def sha256SchedStep (rev : List Nat) : List Nat :=
  let g := fun i => rev.getD i 0
  let s1 := rotr32 (g 1) 17 ^^^ rotr32 (g 1) 19 ^^^ (g 1 >>> 10)
  let s0 := rotr32 (g 14) 7 ^^^ rotr32 (g 14) 18 ^^^ (g 14 >>> 3)
  w32 (s1 + g 6 + s0 + g 15) :: rev

/-- Iterate the schedule extension `k` times. -/
def sha256SchedExtend : Nat → List Nat → List Nat
  | 0, rev => rev
  | k + 1, rev => sha256SchedExtend k (sha256SchedStep rev)

/-- The full 64-word message schedule of one block (given as 16 words). -/
def sha256Schedule (block : List Nat) : List Nat :=
  (sha256SchedExtend 48 block.reverse).reverse

/-- One SHA-256 compression round.  The state is the 8-word working tuple. -/
def sha256Round (st : List Nat) (kw : Nat × Nat) : List Nat :=
  match st with
  | [a, b, c, d, e, f, g, h] =>
      let S1 := rotr32 e 6 ^^^ rotr32 e 11 ^^^ rotr32 e 25
      let ch := (e &&& f) ^^^ ((2 ^ 32 - 1 - e) &&& g)
      let t1 := w32 (h + S1 + ch + kw.1 + kw.2)
      let S0 := rotr32 a 2 ^^^ rotr32 a 13 ^^^ rotr32 a 22
      let mj := (a &&& b) ^^^ (a &&& c) ^^^ (b &&& c)
      let t2 := w32 (S0 + mj)
      [w32 (t1 + t2), a, b, c, w32 (d + t1), e, f, g]
  | other => other

/-- The SHA-256 compression function on one 64-byte block. -/
def sha256Compress (h : List Nat) (block : List Nat) : List Nat :=
  let ws := sha256Schedule (bytesToWords32 block)
  let st := (sha256K.zip ws).foldl sha256Round h
  (h.zip st).map fun p => w32 (p.1 + p.2)

/-- Split a byte string into `size`-byte blocks; `fuel` bounds the number of
blocks (any `fuel` at least `l.length / size + 1` is enough). -/
def toBlocksOf (size : Nat) : Nat → List Nat → List (List Nat)
  | 0, _ => []
  | _, [] => []
  | fuel + 1, l => l.take size :: toBlocksOf size fuel (l.drop size)

/-- 64-byte blocks, the SHA-256 block split. -/
def toBlocks : Nat → List Nat → List (List Nat) := toBlocksOf 64

/-- SHA-256 padding: `0x80`, zeros, then the 64-bit big-endian bit length. -/
def sha256Pad (msg : List Nat) : List Nat :=
  msg ++ 0x80 :: List.replicate ((64 - (msg.length + 9) % 64) % 64) 0
      ++ word64ToBytes (msg.length * 8)

/-- SHA-256 of a byte string, as a 32-byte string. -/
def sha256 (msg : List Nat) : List Nat :=
  let padded := sha256Pad msg
  let hs := (toBlocks (padded.length / 64) padded).foldl sha256Compress sha256IV
  hs.flatMap word32ToBytes

/-! ## HMAC-SHA-256 (RFC 2104) and HKDF (RFC 5869) -/

/-- Normalize an HMAC key to one 64-byte block. -/
def hmacKeyBlock (key : List Nat) : List Nat :=
  let k0 := if key.length > 64 then sha256 key else key
  k0 ++ List.replicate (64 - k0.length) 0

/-- HMAC-SHA-256 of `msg` under `key`. -/
def hmacSha256 (key msg : List Nat) : List Nat :=
  let block := hmacKeyBlock key
  let ip := block.map (fun b => b ^^^ 0x36)
  let op := block.map (fun b => b ^^^ 0x5c)
  sha256 (op ++ sha256 (ip ++ msg))

/-- HKDF-Extract: the pseudorandom key from input key material and an optional
salt (an absent salt stands for 32 zero bytes). -/
def hkdfExtract (salt : Option (List Nat)) (ikm : List Nat) : List Nat :=
  hmacSha256 (salt.getD (List.replicate 32 0)) ikm

/-- The HKDF-Expand block iteration: `count` further output blocks after
`prev` (the previous block), with `ctr` the next counter byte. -/
def hkdfExpandLoop (prk info : List Nat) : Nat → List Nat → Nat → List Nat
  | 0, _, _ => []
  | count + 1, prev, ctr =>
      let t := hmacSha256 prk (prev ++ info ++ [ctr % 256])
      t ++ hkdfExpandLoop prk info count t (ctr + 1)

/-- HKDF-Expand to `len` bytes. -/
def hkdfExpand (prk info : List Nat) (len : Nat) : List Nat :=
  (hkdfExpandLoop prk info ((len + 31) / 32) [] 1).take len

/-- HKDF with SHA-256, as `@noble/hashes/hkdf` provides it:
`hkdf(sha256, ikm, salt, info, length)`. -/
def hkdf (ikm : List Nat) (salt : Option (List Nat)) (info : List Nat)
    (len : Nat) : List Nat :=
  hkdfExpand (hkdfExtract salt ikm) info len

/-! ## Strings and encodings -/

/-- UTF-8 bytes of one Unicode code point. -/
def utf8Char (c : Nat) : List Nat :=
  if c < 0x80 then [c]
  else if c < 0x800 then [0xC0 ||| (c >>> 6), 0x80 ||| (c &&& 0x3F)]
  else if c < 0x10000 then
    [0xE0 ||| (c >>> 12), 0x80 ||| ((c >>> 6) &&& 0x3F), 0x80 ||| (c &&& 0x3F)]
  else
    [0xF0 ||| (c >>> 18), 0x80 ||| ((c >>> 12) &&& 0x3F),
     0x80 ||| ((c >>> 6) &&& 0x3F), 0x80 ||| (c &&& 0x3F)]

/-- The `TextEncoder().encode` of the source: UTF-8 bytes of a string. -/
def utf8Encode (s : String) : List Nat :=
  s.data.flatMap (fun c => utf8Char c.toNat)

/-- Lowercase hexadecimal digit for a value below 16. -/
def hexDigit (d : Nat) : Char :=
  if d < 10 then Char.ofNat (48 + d) else Char.ofNat (87 + d)

/-- The hex digits of `x` (without leading zeros; `"0"` for zero), the
`x.toString(16)` of the source.  `fuel` bounds the digit count. -/
def natToHexCore : Nat → Nat → List Char
  | 0, _ => []
  | fuel + 1, x =>
      if x < 16 then [hexDigit x]
      else natToHexCore fuel (x / 16) ++ [hexDigit (x % 16)]

/-- JavaScript `x.toString(16)` for a nonnegative integer. -/
def natToHex (x : Nat) : String :=
  String.mk (natToHexCore 80 x)

/-- JavaScript `String.prototype.padStart(width, "0")`. -/
def padStart (s : String) (width : Nat) : String :=
  String.mk (List.replicate (width - s.length) (Char.ofNat 48) ++ s.data)

/-- Value of a hex digit character, if it is one. -/
def hexDigitVal (c : Char) : Option Nat :=
  if 48 ≤ c.toNat ∧ c.toNat ≤ 57 then some (c.toNat - 48)
  else if 97 ≤ c.toNat ∧ c.toNat ≤ 102 then some (c.toNat - 87)
  else if 65 ≤ c.toNat ∧ c.toNat ≤ 70 then some (c.toNat - 55)
  else none

/-- Parse a hex string to a natural number; `none` on an empty string or a
non-hex character.  This is the behaviour of JavaScript
`BigInt("0x" + s)` (which throws in the `none` cases). -/
def parseHex (s : String) : Option Nat :=
  if s.data.isEmpty then none
  else s.data.foldl
    (fun acc c => match acc, hexDigitVal c with
      | some v, some d => some (v * 16 + d)
      | _, _ => none)
    (some 0)

/-- JavaScript `String.prototype.slice(a, b)` for nonnegative indices. -/
def strSlice (s : String) (a b : Nat) : String :=
  String.mk ((s.data.take b).drop a)

/-! ## The ambient JavaScript runtime

The embedded functions run inside a browser realm that offers an entropy
source (`crypto.getRandomValues`) and a clock (`Date.now()`).  An `Env` value
carries both; an operation that never consults them is, by construction,
independent of the `Env` it is handed. -/

/-- The ambient runtime state: `entropy i j` is byte `j` of the `i`-th random
buffer the realm would fill, `now` the current epoch-millisecond clock. -/
structure Env where
  entropy : Nat → Nat → Nat
  now : Nat

/-- The `crypto.getRandomValues(new Uint8Array(len))` of call number `idx`:
`len` bytes drawn from the realm's entropy source. -/
def Env.randomBytes (env : Env) (idx len : Nat) : List Nat :=
  (List.range len).map (fun j => env.entropy idx j % 256)

/-! ## secp256k1 (as provided by `@noble/secp256k1`)

The library implements ECDSA over the short Weierstrass curve
y^2 = x^3 + 7 over the prime field of order `secpP`, with base point
`(secpGx, secpGy)` of prime order `secpN`.  Field elements are `Nat` values
below the modulus; the point at infinity is `none`. -/

/-- The secp256k1 field modulus 2^256 - 2^32 - 977. -/
def secpP : Nat :=
  0xFFFFFFFFFFFFFFFFFFFFFFFFFFFFFFFFFFFFFFFFFFFFFFFFFFFFFFFEFFFFFC2F

/-- The secp256k1 group order. -/
def secpN : Nat :=
  0xFFFFFFFFFFFFFFFFFFFFFFFFFFFFFFFEBAAEDCE6AF48A03BBFD25E8CD0364141

/-- Base point x-coordinate. -/
def secpGx : Nat :=
  0x79BE667EF9DCBBAC55A06295CE870B07029BFCDB2DCE28D959F2815B16F81798

/-- Base point y-coordinate. -/
def secpGy : Nat :=
  0x483ADA7726A3C4655DA4FBFC0E1108A8FD17B448A68554199C47D08FFB10D4B8

/-- Modular subtraction on `Nat` representatives. -/
def subMod (a b m : Nat) : Nat := (a + (m - b % m)) % m

/-- Binary modular exponentiation; `fuel` bounds the bit length of the
exponent (257 is enough for every use in this file). -/
def powMod (m : Nat) : Nat → Nat → Nat → Nat
  | 0, _, _ => 1 % m
  | fuel + 1, a, e =>
      if e = 0 then 1 % m
      else
        let h := powMod m fuel (a * a % m) (e / 2)
        if e % 2 = 1 then a % m * h % m else h

/-- Modular inverse by Fermat's little theorem (the modulus is prime in every
use). -/
def invMod (a m : Nat) : Nat := powMod m 257 a (m - 2)

/-- An affine point: `none` is the point at infinity.  Coordinates are kept
reduced below `secpP` by every operation. -/
abbrev ECPoint : Type := Option (Nat × Nat)

/-- Point negation. -/
def pNeg : ECPoint → ECPoint
  | none => none
  | some (x, y) => some (x, (secpP - y) % secpP)

/-- Finish a chord-or-tangent addition from the slope `lam` and the input
coordinates: `x3 = lam^2 - x1 - x2`, `y3 = lam*(x1 - x3) - y1`. -/
def pAddFinish (lam x1 y1 x2 : Nat) : ECPoint :=
  let x3 := subMod (lam * lam % secpP) ((x1 + x2) % secpP) secpP
  some (x3, subMod (lam * subMod x1 x3 secpP % secpP) y1 secpP)

/-- The affine secp256k1 group law (chord-and-tangent addition). -/
def pAdd : ECPoint → ECPoint → ECPoint
  | none, q => q
  | p, none => p
  | some (x1, y1), some (x2, y2) =>
      if x1 = x2 then
        if (y1 + y2) % secpP = 0 then none
        else pAddFinish (3 * x1 * x1 % secpP * invMod (2 * y1 % secpP) secpP % secpP) x1 y1 x2
      else pAddFinish (subMod y1 y2 secpP * invMod (subMod x1 x2 secpP) secpP % secpP) x1 y1 x2

/-- Double-and-add scalar multiplication; `fuel` bounds the bit length of the
scalar. -/
def pMul : Nat → Nat → ECPoint → ECPoint
  | 0, _, _ => none
  | fuel + 1, k, p =>
      if k = 0 then none
      else
        let rest := pMul fuel (k / 2) (pAdd p p)
        if k % 2 = 1 then pAdd p rest else rest

/-- Scalar multiplication with enough fuel for a 256-bit scalar (all scalars
in this development are below 2^257). -/
def pMulSec (k : Nat) (p : ECPoint) : ECPoint := pMul 257 k p

/-- The secp256k1 base point. -/
def secpG : ECPoint := some (secpGx, secpGy)

/-- The private-key validity test of `@noble/secp256k1`
(`utils.isValidSecretKey`): a 32-byte string whose big-endian value lies in
`[1, n-1]` for the curve order `n`. -/
def isValidSecretKey (key : List Nat) : Bool :=
  key.length = 32 && 1 ≤ bytesToNat key && bytesToNat key < secpN

/-- Compressed (33-byte) encoding of an affine point: `02`/`03` parity prefix
followed by the x-coordinate. -/
def encodeCompressed (q : Nat × Nat) : List Nat :=
  (if q.2 % 2 = 0 then 0x02 else 0x03) :: natToBytes 32 q.1

/-- Uncompressed (65-byte) encoding: `04` followed by both coordinates. -/
def encodeUncompressed (q : Nat × Nat) : List Nat :=
  0x04 :: (natToBytes 32 q.1 ++ natToBytes 32 q.2)

/-- A modular square root attempt for the secp256k1 field: since
`secpP % 4 = 3`, a root of a square `a` is `a ^ ((p+1)/4)`.  The caller must
check that the result actually squares to `a`. -/
def sqrtMod (a : Nat) : Nat := powMod secpP 257 a ((secpP + 1) / 4)

/-- Decode the x-coordinate bytes of a compressed point with the given
y-parity (`0` for an `02` prefix, `1` for `03`): recover a square root of
`x^3 + 7`, check it really is one (the input may not be on the curve), and
flip it to `(p - y) % p` when its parity disagrees with the prefix. -/
def decodeCompressedX (parity : Nat) (rest : List Nat) : Option (Nat × Nat) :=
  if rest.length = 32 then
    let x := bytesToNat rest
    let y2 := (x * x % secpP * x + 7) % secpP
    let y := sqrtMod y2
    if x < secpP ∧ y * y % secpP = y2 then
      some (x, if y % 2 = parity then y else (secpP - y) % secpP)
    else none
  else none

/-- Decode a public-key byte string to an affine point, as
`@noble/secp256k1` parses it: a 33-byte compressed or 65-byte uncompressed
encoding of a point on the curve; `none` (the library throws) otherwise. -/
def decodePoint (bytes : List Nat) : Option (Nat × Nat) :=
  match bytes with
  | 2 :: rest => decodeCompressedX 0 rest
  | 3 :: rest => decodeCompressedX 1 rest
  | 4 :: rest =>
      if rest.length = 64 then
        let x := bytesToNat (rest.take 32)
        let y := bytesToNat (rest.drop 32)
        if x < secpP ∧ y < secpP ∧ y * y % secpP = (x * x % secpP * x + 7) % secpP then
          some (x, y)
        else none
      else none
  | _ => none

/-! ### Deterministic ECDSA (RFC 6979), as `@noble/secp256k1` implements it -/

/-- The HMAC-DRBG seed of RFC 6979 §3.2(d): `int2octets(d) || bits2octets(h)`
(for secp256k1 the hash is exactly 256 bits, so `bits2int` is plain
big-endian and `bits2octets` reduces once by the group order). -/
def rfc6979Seed (d z : Nat) : List Nat :=
  natToBytes 32 d ++ natToBytes 32 (if z ≥ secpN then z - secpN else z)

/-- The HMAC-DRBG instantiation of RFC 6979 §3.2(b)-(f): the `(K, V)` state
after absorbing the seed. -/
def rfc6979Init (seed : List Nat) : List Nat × List Nat :=
  let K0 := List.replicate 32 0
  let V0 := List.replicate 32 1
  let K1 := hmacSha256 K0 (V0 ++ 0x00 :: seed)
  let V1 := hmacSha256 K1 V0
  let K2 := hmacSha256 K1 (V1 ++ 0x01 :: seed)
  let V2 := hmacSha256 K2 V1
  (K2, V2)

/-- Attempt to build a signature from nonce candidate `k`: `none` asks the
generator for the next candidate (the zero cases are unreachable in practice
but the library checks them).  The result is `(r, s, recovery)`, normalized
to the low-s form (`lowS: true`, the library default). -/
def signCandidate (z d k : Nat) : Option (Nat × Nat × Nat) :=
  match pMulSec k secpG with
  | none => none
  | some (rx, ry) =>
      let r := rx % secpN
      if r = 0 then none
      else
        let s := invMod k secpN * ((z + r * d) % secpN) % secpN
        if s = 0 then none
        else
          let recovery := (if rx ≥ secpN then 2 else 0) + ry % 2
          if s > secpN / 2 then some (r, secpN - s, recovery ^^^ 1)
          else some (r, s, recovery)

/-- The HMAC-DRBG generate loop: draw nonce candidates until one yields a
signature; the library caps this loop at 1000 draws. -/
def signLoop (z d : Nat) : Nat → List Nat × List Nat → Option (Nat × Nat × Nat)
  | 0, _ => none
  | fuel + 1, (K, V) =>
      let V1 := hmacSha256 K V
      let k := bytesToNat V1
      let attempt := if 1 ≤ k ∧ k < secpN then signCandidate z d k else none
      match attempt with
      | some rsv => some rsv
      | none =>
          let K1 := hmacSha256 K (V1 ++ [0x00])
          signLoop z d fuel (K1, hmacSha256 K1 V1)

/-- Deterministic ECDSA over secp256k1 on a prehashed message, with the RFC
6979 nonce; `none` when the private key is invalid (the library throws). -/
def ecdsaSignHash (msgHash : List Nat) (priv : List Nat) : Option (Nat × Nat × Nat) :=
  if isValidSecretKey priv then
    let d := bytesToNat priv
    let z := bytesToNat msgHash
    signLoop z d 1000 (rfc6979Init (rfc6979Seed d z))
  else none

/-- The last step of verification: `R = u1*G + u2*Q` must be a finite point
whose `x`-coordinate reduces to `r` modulo the group order. -/
def ecdsaVerifyFinish (r : Nat) : Option (Nat × Nat) → Bool
  | none => false
  | some (rx, _) => rx % secpN = r

/-- The core ECDSA verification equation on a prehashed message, with the
library's default `lowS: true` check.  `r` and `s` are assumed already
range-checked by the `Signature` constructor. -/
def ecdsaVerifyHash (msgHash : List Nat) (r s : Nat) (publicKey : List Nat) : Bool :=
  match decodePoint publicKey with
  | none => false
  | some q =>
      if s > secpN / 2 then false
      else
        let z := bytesToNat msgHash
        let si := invMod s secpN
        ecdsaVerifyFinish r
          (pAdd (pMulSec (z * si % secpN) secpG) (pMulSec (r * si % secpN) (some q)))

/-! ## `KeyDerivation` (`src/lib/crypto/keyDerivation.ts`) -/

namespace KeyDerivation

/-- The re-hash-until-valid loop of `ensureValidPrivateKey`:

```ts
while (!secp256k1.utils.isValidSecretKey(key)) { key = sha256(key) }
return key
```

The source loop is unbounded; `fuel` counts the validity tests this embedding
is allowed to run, and `none` means the source would still be looping after
`fuel` of them. -/
def ensureValidPrivateKey : Nat → List Nat → Option (List Nat)
  | 0, _ => none
  | fuel + 1, key =>
      if isValidSecretKey key then some key
      else ensureValidPrivateKey fuel (sha256 key)

/-- The `deriveSigningKey(credentialId, userId, salt?)` of the source: HKDF
with SHA-256 over `utf8(credentialId + userId)` with the fixed domain label,
expanded to 32 bytes, then passed through the validity loop.  `env` is the
ambient runtime (never consulted); `fuel` bounds the validity loop. -/
def deriveSigningKey (env : Env) (fuel : Nat) (credentialId userId : String)
    (salt : Option (List Nat)) : Option (List Nat) :=
  let _ := env
  let info := utf8Encode "passface-signing-key-v1"
  let ikm := utf8Encode (credentialId ++ userId)
  let derivedKey := hkdf ikm salt info 32
  ensureValidPrivateKey fuel derivedKey

/-- The `getPublicKey(privateKey)` of the source:
`secp256k1.getPublicKey(privateKey, true)`, the compressed public key;
`none` when the library would throw (invalid secret key). -/
def getPublicKey (privateKey : List Nat) : Option (List Nat) :=
  if isValidSecretKey privateKey then
    match pMulSec (bytesToNat privateKey) secpG with
    | some q => some (encodeCompressed q)
    | none => none
  else none

/-- The uncompressed variant used by `getEthereumAddress`:
`secp256k1.getPublicKey(privateKey, false)`. -/
def getPublicKeyUncompressed (privateKey : List Nat) : Option (List Nat) :=
  if isValidSecretKey privateKey then
    match pMulSec (bytesToNat privateKey) secpG with
    | some q => some (encodeUncompressed q)
    | none => none
  else none

/-- The `getEthereumAddress(privateKey)` of the source: drop the `04` prefix
of the uncompressed public key, hash with `sha256` (the call the comment
describes as Keccak-256), and hex-encode the last 20 bytes of the digest. -/
def getEthereumAddress (privateKey : List Nat) : Option String :=
  match getPublicKeyUncompressed privateKey with
  | none => none
  | some publicKey =>
      let publicKeyWithoutPrefix := publicKey.drop 1
      let hash := sha256 publicKeyWithoutPrefix
      let address :=
        String.join ((hash.drop (hash.length - 20)).map
          (fun b => padStart (natToHex b) 2))
      some ("0x" ++ address)

end KeyDerivation

/-! ## `MessageSigner` (`src/lib/crypto/signing.ts`) -/

/-- The source's message parameter type `string | Uint8Array`. -/
abbrev JSMessage : Type := Sum String (List Nat)

/-- The source's conversion of a message to bytes (UTF-8 for strings). -/
def messageToBytes : JSMessage → List Nat
  | Sum.inl s => utf8Encode s
  | Sum.inr b => b

/-- The JavaScript `Uint8Array.prototype.set(src, offset)` on a copy of
`dst`. -/
def setAt (dst : List Nat) (offset : Nat) (src : List Nat) : List Nat :=
  dst.take offset ++ src ++ dst.drop (offset + src.length)

namespace MessageSigner

/-- The `prefixMessage` of the source: allocate
`prefixBytes.length + lengthBytes.length + message.length` zero bytes and
`set` the prefix, the decimal length and the message at their offsets. -/
def prefixMessage (message : List Nat) : List Nat :=
  let prefixBytes := utf8Encode "\x19Ethereum Signed Message:\n"
  let lengthBytes := utf8Encode (Nat.repr message.length)
  let result := List.replicate (prefixBytes.length + lengthBytes.length + message.length) 0
  setAt (setAt (setAt result 0 prefixBytes) prefixBytes.length lengthBytes)
    (prefixBytes.length + lengthBytes.length) message

/-- The `formatSignature` of the source: `0x` + `r` and `s` as 64 hex
characters each (`toString(16).padStart(64, "0")`) + `v = recovery + 27` as
2 hex characters. -/
def formatSignature (r s recovery : Nat) : String :=
  "0x" ++ padStart (natToHex r) 64 ++ padStart (natToHex s) 64
    ++ padStart (natToHex (recovery + 27)) 2

/-- The `signMessage(message, privateKey)` of the source: SHA-256 of the
prefixed message, RFC 6979 ECDSA with recovery (`prehash: false`,
`format: recovered`), then `formatSignature`.  `env` is the ambient runtime
(never consulted: the deterministic signer draws no entropy); `none` models a
thrown error (invalid private key, or the library's 1000-draw cap). -/
def signMessage (env : Env) (message : JSMessage) (privateKey : List Nat) :
    Option String :=
  let _ := env
  (ecdsaSignHash (sha256 (prefixMessage (messageToBytes message))) privateKey).map
    (fun rsv => formatSignature rsv.1 rsv.2.1 rsv.2.2)

/-- The `signature.startsWith("0x") ? signature.slice(2) : signature`
normalization shared by `verifySignature` and `recoverPublicKey`. -/
def cleanSignature (signature : String) : String :=
  if signature.data.take 2 = ['0', 'x'] then signature.drop 2 else signature

/-- The `verifySignature(message, signature, publicKey)` of the source.  The
whole body sits in a `try`/`catch` that returns `false`, so every parse or
validation failure (bad hex, out-of-range `r`/`s`, malformed public key)
yields `false` rather than an exception. -/
def verifySignature (message : JSMessage) (signature : String)
    (publicKey : List Nat) : Bool :=
  match parseHex (strSlice (cleanSignature signature) 0 64),
      parseHex (strSlice (cleanSignature signature) 64 128) with
  | some r, some s =>
      if 1 ≤ r ∧ r < secpN ∧ 1 ≤ s ∧ s < secpN then
        ecdsaVerifyHash (sha256 (prefixMessage (messageToBytes message))) r s publicKey
      else false
  | _, _ => false

/-- JavaScript `parseInt(s, 16)`: value of the longest hex-digit run at the
start of the string, `none` for `NaN`. -/
def parseIntHex (s : String) : Option Nat :=
  let digits := s.data.takeWhile (fun c => (hexDigitVal c).isSome)
  if digits.isEmpty then none
  else some (digits.foldl (fun acc c => acc * 16 + (hexDigitVal c).getD 0) 0)

/-- The body of `recoverPublicKey`, given the prehashed message (no `try`:
`none` models a thrown error).  The nonce point is rebuilt from `r` and the
recovery bit, and `r⁻¹(sR - zG)` is the recovered key, returned
compressed. -/
def recoverFromHash (messageHash : List Nat) (signature : String) :
    Option (List Nat) :=
  let sigHex := cleanSignature signature
  match parseHex (strSlice sigHex 0 64), parseHex (strSlice sigHex 64 128),
      parseIntHex (strSlice sigHex 128 130) with
  | some r, some s, some v =>
      let recovery := if v ≥ 27 then v - 27 else v
      if 1 ≤ r ∧ r < secpN ∧ 1 ≤ s ∧ s < secpN ∧ recovery < 4 then
        let x := r + (if recovery ≥ 2 then secpN else 0)
        match decodePoint ((if recovery % 2 = 0 then 2 else 3) :: natToBytes 32 x) with
        | none => none
        | some bigR =>
            let z := bytesToNat messageHash
            let ri := invMod r secpN
            match pAdd (pMulSec (s * ri % secpN) (some bigR))
                (pNeg (pMulSec (z * ri % secpN) secpG)) with
            | none => none
            | some q => some (encodeCompressed q)
      else none
  | _, _, _ => none

/-- The `recoverPublicKey(message, signature)` of the source: recover from
the SHA-256 hash of the prefixed message. -/
def recoverPublicKey (message : JSMessage) (signature : String) :
    Option (List Nat) :=
  recoverFromHash (sha256 (prefixMessage (messageToBytes message))) signature

end MessageSigner

/-! ## AES-256 (FIPS 197), the block cipher behind the WebCrypto AES-GCM the
source calls -/

/-- The AES S-box. -/
def aesSBox : List Nat :=
  [0x63, 0x7c, 0x77, 0x7b, 0xf2, 0x6b, 0x6f, 0xc5, 0x30, 0x01, 0x67, 0x2b, 0xfe, 0xd7, 0xab, 0x76,
   0xca, 0x82, 0xc9, 0x7d, 0xfa, 0x59, 0x47, 0xf0, 0xad, 0xd4, 0xa2, 0xaf, 0x9c, 0xa4, 0x72, 0xc0,
   0xb7, 0xfd, 0x93, 0x26, 0x36, 0x3f, 0xf7, 0xcc, 0x34, 0xa5, 0xe5, 0xf1, 0x71, 0xd8, 0x31, 0x15,
   0x04, 0xc7, 0x23, 0xc3, 0x18, 0x96, 0x05, 0x9a, 0x07, 0x12, 0x80, 0xe2, 0xeb, 0x27, 0xb2, 0x75,
   0x09, 0x83, 0x2c, 0x1a, 0x1b, 0x6e, 0x5a, 0xa0, 0x52, 0x3b, 0xd6, 0xb3, 0x29, 0xe3, 0x2f, 0x84,
   0x53, 0xd1, 0x00, 0xed, 0x20, 0xfc, 0xb1, 0x5b, 0x6a, 0xcb, 0xbe, 0x39, 0x4a, 0x4c, 0x58, 0xcf,
   0xd0, 0xef, 0xaa, 0xfb, 0x43, 0x4d, 0x33, 0x85, 0x45, 0xf9, 0x02, 0x7f, 0x50, 0x3c, 0x9f, 0xa8,
   0x51, 0xa3, 0x40, 0x8f, 0x92, 0x9d, 0x38, 0xf5, 0xbc, 0xb6, 0xda, 0x21, 0x10, 0xff, 0xf3, 0xd2,
   0xcd, 0x0c, 0x13, 0xec, 0x5f, 0x97, 0x44, 0x17, 0xc4, 0xa7, 0x7e, 0x3d, 0x64, 0x5d, 0x19, 0x73,
   0x60, 0x81, 0x4f, 0xdc, 0x22, 0x2a, 0x90, 0x88, 0x46, 0xee, 0xb8, 0x14, 0xde, 0x5e, 0x0b, 0xdb,
   0xe0, 0x32, 0x3a, 0x0a, 0x49, 0x06, 0x24, 0x5c, 0xc2, 0xd3, 0xac, 0x62, 0x91, 0x95, 0xe4, 0x79,
   0xe7, 0xc8, 0x37, 0x6d, 0x8d, 0xd5, 0x4e, 0xa9, 0x6c, 0x56, 0xf4, 0xea, 0x65, 0x7a, 0xae, 0x08,
   0xba, 0x78, 0x25, 0x2e, 0x1c, 0xa6, 0xb4, 0xc6, 0xe8, 0xdd, 0x74, 0x1f, 0x4b, 0xbd, 0x8b, 0x8a,
   0x70, 0x3e, 0xb5, 0x66, 0x48, 0x03, 0xf6, 0x0e, 0x61, 0x35, 0x57, 0xb9, 0x86, 0xc1, 0x1d, 0x9e,
   0xe1, 0xf8, 0x98, 0x11, 0x69, 0xd9, 0x8e, 0x94, 0x9b, 0x1e, 0x87, 0xe9, 0xce, 0x55, 0x28, 0xdf,
   0x8c, 0xa1, 0x89, 0x0d, 0xbf, 0xe6, 0x42, 0x68, 0x41, 0x99, 0x2d, 0x0f, 0xb0, 0x54, 0xbb, 0x16]

/-- S-box substitution of one byte. -/
def sbox (b : Nat) : Nat := aesSBox.getD b 0

/-- Doubling in GF(2^8) modulo the AES polynomial. -/
def xtime (b : Nat) : Nat := ((b <<< 1) ^^^ (if b ≥ 0x80 then 0x1b else 0)) % 256

/-- The AES round constants `Rcon[1..7]` used by the 256-bit key schedule. -/
def aesRcon (i : Nat) : Nat := [0, 1, 2, 4, 8, 16, 32, 64].getD i 0

/-- The word transformation of the AES-256 key schedule at index `i`:
rotate/substitute/round-constant every 8 words, substitute-only at offset 4,
identity otherwise. -/
def aesTempWord (i : Nat) (prev : List Nat) : List Nat :=
  if i % 8 = 0 then
    match (prev.drop 1 ++ prev.take 1).map sbox with
    | s0 :: srest => (s0 ^^^ aesRcon (i / 8)) :: srest
    | [] => []
  else if i % 8 = 4 then prev.map sbox
  else prev

/-- The AES-256 key schedule: expand 8 words (given as 4-byte lists) to 60
round-key words.  `i` is the index of the next word, counting from 8. -/
def aesExpandLoop : Nat → Nat → List (List Nat) → List (List Nat)
  | 0, _, ws => ws
  | count + 1, i, ws =>
      let back := ws.getD (i - 8) []
      aesExpandLoop count (i + 1)
        (ws ++ [List.zipWith (fun a b => a ^^^ b) back
          (aesTempWord i (ws.getD (i - 1) []))])

/-- The 60 round-key words of AES-256 for a 32-byte key. -/
def aesKeySchedule (key : List Nat) : List (List Nat) :=
  aesExpandLoop 52 8 (bytesToWords32 key |>.map word32ToBytes)

/-- SubBytes on the 16-byte state. -/
def aesSubBytes (st : List Nat) : List Nat := st.map sbox

/-- ShiftRows on the 16-byte column-major state. -/
def aesShiftRows (st : List Nat) : List Nat :=
  match st with
  | [b0, b1, b2, b3, b4, b5, b6, b7, b8, b9, b10, b11, b12, b13, b14, b15] =>
      [b0, b5, b10, b15, b4, b9, b14, b3, b8, b13, b2, b7, b12, b1, b6, b11]
  | other => other

/-- MixColumns on one 4-byte column. -/
def aesMixColumn (c : List Nat) : List Nat :=
  match c with
  | [a0, a1, a2, a3] =>
      [xtime a0 ^^^ (xtime a1 ^^^ a1) ^^^ a2 ^^^ a3,
       a0 ^^^ xtime a1 ^^^ (xtime a2 ^^^ a2) ^^^ a3,
       a0 ^^^ a1 ^^^ xtime a2 ^^^ (xtime a3 ^^^ a3),
       (xtime a0 ^^^ a0) ^^^ a1 ^^^ a2 ^^^ xtime a3]
  | other => other

/-- MixColumns on the 16-byte state. -/
def aesMixColumns (st : List Nat) : List Nat :=
  aesMixColumn (st.take 4) ++ aesMixColumn ((st.drop 4).take 4)
    ++ aesMixColumn ((st.drop 8).take 4) ++ aesMixColumn (st.drop 12)

/-- AddRoundKey with round key `round` (words 4*round .. 4*round+3). -/
def aesAddRoundKey (ws : List (List Nat)) (round : Nat) (st : List Nat) : List Nat :=
  List.zipWith (fun a b => a ^^^ b) st
    ((ws.getD (4 * round) [] ++ ws.getD (4 * round + 1) []
      ++ ws.getD (4 * round + 2) [] ++ ws.getD (4 * round + 3) []))

/-- The 13 middle rounds of AES-256. -/
def aesRounds (ws : List (List Nat)) : Nat → List Nat → List Nat
  | 0, st => st
  | k + 1, st =>
      let round := 14 - (k + 1)
      aesRounds ws k (aesAddRoundKey ws round (aesMixColumns (aesShiftRows (aesSubBytes st))))

/-- AES-256 encryption of one 16-byte block. -/
def aesEncryptBlock (key block : List Nat) : List Nat :=
  let ws := aesKeySchedule key
  let st := aesRounds ws 13 (aesAddRoundKey ws 0 block)
  aesAddRoundKey ws 14 (aesShiftRows (aesSubBytes st))

/-! ## GCM (NIST SP 800-38D), the WebCrypto `AES-GCM` mode -/

/-- One step of the GF(2^128) multiplication loop, GCM bit order. -/
def gmulLoop : Nat → Nat → Nat → Nat → Nat
  | 0, _, _, z => z
  | fuel + 1, x, v, z =>
      let z1 := if x / 2 ^ 127 % 2 = 1 then z ^^^ v else z
      let v1 := if v % 2 = 1 then (v >>> 1) ^^^ (0xe1 <<< 120) else v >>> 1
      gmulLoop fuel (x * 2 % 2 ^ 128) v1 z1

/-- Multiplication in GF(2^128) with the GCM bit convention. -/
def gmul (x y : Nat) : Nat := gmulLoop 128 x y 0

/-- GHASH of a list of 128-bit blocks under hash key `h`. -/
def ghash (h : Nat) (blocks : List Nat) : Nat :=
  blocks.foldl (fun y b => gmul (y ^^^ b) h) 0

/-- Split a byte string into 128-bit block values, zero-padding the last
block; `fuel` bounds the block count. -/
def ghashBlocks : Nat → List Nat → List Nat
  | 0, _ => []
  | _, [] => []
  | fuel + 1, l =>
      bytesToNat (l.take 16 ++ List.replicate (16 - (l.take 16).length) 0)
        :: ghashBlocks fuel (l.drop 16)

/-- The GCM counter: the high 96 bits of `j0` with the low 32 bits
incremented by `i` (mod 2^32). -/
def inc32 (j0 i : Nat) : Nat := j0 / 2 ^ 32 * 2 ^ 32 + (j0 % 2 ^ 32 + i) % 2 ^ 32

/-- The CTR keystream for `len` bytes, with counter blocks `inc32 j0 1`,
`inc32 j0 2`, .... -/
def gcmKeystream (key : List Nat) (j0 len : Nat) : List Nat :=
  ((List.range (len / 16 + 1)).flatMap
    (fun i => aesEncryptBlock key (natToBytes 16 (inc32 j0 (i + 1))))).take len

/-- The GCM authentication tag over ciphertext `ct` (no associated data, the
WebCrypto default used by the source). -/
def gcmTag (key iv ct : List Nat) : List Nat :=
  let h := bytesToNat (aesEncryptBlock key (List.replicate 16 0))
  let j0 := bytesToNat (iv ++ [0, 0, 0, 1])
  let lenBlock := bytesToNat (word64ToBytes 0 ++ word64ToBytes (ct.length * 8))
  let s := ghash h (ghashBlocks (ct.length / 16 + 1) ct ++ [lenBlock])
  natToBytes 16 (s ^^^ bytesToNat (aesEncryptBlock key (natToBytes 16 j0)))

/-- AES-256-GCM encryption with a 96-bit IV: the WebCrypto
`crypto.subtle.encrypt({name: "AES-GCM", iv}, key, data)`, which returns the
ciphertext with the 16-byte tag appended. -/
def gcmEncrypt (key iv pt : List Nat) : List Nat :=
  let j0 := bytesToNat (iv ++ [0, 0, 0, 1])
  let ct := List.zipWith (fun a b => a ^^^ b) pt (gcmKeystream key j0 pt.length)
  ct ++ gcmTag key iv ct

/-- AES-256-GCM decryption: check the tag, then decrypt; `none` models the
`OperationError` the WebCrypto API throws on an authentication failure. -/
def gcmDecrypt (key iv data : List Nat) : Option (List Nat) :=
  if data.length < 16 then none
  else
    let ct := data.take (data.length - 16)
    let tag := data.drop (data.length - 16)
    if tag = gcmTag key iv ct then
      let j0 := bytesToNat (iv ++ [0, 0, 0, 1])
      some (List.zipWith (fun a b => a ^^^ b) ct (gcmKeystream key j0 ct.length))
    else none

/-! ## Base64 (`btoa` / `atob`) -/

/-- The base64 alphabet. -/
def b64Alphabet : List Char :=
  "ABCDEFGHIJKLMNOPQRSTUVWXYZabcdefghijklmnopqrstuvwxyz0123456789+/".data

/-- The base64 character of a 6-bit value. -/
def b64Char (v : Nat) : Char := b64Alphabet.getD v (Char.ofNat 65)

/-- Encode 3-byte groups, padding the tail with `=`. -/
def b64EncodeChunks : List Nat → List Char
  | [] => []
  | [a] => [b64Char (a / 4), b64Char (a % 4 * 16), Char.ofNat 61, Char.ofNat 61]
  | [a, b] => [b64Char (a / 4), b64Char (a % 4 * 16 + b / 16), b64Char (b % 16 * 4), Char.ofNat 61]
  | a :: b :: c :: rest =>
      b64Char (a / 4) :: b64Char (a % 4 * 16 + b / 16) :: b64Char (b % 16 * 4 + c / 64)
        :: b64Char (c % 64) :: b64EncodeChunks rest

/-- Index of a character in the base64 alphabet (`none` for a non-alphabet
character). -/
def b64Val (c : Char) : Option Nat :=
  let i := (b64Alphabet.indexOf c)
  if i < 64 then some i else none

/-- Decode 4-character groups; `none` models the `InvalidCharacterError` of
`atob` on malformed input. -/
def b64DecodeChunks : List Char → Option (List Nat)
  | [] => some []
  | [c1, c2] =>
      match b64Val c1, b64Val c2 with
      | some v1, some v2 => some [v1 * 4 + v2 / 16]
      | _, _ => none
  | [c1, c2, c3] =>
      match b64Val c1, b64Val c2, b64Val c3 with
      | some v1, some v2, some v3 => some [v1 * 4 + v2 / 16, v2 % 16 * 16 + v3 / 4]
      | _, _, _ => none
  | c1 :: c2 :: c3 :: c4 :: rest =>
      match b64Val c1, b64Val c2 with
      | some v1, some v2 =>
          if c3 = Char.ofNat 61 then
            if c4 = Char.ofNat 61 ∧ rest = [] then some [v1 * 4 + v2 / 16] else none
          else
            match b64Val c3 with
            | some v3 =>
                if c4 = Char.ofNat 61 then
                  if rest = [] then some [v1 * 4 + v2 / 16, v2 % 16 * 16 + v3 / 4] else none
                else
                  match b64Val c4, b64DecodeChunks rest with
                  | some v4, some bs =>
                      some ([v1 * 4 + v2 / 16, v2 % 16 * 16 + v3 / 4, v3 % 4 * 64 + v4] ++ bs)
                  | _, _ => none
            | none => none
      | _, _ => none
  | _ => none

/-! ## `Encryption` (`src/lib/crypto/encryption.ts`) -/

namespace Encryption

/-- The fixed HKDF domain label of the cipher module. -/
def infoLabel : List Nat := utf8Encode "passface-encryption-key-v1"

/-- The password-to-key derivation shared by `encrypt` and `decrypt`:
`hkdf(sha256, utf8(password), salt, info, 32)`. -/
def deriveKey (password : String) (salt : List Nat) : List Nat :=
  hkdf (utf8Encode password) (some salt) infoLabel 32

/-- The `encrypt(data, password)` of the source: random 16-byte salt and
12-byte IV from the runtime's entropy source, HKDF key, AES-GCM.  Returns
`(encryptedData, iv, salt)`. -/
def encrypt (env : Env) (data : List Nat) (password : String) :
    List Nat × List Nat × List Nat :=
  let salt := env.randomBytes 0 16
  let iv := env.randomBytes 1 12
  let derivedKey := deriveKey password salt
  (gcmEncrypt derivedKey iv data, iv, salt)

/-- The `decrypt(encryptedData, iv, salt, password)` of the source; `none`
models the thrown `OperationError` on an authentication failure. -/
def decrypt (encryptedData iv salt : List Nat) (password : String) :
    Option (List Nat) :=
  gcmDecrypt (deriveKey password salt) iv encryptedData

/-- The `bytesToBase64` of the source (`btoa` over the byte string). -/
def bytesToBase64 (bytes : List Nat) : String :=
  String.mk (b64EncodeChunks bytes)

/-- The `base64ToBytes` of the source (`atob` + `charCodeAt`); `none` models
a thrown `InvalidCharacterError`. -/
def base64ToBytes (base64 : String) : Option (List Nat) :=
  b64DecodeChunks base64.data

/-- The `generatePassword(length = 32)` of the source: random bytes from the
runtime, base64-encoded. -/
def generatePassword (env : Env) (length : Nat) : String :=
  bytesToBase64 (env.randomBytes 0 length)

end Encryption

/-! ## `KeyStorage` (`src/lib/storage/keyStorage.ts`)

The IndexedDB object store `signing-keys` (`keyPath: "id"`) is modelled as an
association list passed in and returned explicitly; `put` overwrites the
record with the same `id`. -/

/-- A persisted signing-key record. -/
structure SigningKeyRecord where
  id : String
  encryptedKey : String
  iv : String
  salt : String
  timestamp : Nat
  metadata : Option (String × String)

/-- The `signing-keys` object store. -/
abbrev KeyDB : Type := List SigningKeyRecord

/-- IndexedDB `get` by key path. -/
def dbGet (db : KeyDB) (id : String) : Option SigningKeyRecord :=
  db.find? (fun r => r.id = id)

/-- IndexedDB `put`: replace the record with the same id, or append. -/
def dbPut (db : KeyDB) (record : SigningKeyRecord) : KeyDB :=
  if (db.find? (fun r => r.id = record.id)).isSome then
    db.map (fun r => if r.id = record.id then record else r)
  else db ++ [record]

namespace KeyStorage

/-- The `storeKey(credentialId, privateKey, password, metadata?)` of the
source: encrypt the key, base64 the three byte strings, `put` the record. -/
def storeKey (env : Env) (db : KeyDB) (credentialId : String)
    (privateKey : List Nat) (password : String)
    (metadata : Option (String × String)) : KeyDB :=
  let result := Encryption.encrypt env privateKey password
  dbPut db
    { id := credentialId
      encryptedKey := Encryption.bytesToBase64 result.1
      iv := Encryption.bytesToBase64 result.2.1
      salt := Encryption.bytesToBase64 result.2.2
      timestamp := env.now
      metadata := metadata }

/-- The `retrieveKey(credentialId, password)` of the source.  The body sits
in a `try`/`catch` that returns `null`, and a missing record returns `null`,
so every failure (no record, bad base64, authentication failure) collapses to
`none`. -/
def decryptRecord (record : SigningKeyRecord) (password : String) :
    Option (List Nat) :=
  match Encryption.base64ToBytes record.encryptedKey,
      Encryption.base64ToBytes record.iv,
      Encryption.base64ToBytes record.salt with
  | some encryptedData, some iv, some salt =>
      Encryption.decrypt encryptedData iv salt password
  | _, _, _ => none

def retrieveKey (db : KeyDB) (credentialId : String) (password : String) :
    Option (List Nat) :=
  match dbGet db credentialId with
  | none => none
  | some record => decryptRecord record password

/-- The `hasKey(credentialId)` of the source. -/
def hasKey (db : KeyDB) (credentialId : String) : Bool :=
  (dbGet db credentialId).isSome

/-- The `deleteKey(credentialId)` of the source. -/
def deleteKey (db : KeyDB) (credentialId : String) : KeyDB :=
  db.filter (fun r => r.id ≠ credentialId)

end KeyStorage

/-! ## Keccak-256

Not called by the source: the reference hash of the standard Ethereum address
convention, embedded to compare with the source's SHA-256-based address. -/

/-- Truncation to a 64-bit lane. -/
def w64 (x : Nat) : Nat := x % 2 ^ 64

/-- Left rotation of a 64-bit lane. -/
def rotl64 (x k : Nat) : Nat := w64 ((x <<< (k % 64)) ||| (x >>> (64 - k % 64)))

/-- The 24 Keccak-f[1600] round constants. -/
def keccakRC : List Nat :=
  [0x1, 0x8082, 0x800000000000808a, 0x8000000080008000, 0x808b, 0x80000001,
   0x8000000080008081, 0x8000000000008009, 0x8a, 0x88, 0x80008009, 0x8000000a,
   0x8000808b, 0x800000000000008b, 0x8000000000008089, 0x8000000000008003,
   0x8000000000008002, 0x8000000000000080, 0x800a, 0x800000008000000a,
   0x8000000080008081, 0x8000000000008080, 0x80000001, 0x8000000080008008]

/-- The rho rotation offsets, indexed by lane `x + 5*y`. -/
def keccakRho : List Nat :=
  [0, 1, 62, 28, 27, 36, 44, 6, 55, 20, 3, 10]
    ++ [43, 25, 39, 41, 45, 15, 21, 8, 18, 2, 61, 56, 14]

/-- One Keccak-f round: theta, rho, pi, chi, iota. -/
def keccakRound (rc : Nat) (a : List Nat) : List Nat :=
  let g := fun i => a.getD i 0
  let c := (List.range 5).map (fun x => g x ^^^ g (x + 5) ^^^ g (x + 10) ^^^ g (x + 15) ^^^ g (x + 20))
  let d := (List.range 5).map (fun x => c.getD ((x + 4) % 5) 0 ^^^ rotl64 (c.getD ((x + 1) % 5) 0) 1)
  let a1 := (List.range 25).map (fun i => g i ^^^ d.getD (i % 5) 0)
  let b := (List.range 25).map (fun i =>
    let x := (i % 5 + 3 * (i / 5)) % 5
    let y := i % 5
    rotl64 (a1.getD (x + 5 * y) 0) (keccakRho.getD (x + 5 * y) 0))
  let a2 := (List.range 25).map (fun i =>
    let x := i % 5
    let y := i / 5
    b.getD i 0 ^^^ ((2 ^ 64 - 1 - b.getD ((x + 1) % 5 + 5 * y) 0) &&& b.getD ((x + 2) % 5 + 5 * y) 0))
  match a2 with
  | a0 :: restLanes => (a0 ^^^ rc) :: restLanes
  | [] => []

/-- The Keccak-f[1600] permutation. -/
def keccakF (a : List Nat) : List Nat :=
  keccakRC.foldl (fun st rc => keccakRound rc st) a

/-- Little-endian lanes of one rate-sized block, padded with zero lanes to 25. -/
def keccakBlockLanes (block : List Nat) : List Nat :=
  (List.range 25).map (fun i => bytesToNat ((block.drop (8 * i)).take 8).reverse)

/-- Absorb rate-sized blocks. -/
def keccakAbsorb (st : List Nat) (blocks : List (List Nat)) : List Nat :=
  blocks.foldl
    (fun st block =>
      keccakF (List.zipWith (fun a b => a ^^^ b) st (keccakBlockLanes block)))
    st

/-- The Keccak sponge with rate 136 and 32-byte output, parametrized by the
domain padding byte (`0x01` for legacy Keccak-256, `0x06` for SHA3-256). -/
def keccakHash (padByte : Nat) (msg : List Nat) : List Nat :=
  let q := 136 - msg.length % 136
  let pad :=
    if q = 1 then [padByte ^^^ 0x80]
    else padByte :: List.replicate (q - 2) 0 ++ [0x80]
  let padded := msg ++ pad
  let st := keccakAbsorb (List.replicate 25 0) (toBlocksOf 136 (padded.length / 136) padded)
  ((st.take 4).map (fun lane => (natToBytes 8 lane).reverse)).flatten

/-- Keccak-256, the hash of the Ethereum address convention. -/
def keccak256 (msg : List Nat) : List Nat := keccakHash 0x01 msg

/-- Modelled from the spec: the standard Ethereum address of a private key
(the convention `getEthereumAddress` documents but does not implement):
Keccak-256 of the uncompressed public key without its `04` prefix, last 20
bytes, lowercase hex with a `0x` prefix. -/
def standardEthereumAddress (privateKey : List Nat) : Option String :=
  match KeyDerivation.getPublicKeyUncompressed privateKey with
  | none => none
  | some publicKey =>
      let hash := keccak256 (publicKey.drop 1)
      some ("0x" ++ String.join ((hash.drop (hash.length - 20)).map
        (fun b => padStart (natToHex b) 2)))

/-! ## The mathematical reference curve

The proofs relate the executable `Nat`-level point arithmetic above to the
group of nonsingular points of the corresponding Weierstrass curve in
Mathlib, over the field `ZMod secpP`. -/

/-- The secp256k1 curve y^2 = x^3 + 7 as a Mathlib Weierstrass curve. -/
def secpW : WeierstrassCurve.Affine (ZMod secpP) :=
  { a₁ := 0, a₂ := 0, a₃ := 0, a₄ := 0, a₆ := 7 }

/-- The representation map from Mathlib's nonsingular points to the
executable affine points: the point at infinity is `none`, a finite point is
the pair of coordinate representatives. -/
def reprPoint : secpW.Point → ECPoint
  | WeierstrassCurve.Affine.Point.zero => none
  | @WeierstrassCurve.Affine.Point.some _ _ _ x y _ => some (x.val, y.val)

/-- The base point as a nonsingular point of the reference curve. -/
def secpGpt : secpW.Point :=
  WeierstrassCurve.Affine.Point.some (x := (secpGx : ZMod secpP)) (y := (secpGy : ZMod secpP))
    (by
      rw [WeierstrassCurve.Affine.nonsingular_iff, WeierstrassCurve.Affine.equation_iff]
      refine ⟨by decide, Or.inr ?_⟩
      show (secpGy : ZMod secpP) ≠ -(secpGy : ZMod secpP) - secpW.a₁ * _ - secpW.a₃
      show (secpGy : ZMod secpP) ≠ -(secpGy : ZMod secpP) - 0 * _ - 0
      rw [zero_mul, sub_zero, sub_zero]
      decide)

/-- A zero-entropy runtime environment, used for concrete evaluations. -/
def envZero : Env := ⟨fun _ _ => 0, 0⟩

/-! # Proofs

Everything from here on is a theorem about the definitions above.  The
first sections develop the number-theoretic and algebraic facts about the
embedded secp256k1 arithmetic (primality of the two moduli via Pratt
certificates, and the correspondence between the executable point arithmetic
and Mathlib's Weierstrass-curve group); the claim theorems follow. -/

/-! ## Primality of the secp256k1 moduli -/

/-- Correctness of the binary modular exponentiation: with enough fuel it
computes `a ^ e % m`. -/
theorem powMod_eq (m : Nat) :
    ∀ fuel a e, e < 2 ^ fuel → powMod m fuel a e = a ^ e % m := by
  intro fuel
  induction fuel with
  | zero =>
      intro a e he
      have he0 : e = 0 := by simpa using he
      subst he0
      simp [powMod]
  | succ f ih =>
      intro a e he
      by_cases he0 : e = 0
      · subst he0; simp [powMod]
      · have hhalf : e / 2 < 2 ^ f := by
          rw [pow_succ] at he
          omega
        have hrec := ih (a * a % m) (e / 2) hhalf
        have hsq : (a * a % m) ^ (e / 2) % m = (a * a) ^ (e / 2) % m :=
          (Nat.pow_mod (a * a) (e / 2) m).symm
        have hmul : a * a = a ^ 2 := by ring
        rw [powMod, if_neg he0, hrec, hsq, hmul, ← pow_mul]
        by_cases hpar : e % 2 = 1
        · simp only [if_pos hpar]
          rw [← Nat.mul_mod]
          congr 1
          rw [← pow_succ']
          congr 1
          omega
        · simp only [if_neg hpar]
          congr 2
          omega

/-- The `powMod` value seen in `ZMod m`. -/
theorem powMod_cast (m : Nat) (fuel a e : Nat) (he : e < 2 ^ fuel) :
    ((powMod m fuel a e : Nat) : ZMod m) = (a : ZMod m) ^ e := by
  rw [powMod_eq m fuel a e he, ZMod.natCast_mod, Nat.cast_pow]

/-- A prime dividing a product of listed prime powers is one of the listed
primes. -/
theorem prime_dvd_factor_list (q : Nat) (hq : q.Prime) :
    ∀ l : List (Nat × Nat), q ∣ (l.map (fun qe => qe.1 ^ qe.2)).prod →
      (∀ qe ∈ l, Nat.Prime qe.1) → ∃ qe ∈ l, q = qe.1 := by
  intro l
  induction l with
  | nil =>
      intro hdvd _
      simp only [List.map_nil, List.prod_nil, Nat.dvd_one] at hdvd
      exact absurd hdvd hq.ne_one
  | cons head tail ih =>
      intro hdvd hprimes
      rw [List.map_cons, List.prod_cons] at hdvd
      rcases (Nat.Prime.dvd_mul hq).mp hdvd with hd | hd
      · have hqhead : q ∣ head.1 := hq.dvd_of_dvd_pow hd
        have : q = head.1 :=
          (Nat.prime_dvd_prime_iff_eq hq (hprimes head (List.mem_cons_self head tail))).mp hqhead
        exact ⟨head, List.mem_cons_self head tail, this⟩
      · obtain ⟨qe, hmem, heq⟩ := ih hd (fun qe hqe => hprimes qe (List.mem_cons_of_mem head hqe))
        exact ⟨qe, List.mem_cons_of_mem head hmem, heq⟩

/-- The Pratt/Lucas primality certificate, phrased over the executable
`powMod`: `a` has order `p - 1` modulo `p` (checked via the full
factorization of `p - 1`), so `p` is prime. -/
theorem lucasCert (p a : Nat) (l : List (Nat × Nat))
    (hp : 2 < p)
    (hlt : p ≤ 2 ^ 257)
    (hfac : (l.map (fun qe => qe.1 ^ qe.2)).prod = p - 1)
    (hq : ∀ qe ∈ l, Nat.Prime qe.1)
    (hpow : powMod p 257 a (p - 1) = 1)
    (hne : ∀ qe ∈ l, ¬ powMod p 257 a ((p - 1) / qe.1) = 1) :
    Nat.Prime p := by
  have hplt : p - 1 < 2 ^ 257 := by omega
  have h1p : 1 < p := by omega
  haveI : NeZero p := ⟨by omega⟩
  haveI : Fact (1 < p) := ⟨h1p⟩
  apply lucas_primality p (a : ZMod p)
  · rw [← powMod_cast p 257 a (p - 1) hplt, hpow]
    exact Nat.cast_one
  · intro q hqprime hqdvd
    obtain ⟨qe, hmem, rfl⟩ := prime_dvd_factor_list q hqprime l (hfac ▸ hqdvd) hq
    intro hcontra
    apply hne qe hmem
    have hlt2 : (p - 1) / qe.1 < 2 ^ 257 := by
      have := Nat.div_le_self (p - 1) qe.1
      omega
    have hcast : ((powMod p 257 a ((p - 1) / qe.1) : Nat) : ZMod p) = 1 := by
      rw [powMod_cast p 257 a _ hlt2, hcontra]
    have hval : powMod p 257 a ((p - 1) / qe.1) < p := by
      rw [powMod_eq p 257 a _ hlt2]
      exact Nat.mod_lt _ (by omega)
    have := congrArg ZMod.val hcast
    rwa [ZMod.val_cast_of_lt hval, ZMod.val_one p] at this



/-- Pratt certificate: 1206781 is prime. -/
theorem prattPrime_1206_6781 : Nat.Prime 1206781 :=
  lucasCert 1206781 10 [(2, 2), (3, 1), (5, 1), (20113, 1)]
    (by norm_num) (by norm_num) (by norm_num)
    (by
      intro qe h
      fin_cases h
      · norm_num
      · norm_num
      · norm_num
      · norm_num)
    (by decide) (by decide)

/-- Pratt certificate: 1627771 is prime. -/
theorem prattPrime_1627_7771 : Nat.Prime 1627771 :=
  lucasCert 1627771 3 [(2, 1), (3, 1), (5, 1), (29, 1), (1871, 1)]
    (by norm_num) (by norm_num) (by norm_num)
    (by
      intro qe h
      fin_cases h
      · norm_num
      · norm_num
      · norm_num
      · norm_num
      · norm_num)
    (by decide) (by decide)

/-- Pratt certificate: 4681609 is prime. -/
theorem prattPrime_4681_1609 : Nat.Prime 4681609 :=
  lucasCert 4681609 23 [(2, 3), (3, 1), (97, 1), (2011, 1)]
    (by norm_num) (by norm_num) (by norm_num)
    (by
      intro qe h
      fin_cases h
      · norm_num
      · norm_num
      · norm_num
      · norm_num)
    (by decide) (by decide)

/-- Pratt certificate: 7240687 is prime. -/
theorem prattPrime_7240_0687 : Nat.Prime 7240687 :=
  lucasCert 7240687 3 [(2, 1), (3, 1), (1206781, 1)]
    (by norm_num) (by norm_num) (by norm_num)
    (by
      intro qe h
      fin_cases h
      · norm_num
      · norm_num
      · exact prattPrime_1206_6781)
    (by decide) (by decide)

/-- Pratt certificate: 13331831 is prime. -/
theorem prattPrime_1333_1831 : Nat.Prime 13331831 :=
  lucasCert 13331831 13 [(2, 1), (5, 1), (971, 1), (1373, 1)]
    (by norm_num) (by norm_num) (by norm_num)
    (by
      intro qe h
      fin_cases h
      · norm_num
      · norm_num
      · norm_num
      · norm_num)
    (by decide) (by decide)

/-- Pratt certificate: 44706919 is prime. -/
theorem prattPrime_4470_6919 : Nat.Prime 44706919 :=
  lucasCert 44706919 6 [(2, 1), (3, 1), (797, 1), (9349, 1)]
    (by norm_num) (by norm_num) (by norm_num)
    (by
      intro qe h
      fin_cases h
      · norm_num
      · norm_num
      · norm_num
      · norm_num)
    (by decide) (by decide)

/-- Pratt certificate: 107590001 is prime. -/
theorem prattPrime_1075_0001 : Nat.Prime 107590001 :=
  lucasCert 107590001 3 [(2, 4), (5, 4), (7, 1), (29, 1), (53, 1)]
    (by norm_num) (by norm_num) (by norm_num)
    (by
      intro qe h
      fin_cases h
      · norm_num
      · norm_num
      · norm_num
      · norm_num
      · norm_num)
    (by decide) (by decide)

/-- Pratt certificate: 545358713 is prime. -/
theorem prattPrime_5453_8713 : Nat.Prime 545358713 :=
  lucasCert 545358713 5 [(2, 3), (41, 1), (59, 1), (28181, 1)]
    (by norm_num) (by norm_num) (by norm_num)
    (by
      intro qe h
      fin_cases h
      · norm_num
      · norm_num
      · norm_num
      · norm_num)
    (by decide) (by decide)

/-- Pratt certificate: 297159362677 is prime. -/
theorem prattPrime_2971_2677 : Nat.Prime 297159362677 :=
  lucasCert 297159362677 2 [(2, 2), (3, 2), (11, 1), (461, 1), (1627771, 1)]
    (by norm_num) (by norm_num) (by norm_num)
    (by
      intro qe h
      fin_cases h
      · norm_num
      · norm_num
      · norm_num
      · norm_num
      · exact prattPrime_1627_7771)
    (by decide) (by decide)

/-- Pratt certificate: 107361793816595537 is prime. -/
theorem prattPrime_1073_5537 : Nat.Prime 107361793816595537 :=
  lucasCert 107361793816595537 3 [(2, 4), (16699, 1), (85831, 1), (4681609, 1)]
    (by norm_num) (by norm_num) (by norm_num)
    (by
      intro qe h
      fin_cases h
      · norm_num
      · norm_num
      · norm_num
      · exact prattPrime_4681_1609)
    (by decide) (by decide)

/-- Pratt certificate: 173378833005251801 is prime. -/
theorem prattPrime_1733_1801 : Nat.Prime 173378833005251801 :=
  lucasCert 173378833005251801 6 [(2, 3), (5, 2), (2621, 1), (24809, 1), (13331831, 1)]
    (by norm_num) (by norm_num) (by norm_num)
    (by
      intro qe h
      fin_cases h
      · norm_num
      · norm_num
      · norm_num
      · norm_num
      · exact prattPrime_1333_1831)
    (by decide) (by decide)

/-- Pratt certificate: 174723607534414371449 is prime. -/
theorem prattPrime_1747_1449 : Nat.Prime 174723607534414371449 :=
  lucasCert 174723607534414371449 3 [(2, 3), (17, 1), (59, 1), (4051, 1), (120233, 1), (44706919, 1)]
    (by norm_num) (by norm_num) (by norm_num)
    (by
      intro qe h
      fin_cases h
      · norm_num
      · norm_num
      · norm_num
      · norm_num
      · norm_num
      · exact prattPrime_4470_6919)
    (by decide) (by decide)

/-- Pratt certificate: 22149492674086928081353 is prime. -/
theorem prattPrime_2214_1353 : Nat.Prime 22149492674086928081353 :=
  lucasCert 22149492674086928081353 5 [(2, 3), (3, 1), (5323, 1), (173378833005251801, 1)]
    (by norm_num) (by norm_num) (by norm_num)
    (by
      intro qe h
      fin_cases h
      · norm_num
      · norm_num
      · norm_num
      · exact prattPrime_1733_1801)
    (by decide) (by decide)

/-- Pratt certificate: 132896956044521568488119 is prime. -/
theorem prattPrime_1328_8119 : Nat.Prime 132896956044521568488119 :=
  lucasCert 132896956044521568488119 6 [(2, 1), (3, 1), (22149492674086928081353, 1)]
    (by norm_num) (by norm_num) (by norm_num)
    (by
      intro qe h
      fin_cases h
      · norm_num
      · norm_num
      · exact prattPrime_2214_1353)
    (by decide) (by decide)

/-- Pratt certificate: 29047611873442575647497758179 is prime. -/
theorem prattPrime_2904_8179 : Nat.Prime 29047611873442575647497758179 :=
  lucasCert 29047611873442575647497758179 2 [(2, 1), (293, 1), (305873, 1), (545358713, 1), (297159362677, 1)]
    (by norm_num) (by norm_num) (by norm_num)
    (by
      intro qe h
      fin_cases h
      · norm_num
      · norm_num
      · norm_num
      · exact prattPrime_5453_8713
      · exact prattPrime_2971_2677)
    (by decide) (by decide)

/-- Pratt certificate: 341948486974166000522343609283189 is prime. -/
theorem prattPrime_3419_3189 : Nat.Prime 341948486974166000522343609283189 :=
  lucasCert 341948486974166000522343609283189 2 [(2, 2), (3, 3), (109, 1), (29047611873442575647497758179, 1)]
    (by norm_num) (by norm_num) (by norm_num)
    (by
      intro qe h
      fin_cases h
      · norm_num
      · norm_num
      · norm_num
      · exact prattPrime_2904_8179)
    (by decide) (by decide)

/-- Pratt certificate: 255515944373312847190720520512484175977 is prime. -/
theorem prattPrime_2555_5977 : Nat.Prime 255515944373312847190720520512484175977 :=
  lucasCert 255515944373312847190720520512484175977 3 [(2, 3), (7, 2), (11, 1), (1627, 1), (2657, 1), (4423, 1), (41201, 1), (96557, 1), (7240687, 1), (107590001, 1)]
    (by norm_num) (by norm_num) (by norm_num)
    (by
      intro qe h
      fin_cases h
      · norm_num
      · norm_num
      · norm_num
      · norm_num
      · norm_num
      · norm_num
      · norm_num
      · norm_num
      · exact prattPrime_7240_0687
      · exact prattPrime_1075_0001)
    (by decide) (by decide)

/-- Pratt certificate: 205115282021455665897114700593932402728804164701536103180137503955397371 is prime. -/
theorem prattPrime_2051_7371 : Nat.Prime 205115282021455665897114700593932402728804164701536103180137503955397371 :=
  lucasCert 205115282021455665897114700593932402728804164701536103180137503955397371 10 [(2, 1), (3, 1), (5, 1), (29, 2), (31, 1), (7723, 1), (132896956044521568488119, 1), (255515944373312847190720520512484175977, 1)]
    (by norm_num) (by norm_num) (by norm_num)
    (by
      intro qe h
      fin_cases h
      · norm_num
      · norm_num
      · norm_num
      · norm_num
      · norm_num
      · norm_num
      · exact prattPrime_1328_8119
      · exact prattPrime_2555_5977)
    (by decide) (by decide)

/-- Pratt certificate: the secp256k1 group order is prime. -/
theorem secpN_prime : Nat.Prime secpN :=
  lucasCert secpN 7 [(2, 6), (3, 1), (149, 1), (631, 1), (107361793816595537, 1), (174723607534414371449, 1), (341948486974166000522343609283189, 1)]
    (by norm_num [secpN]) (by norm_num [secpN]) (by norm_num [secpN])
    (by
      intro qe h
      fin_cases h
      · norm_num
      · norm_num
      · norm_num
      · norm_num
      · exact prattPrime_1073_5537
      · exact prattPrime_1747_1449
      · exact prattPrime_3419_3189)
    (by decide) (by decide)

/-- Pratt certificate: the secp256k1 field modulus is prime. -/
theorem secpP_prime : Nat.Prime secpP :=
  lucasCert secpP 3 [(2, 1), (3, 1), (7, 1), (13441, 1), (205115282021455665897114700593932402728804164701536103180137503955397371, 1)]
    (by norm_num [secpP]) (by norm_num [secpP]) (by norm_num [secpP])
    (by
      intro qe h
      fin_cases h
      · norm_num
      · norm_num
      · norm_num
      · norm_num
      · exact prattPrime_2051_7371)
    (by decide) (by decide)



/-! ## The executable field arithmetic, seen in `ZMod` -/

/-- The field modulus is prime, as an instance. -/
@[instance] theorem factPrimeSecpP : Fact (Nat.Prime secpP) := ⟨secpP_prime⟩

/-- The group order is prime, as an instance. -/
@[instance] theorem factPrimeSecpN : Fact (Nat.Prime secpN) := ⟨secpN_prime⟩

/-- The field modulus is positive, as an instance. -/
@[instance] theorem neZeroSecpP : NeZero secpP := ⟨by norm_num [secpP]⟩

/-- The group order is positive, as an instance. -/
@[instance] theorem neZeroSecpN : NeZero secpN := ⟨by norm_num [secpN]⟩

/-- Casting the value of a residue returns the residue. -/
theorem castVal {m : Nat} [NeZero m] (x : ZMod m) : ((x.val : Nat) : ZMod m) = x :=
  ZMod.natCast_rightInverse x

/-- Nat-level equality of values is `ZMod` equality. -/
theorem val_inj {m : Nat} [NeZero m] (x y : ZMod m) : x.val = y.val ↔ x = y :=
  ⟨fun h => by rw [← castVal x, ← castVal y, h], fun h => h ▸ rfl⟩

/-- The cast of an explicit `Nat` remainder. -/
theorem cast_mod (m a : Nat) : ((a % m : Nat) : ZMod m) = (a : ZMod m) :=
  ZMod.natCast_mod a m

/-- The cast of the executable modular subtraction. -/
theorem cast_subMod (m : Nat) [NeZero m] (a b : Nat) :
    ((subMod a b m : Nat) : ZMod m) = (a : ZMod m) - b := by
  have hmpos : 0 < m := Nat.pos_of_ne_zero (NeZero.ne m)
  have hble : m - b % m + b % m = m := Nat.sub_add_cancel (le_of_lt (Nat.mod_lt b hmpos))
  have hcast : ((m - b % m : Nat) : ZMod m) = -(b : ZMod m) := by
    have hc := congrArg (Nat.cast (R := ZMod m)) hble
    push_cast at hc
    rw [ZMod.natCast_self, cast_mod] at hc
    exact eq_neg_of_add_eq_zero_left hc
  rw [subMod, cast_mod]
  push_cast
  rw [hcast]
  ring

/-- The executable Fermat inverse agrees with the field inverse. -/
theorem cast_invMod (m : Nat) [Fact (Nat.Prime m)] (hm : m ≤ 2 ^ 257) (a : Nat)
    (ha : (a : ZMod m) ≠ 0) : ((invMod a m : Nat) : ZMod m) = (a : ZMod m)⁻¹ := by
  have h2 : m - 2 < 2 ^ 257 := by omega
  rw [invMod, powMod_cast m 257 a (m - 2) h2]
  have hp2 : 2 ≤ m := (Fact.out (p := m.Prime)).two_le
  have hone : (a : ZMod m) ^ (m - 2) * a = 1 := by
    rw [← pow_succ]
    have he : m - 2 + 1 = m - 1 := by omega
    rw [he]
    exact ZMod.pow_card_sub_one_eq_one ha
  rw [mul_comm] at hone
  exact eq_inv_of_mul_eq_one_right hone

/-- `powMod` output is reduced. -/
theorem powMod_lt (m : Nat) (hm : 0 < m) (fuel a e : Nat) (he : e < 2 ^ fuel) :
    powMod m fuel a e < m := by
  rw [powMod_eq m fuel a e he]
  exact Nat.mod_lt _ hm

/-! ## The executable group law is Mathlib's -/

/-- The reference curve has `negY x y = -y`. -/
theorem secpW_negY (x y : ZMod secpP) : secpW.negY x y = -y := by
  simp [WeierstrassCurve.Affine.negY, secpW]

/-- The reference curve has `addX x₁ x₂ l = l² - x₁ - x₂`. -/
theorem secpW_addX (x1 x2 l : ZMod secpP) :
    secpW.addX x1 x2 l = l ^ 2 - x1 - x2 := by
  simp [WeierstrassCurve.Affine.addX, secpW]

/-- The reference curve has `addY x₁ x₂ y₁ l = l * (x₁ - x₃) - y₁`. -/
theorem secpW_addY (x1 x2 y1 l : ZMod secpP) :
    secpW.addY x1 x2 y1 l = l * (x1 - secpW.addX x1 x2 l) - y1 := by
  simp only [WeierstrassCurve.Affine.addY, WeierstrassCurve.Affine.negAddY, secpW_negY]
  simp [secpW]
  ring

/-- `pAddFinish` computes the Mathlib chord-and-tangent coordinates, for any
slope representative. -/
theorem pAddFinish_eq (lamNat : Nat) (l x1 y1 x2 : ZMod secpP)
    (hlam : (lamNat : ZMod secpP) = l) :
    pAddFinish lamNat x1.val y1.val x2.val =
      some ((secpW.addX x1 x2 l).val, (secpW.addY x1 x2 y1 l).val) := by
  have hx3cast : ((subMod (lamNat * lamNat % secpP) ((x1.val + x2.val) % secpP) secpP : Nat) :
      ZMod secpP) = secpW.addX x1 x2 l := by
    rw [cast_subMod, cast_mod, cast_mod]
    push_cast
    rw [hlam, castVal, castVal, secpW_addX]
    ring
  have hx3lt : subMod (lamNat * lamNat % secpP) ((x1.val + x2.val) % secpP) secpP < secpP :=
    Nat.mod_lt _ (Nat.pos_of_ne_zero (NeZero.ne secpP))
  have hx3val : subMod (lamNat * lamNat % secpP) ((x1.val + x2.val) % secpP) secpP =
      (secpW.addX x1 x2 l).val := by
    have hv := congrArg ZMod.val hx3cast
    rwa [ZMod.val_cast_of_lt hx3lt] at hv
  have hy3cast : ((subMod (lamNat * subMod x1.val
      (subMod (lamNat * lamNat % secpP) ((x1.val + x2.val) % secpP) secpP) secpP % secpP)
      y1.val secpP : Nat) : ZMod secpP) = secpW.addY x1 x2 y1 l := by
    rw [cast_subMod, cast_mod]
    push_cast
    rw [cast_subMod, hx3cast, castVal, castVal, hlam, secpW_addY]
  have hy3lt : subMod (lamNat * subMod x1.val
      (subMod (lamNat * lamNat % secpP) ((x1.val + x2.val) % secpP) secpP) secpP % secpP)
      y1.val secpP < secpP := Nat.mod_lt _ (Nat.pos_of_ne_zero (NeZero.ne secpP))
  have hy3val : subMod (lamNat * subMod x1.val
      (subMod (lamNat * lamNat % secpP) ((x1.val + x2.val) % secpP) secpP) secpP % secpP)
      y1.val secpP = (secpW.addY x1 x2 y1 l).val := by
    have hv := congrArg ZMod.val hy3cast
    rwa [ZMod.val_cast_of_lt hy3lt] at hv
  rw [← hy3val, ← hx3val]
  rfl


open WeierstrassCurve.Affine

/-- `reprPoint` sends the identity to `none`, and only it. -/
theorem reprPoint_eq_none (P : secpW.Point) : reprPoint P = none ↔ P = 0 := by
  cases P with
  | zero => simp [reprPoint]; rfl
  | @some x y h =>
      simp [reprPoint]

/-- A cast sum of values vanishes exactly when the executable vertical test
fires. -/
theorem val_add_mod_eq_zero_iff (y1 y2 : ZMod secpP) :
    (y1.val + y2.val) % secpP = 0 ↔ y1 = -y2 := by
  constructor
  · intro hy
    have hcast : ((y1.val + y2.val : Nat) : ZMod secpP) = 0 := by
      rw [← cast_mod secpP (y1.val + y2.val), hy, Nat.cast_zero]
    push_cast at hcast
    rw [castVal, castVal] at hcast
    exact eq_neg_of_add_eq_zero_left hcast
  · intro hyF
    have hcast : ((y1.val + y2.val : Nat) : ZMod secpP) = 0 := by
      push_cast
      rw [castVal, castVal, hyF]
      ring
    rw [ZMod.natCast_zmod_eq_zero_iff_dvd] at hcast
    obtain ⟨c, hc⟩ := hcast
    rw [hc]
    exact Nat.mul_mod_right secpP c

/-- The executable group law agrees with the Mathlib group law through
`reprPoint`. -/
theorem reprPoint_add (P Q : secpW.Point) :
    pAdd (reprPoint P) (reprPoint Q) = reprPoint (P + Q) := by
  cases P with
  | zero =>
      show pAdd none (reprPoint Q) = reprPoint (0 + Q)
      rw [zero_add]
      cases Q <;> rfl
  | @some x1 y1 h1 =>
      cases Q with
      | zero =>
          show pAdd (reprPoint (Point.some h1)) none = reprPoint (Point.some h1 + 0)
          rw [add_zero]
          rfl
      | @some x2 y2 h2 =>
          show pAdd (some (x1.val, y1.val)) (some (x2.val, y2.val)) =
            reprPoint (Point.some h1 + Point.some h2)
          by_cases hx : x1.val = x2.val
          · have hxF : x1 = x2 := (val_inj x1 x2).mp hx
            by_cases hy : (y1.val + y2.val) % secpP = 0
            · have hyF : y1 = secpW.negY x2 y2 := by
                rw [secpW_negY]
                exact (val_add_mod_eq_zero_iff y1 y2).mp hy
              rw [Point.add_of_Y_eq hxF hyF]
              show (if x1.val = x2.val then
                  if (y1.val + y2.val) % secpP = 0 then none
                  else pAddFinish (3 * x1.val * x1.val % secpP *
                    invMod (2 * y1.val % secpP) secpP % secpP) x1.val y1.val x2.val
                else pAddFinish (subMod y1.val y2.val secpP *
                  invMod (subMod x1.val x2.val secpP) secpP % secpP) x1.val y1.val x2.val) =
                reprPoint 0
              rw [if_pos hx, if_pos hy]
              rfl
            · have hyF : y1 ≠ secpW.negY x2 y2 := by
                rw [secpW_negY]
                intro hcontra
                exact hy ((val_add_mod_eq_zero_iff y1 y2).mpr hcontra)
              have hy12 : y1 = y2 := by
                rcases Y_eq_of_X_eq h1.1 h2.1 hxF with h | h
                · exact h
                · exact (hyF h).elim
              have h2y : (2 * y1 : ZMod secpP) ≠ 0 := by
                intro hcontra
                apply hy
                apply (val_add_mod_eq_zero_iff y1 y2).mpr
                rw [← hy12]
                rw [two_mul] at hcontra
                exact eq_neg_of_add_eq_zero_left hcontra
              have hcastden : ((2 * y1.val % secpP : Nat) : ZMod secpP) = 2 * y1 := by
                rw [cast_mod]
                push_cast
                rw [castVal]
              have hslope : secpW.slope x1 x2 y1 y2 =
                  3 * x1 * x1 * (2 * y1)⁻¹ := by
                rw [slope_of_Y_ne hxF hyF, secpW_negY]
                have ha1 : secpW.a₁ = 0 := rfl
                have ha2 : secpW.a₂ = 0 := rfl
                have ha4 : secpW.a₄ = 0 := rfl
                rw [ha1, ha2, ha4]
                rw [div_eq_mul_inv]
                congr 1
                · ring
                · congr 1
                  ring
              have hlam : ((3 * x1.val * x1.val % secpP *
                  invMod (2 * y1.val % secpP) secpP % secpP : Nat) : ZMod secpP) =
                  secpW.slope x1 x2 y1 y2 := by
                rw [cast_mod]
                push_cast
                rw [cast_mod]
                push_cast
                rw [castVal]
                rw [cast_invMod secpP (by norm_num [secpP]) _ (hcastden ▸ h2y), hcastden,
                  hslope]
              rw [Point.add_of_Y_ne hyF]
              show (if x1.val = x2.val then
                  if (y1.val + y2.val) % secpP = 0 then none
                  else pAddFinish (3 * x1.val * x1.val % secpP *
                    invMod (2 * y1.val % secpP) secpP % secpP) x1.val y1.val x2.val
                else pAddFinish (subMod y1.val y2.val secpP *
                  invMod (subMod x1.val x2.val secpP) secpP % secpP) x1.val y1.val x2.val) = _
              rw [if_pos hx, if_neg hy]
              exact pAddFinish_eq _ _ x1 y1 x2 hlam
          · have hxF : x1 ≠ x2 := fun h => hx ((val_inj x1 x2).mpr h)
            have hden : (x1 - x2 : ZMod secpP) ≠ 0 := sub_ne_zero.mpr hxF
            have hcastden : ((subMod x1.val x2.val secpP : Nat) : ZMod secpP) = x1 - x2 := by
              rw [cast_subMod, castVal, castVal]
            have hlam : ((subMod y1.val y2.val secpP *
                invMod (subMod x1.val x2.val secpP) secpP % secpP : Nat) : ZMod secpP) =
                secpW.slope x1 x2 y1 y2 := by
              rw [cast_mod]
              push_cast
              rw [cast_subMod, castVal, castVal]
              rw [cast_invMod secpP (by norm_num [secpP]) _ (hcastden ▸ hden), hcastden]
              rw [slope_of_X_ne hxF, div_eq_mul_inv]
            rw [Point.add_of_X_ne hxF]
            show (if x1.val = x2.val then
                if (y1.val + y2.val) % secpP = 0 then none
                else pAddFinish (3 * x1.val * x1.val % secpP *
                  invMod (2 * y1.val % secpP) secpP % secpP) x1.val y1.val x2.val
              else pAddFinish (subMod y1.val y2.val secpP *
                invMod (subMod x1.val x2.val secpP) secpP % secpP) x1.val y1.val x2.val) = _
            rw [if_neg hx]
            exact pAddFinish_eq _ _ x1 y1 x2 hlam


open WeierstrassCurve.Affine

/-- Executable negation agrees with Mathlib negation. -/
theorem reprPoint_neg (P : secpW.Point) : pNeg (reprPoint P) = reprPoint (-P) := by
  cases P with
  | zero => rfl
  | @some x y h =>
      show some (x.val, (secpP - y.val) % secpP) = some (x.val, (secpW.negY x y).val)
      rw [secpW_negY]
      by_cases hy : y = 0
      · subst hy
        simp [ZMod.neg_val, ZMod.val_zero]
      · rw [ZMod.neg_val, if_neg hy]
        have hvlt : y.val < secpP := ZMod.val_lt y
        have hvne : y.val ≠ 0 := fun hc => hy ((ZMod.val_eq_zero y).mp hc)
        rw [Nat.mod_eq_of_lt (by omega)]

/-- Executable double-and-add agrees with Mathlib scalar multiplication. -/
theorem reprPoint_smul : ∀ (fuel k : Nat), k < 2 ^ fuel → ∀ P : secpW.Point,
    pMul fuel k (reprPoint P) = reprPoint (k • P) := by
  intro fuel
  induction fuel with
  | zero =>
      intro k hk P
      have hk0 : k = 0 := by simpa using hk
      subst hk0
      show none = reprPoint (0 • P)
      rw [zero_nsmul]
      rfl
  | succ f ih =>
      intro k hk P
      by_cases hk0 : k = 0
      · subst hk0
        show none = reprPoint (0 • P)
        rw [zero_nsmul]
        rfl
      · have hhalf : k / 2 < 2 ^ f := by
          rw [pow_succ] at hk
          omega
        show (if k = 0 then none else
            let rest := pMul f (k / 2) (pAdd (reprPoint P) (reprPoint P))
            if k % 2 = 1 then pAdd (reprPoint P) rest else rest) = reprPoint (k • P)
        rw [if_neg hk0]
        have hdbl : pAdd (reprPoint P) (reprPoint P) = reprPoint (P + P) := reprPoint_add P P
        have hrest : pMul f (k / 2) (pAdd (reprPoint P) (reprPoint P)) =
            reprPoint ((k / 2) • (P + P)) := by
          rw [hdbl]
          exact ih (k / 2) hhalf (P + P)
        have htwo : (k / 2) • (P + P) = (k / 2 * 2) • P := by
          rw [← two_nsmul, smul_smul, Nat.mul_comm]
        by_cases hpar : k % 2 = 1
        · simp only [hrest, if_pos hpar, htwo]
          rw [reprPoint_add P ((k / 2 * 2) • P)]
          congr 1
          have hk' : k = k / 2 * 2 + 1 := by omega
          calc P + (k / 2 * 2) • P = (k / 2 * 2 + 1) • P := by
                rw [succ_nsmul, add_comm]
            _ = k • P := by rw [← hk']
        · simp only [hrest, if_neg hpar, htwo]
          congr 1
          have hk' : k = k / 2 * 2 := by omega
          rw [← hk']

/-- Scalar multiplication through the representation, for 256-bit scalars. -/
theorem pMulSec_repr (k : Nat) (hk : k < 2 ^ 257) (P : secpW.Point) :
    pMulSec k (reprPoint P) = reprPoint (k • P) :=
  reprPoint_smul 257 k hk P

/-- The base point representation is the executable base point. -/
theorem reprPoint_secpGpt : reprPoint secpGpt = secpG := by
  show some ((secpGx : ZMod secpP).val, (secpGy : ZMod secpP).val) = some (secpGx, secpGy)
  rw [ZMod.val_cast_of_lt (by norm_num [secpGx, secpP]),
    ZMod.val_cast_of_lt (by norm_num [secpGy, secpP])]

set_option maxHeartbeats 40000000 in
/-- The heavyweight kernel computation: the executable scalar multiplication
annihilates the base point at the group order. -/
theorem pMulSec_secpN_secpG : pMulSec secpN secpG = none := by decide

/-- The base point has order dividing `secpN` in the reference group. -/
theorem secpN_smul_secpGpt : secpN • secpGpt = 0 := by
  have h := pMulSec_repr secpN (by norm_num [secpN]) secpGpt
  rw [reprPoint_secpGpt, pMulSec_secpN_secpG] at h
  exact (reprPoint_eq_none (secpN • secpGpt)).mp h.symm

/-- Scalar multiples of the base point only depend on the scalar modulo the
group order. -/
theorem smul_secpGpt_mod (a : Nat) : (a % secpN) • secpGpt = a • secpGpt := by
  conv_rhs => rw [← Nat.div_add_mod a secpN]
  rw [add_nsmul, mul_nsmul, secpN_smul_secpGpt, nsmul_zero, zero_add]



/-! ## Byte-string encodings -/

/-- `natToBytes` always has the requested length. -/
theorem natToBytes_length : ∀ (len x : Nat), (natToBytes len x).length = len := by
  intro len
  induction len with
  | zero => intro x; rfl
  | succ k ih =>
      intro x
      show (natToBytes k (x >>> 8) ++ [x % 256]).length = k + 1
      rw [List.length_append, ih]
      rfl

/-- `natToBytes` produces bytes. -/
theorem natToBytes_lt : ∀ (len x : Nat), ∀ b ∈ natToBytes len x, b < 256 := by
  intro len
  induction len with
  | zero => intro x b hb; cases hb
  | succ k ih =>
      intro x b hb
      rcases List.mem_append.mp hb with h | h
      · exact ih (x >>> 8) b h
      · rcases List.mem_singleton.mp h with rfl
        exact Nat.mod_lt _ (by norm_num)

/-- Appending one byte multiplies the big-endian value by 256. -/
theorem bytesToNat_append (l : List Nat) (b : Nat) :
    bytesToNat (l ++ [b]) = bytesToNat l * 256 + b := by
  rw [bytesToNat, bytesToNat, List.foldl_append]
  rfl

/-- Big-endian encoding round trip. -/
theorem bytesToNat_natToBytes : ∀ (len x : Nat), x < 2 ^ (8 * len) →
    bytesToNat (natToBytes len x) = x := by
  intro len
  induction len with
  | zero =>
      intro x hx
      have : x = 0 := by simpa using hx
      simp [this, natToBytes, bytesToNat]
  | succ k ih =>
      intro x hx
      show bytesToNat (natToBytes k (x >>> 8) ++ [x % 256]) = x
      rw [bytesToNat_append, Nat.shiftRight_eq_div_pow]
      rw [ih (x / 2 ^ 8)]
      · omega
      · have h8 : 8 * (k + 1) = 8 * k + 8 := by ring
        rw [h8, pow_add] at hx
        exact Nat.div_lt_of_lt_mul (by omega)

/-- The big-endian value of a byte string is below `256 ^ length`. -/
theorem bytesToNat_lt : ∀ l : List Nat, (∀ b ∈ l, b < 256) →
    bytesToNat l < 256 ^ l.length := by
  have step : ∀ l (b : Nat), bytesToNat (b :: l) = b * 256 ^ l.length + bytesToNat l := by
    intro l
    induction l using List.reverseRecOn with
    | nil => intro b; simp [bytesToNat]
    | append_singleton l c ih =>
        intro b
        rw [show b :: (l ++ [c]) = (b :: l) ++ [c] by rfl]
        rw [bytesToNat_append, bytesToNat_append, ih]
        rw [List.length_append, List.length_singleton, pow_succ]
        ring
  intro l
  induction l with
  | nil => intro _; simp [bytesToNat]
  | cons b rest ih =>
      intro hb
      rw [step]
      have h1 : b < 256 := hb b (List.mem_cons_self b rest)
      have h2 : bytesToNat rest < 256 ^ rest.length := ih (fun x hx => hb x (List.mem_cons_of_mem b hx))
      have h3 : (b :: rest).length = rest.length + 1 := rfl
      rw [h3, pow_succ]
      calc b * 256 ^ rest.length + bytesToNat rest
          < b * 256 ^ rest.length + 256 ^ rest.length := by omega
        _ = (b + 1) * 256 ^ rest.length := by ring
        _ ≤ 256 * 256 ^ rest.length := by
            have : b + 1 ≤ 256 := by omega
            exact Nat.mul_le_mul_right _ this
        _ = 256 ^ rest.length * 256 := by ring

/-! ## Hexadecimal formatting and parsing -/

/-- The digit encoder and the digit parser are inverse. -/
theorem hexDigitVal_hexDigit (d : Nat) (hd : d < 16) :
    hexDigitVal (hexDigit d) = some d := by
  interval_cases d <;> decide

/-- Hex digits are digits or lowercase letters. -/
theorem hexDigit_lowercase (d : Nat) (hd : d < 16) :
    (48 ≤ (hexDigit d).toNat ∧ (hexDigit d).toNat ≤ 57) ∨
      (97 ≤ (hexDigit d).toNat ∧ (hexDigit d).toNat ≤ 102) := by
  interval_cases d <;> decide

/-- The specification of `natToHexCore` on inputs within its fuel: the digit
string is nonempty, made of hex digits, at most `fuel + 1` long, and parses
back to the input. -/
theorem natToHexCore_spec : ∀ (fuel x : Nat), x < 16 ^ (fuel + 1) →
    natToHexCore (fuel + 1) x ≠ [] ∧
    (natToHexCore (fuel + 1) x).length ≤ fuel + 1 ∧
    (∀ c ∈ natToHexCore (fuel + 1) x, (hexDigitVal c).isSome) ∧
    (natToHexCore (fuel + 1) x).foldl
      (fun acc c => match acc, hexDigitVal c with
        | some v, some d => some (v * 16 + d)
        | _, _ => none) (some 0) = some x := by
  intro fuel
  induction fuel with
  | zero =>
      intro x hx
      have hx16 : x < 16 := by simpa using hx
      rw [show natToHexCore 1 x = [hexDigit x] by rw [natToHexCore, if_pos hx16]]
      refine ⟨by simp, by simp, ?_, ?_⟩
      · intro c hc
        rcases List.mem_singleton.mp hc with rfl
        rw [hexDigitVal_hexDigit x hx16]
        rfl
      · show (match (some 0 : Option Nat), hexDigitVal (hexDigit x) with
          | some v, some d => some (v * 16 + d)
          | _, _ => none) = some x
        rw [hexDigitVal_hexDigit x hx16]
        simp
  | succ f ih =>
      intro x hx
      by_cases hx16 : x < 16
      · rw [show natToHexCore (f + 1 + 1) x = [hexDigit x] by rw [natToHexCore, if_pos hx16]]
        refine ⟨by simp, by simp, ?_, ?_⟩
        · intro c hc
          rcases List.mem_singleton.mp hc with rfl
          rw [hexDigitVal_hexDigit x hx16]
          rfl
        · show (match (some 0 : Option Nat), hexDigitVal (hexDigit x) with
            | some v, some d => some (v * 16 + d)
            | _, _ => none) = some x
          rw [hexDigitVal_hexDigit x hx16]
          simp
      · rw [show natToHexCore (f + 1 + 1) x =
            natToHexCore (f + 1) (x / 16) ++ [hexDigit (x % 16)] by
          rw [natToHexCore, if_neg hx16]]
        have hdiv : x / 16 < 16 ^ (f + 1) := by
          rw [pow_succ] at hx
          exact Nat.div_lt_of_lt_mul (by omega)
        obtain ⟨hne, hlen, hdigits, hval⟩ := ih (x / 16) hdiv
        have hmod : x % 16 < 16 := Nat.mod_lt _ (by norm_num)
        refine ⟨by simp, ?_, ?_, ?_⟩
        · rw [List.length_append]
          simpa using hlen
        · intro c hc
          rcases List.mem_append.mp hc with h | h
          · exact hdigits c h
          · rcases List.mem_singleton.mp h with rfl
            rw [hexDigitVal_hexDigit _ hmod]
            rfl
        · rw [List.foldl_append, hval]
          show (match (some (x / 16) : Option Nat), hexDigitVal (hexDigit (x % 16)) with
            | some v, some d => some (v * 16 + d)
            | _, _ => none) = some x
          rw [hexDigitVal_hexDigit _ hmod]
          show some (x / 16 * 16 + x % 16) = some x
          congr 1
          omega

/-- Parsing ignores leading zero characters. -/
theorem parseHex_leading_zeros (k : Nat) (l : List Char) :
    (List.replicate k (Char.ofNat 48) ++ l).foldl
      (fun acc c => match acc, hexDigitVal c with
        | some v, some d => some (v * 16 + d)
        | _, _ => none) (some 0) =
    l.foldl (fun acc c => match acc, hexDigitVal c with
        | some v, some d => some (v * 16 + d)
        | _, _ => none) (some 0) := by
  induction k with
  | zero => rfl
  | succ n ih =>
      rw [List.replicate_succ, List.cons_append, List.foldl_cons]
      exact ih



/-- Unfolding `natToHexCore` on a single digit. -/
theorem natToHexCore_small (fuel x : Nat) (h : x < 16) :
    natToHexCore (fuel + 1) x = [hexDigit x] := by
  conv_lhs => rw [natToHexCore]
  rw [if_pos h]

/-- Unfolding `natToHexCore` on a multi-digit value. -/
theorem natToHexCore_big (fuel x : Nat) (h : ¬ x < 16) :
    natToHexCore (fuel + 1) x = natToHexCore fuel (x / 16) ++ [hexDigit (x % 16)] := by
  conv_lhs => rw [natToHexCore]
  rw [if_neg h]

/-- Fuel does not matter to `natToHexCore` once it covers the input. -/
theorem natToHexCore_fuel_irrel : ∀ (f1 f2 x : Nat), x < 16 ^ (f1 + 1) →
    x < 16 ^ (f2 + 1) → natToHexCore (f1 + 1) x = natToHexCore (f2 + 1) x := by
  intro f1
  induction f1 with
  | zero =>
      intro f2 x h1 _
      have hx16 : x < 16 := by simpa using h1
      rw [natToHexCore_small _ _ hx16, natToHexCore_small _ _ hx16]
  | succ g ih =>
      intro f2 x h1 h2
      by_cases hx16 : x < 16
      · rw [natToHexCore_small _ _ hx16, natToHexCore_small _ _ hx16]
      · have h16 : (16 : Nat) ≤ x := by omega
        have hf2 : 1 ≤ f2 := by
          by_contra hcon
          have hf20 : f2 = 0 := by omega
          subst hf20
          have : (16 : Nat) ^ (0 + 1) = 16 := by norm_num
          omega
        obtain ⟨g2, rfl⟩ : ∃ g2, f2 = g2 + 1 := ⟨f2 - 1, by omega⟩
        rw [natToHexCore_big _ _ hx16, natToHexCore_big _ _ hx16]
        congr 1
        apply ih
        · rw [pow_succ] at h1
          exact Nat.div_lt_of_lt_mul (by omega)
        · rw [pow_succ] at h2
          exact Nat.div_lt_of_lt_mul (by omega)

/-- `parseHex` on a nonempty character list is the plain digit fold. -/
theorem parseHex_mk_of_ne_nil (l : List Char) (h : l ≠ []) :
    parseHex (String.mk l) = l.foldl
      (fun acc c => match acc, hexDigitVal c with
        | some v, some d => some (v * 16 + d)
        | _, _ => none) (some 0) := by
  have hemp : l.isEmpty = false := by
    cases l with
    | nil => exact absurd rfl h
    | cons a l => rfl
  show (if l.isEmpty then none else _) = _
  rw [hemp]
  rfl

/-- The zero-padded hex field of width `w`: exactly `w` hex characters that
parse back to the value. -/
theorem padStart_natToHex_spec (w x : Nat) (hw : 0 < w) (hw80 : w ≤ 80)
    (hx : x < 16 ^ w) :
    (padStart (natToHex x) w).data.length = w ∧
    (∀ c ∈ (padStart (natToHex x) w).data, (hexDigitVal c).isSome) ∧
    parseHex (padStart (natToHex x) w) = some x := by
  obtain ⟨w0, rfl⟩ : ∃ w0, w = w0 + 1 := ⟨w - 1, by omega⟩
  have hx80 : x < 16 ^ (79 + 1) := by
    calc x < 16 ^ (w0 + 1) := hx
      _ ≤ 16 ^ (79 + 1) := Nat.pow_le_pow_right (by norm_num) (by omega)
  have hcore : natToHexCore 80 x = natToHexCore (w0 + 1) x :=
    natToHexCore_fuel_irrel 79 w0 x hx80 hx
  obtain ⟨hne, hlen, hdig, hval⟩ := natToHexCore_spec w0 x hx
  have hhex : (natToHex x).data = natToHexCore (w0 + 1) x := hcore
  have hhexlen : (natToHex x).length = (natToHexCore (w0 + 1) x).length :=
    congrArg List.length hhex
  have hstr : padStart (natToHex x) (w0 + 1) = String.mk
      (List.replicate (w0 + 1 - (natToHexCore (w0 + 1) x).length) (Char.ofNat 48)
        ++ natToHexCore (w0 + 1) x) := by
    rw [padStart, hhexlen, hhex]
  rw [hstr]
  refine ⟨?_, ?_, ?_⟩
  · show (List.replicate (w0 + 1 - (natToHexCore (w0 + 1) x).length) (Char.ofNat 48)
        ++ natToHexCore (w0 + 1) x).length = w0 + 1
    rw [List.length_append, List.length_replicate]
    omega
  · intro c hc
    rcases List.mem_append.mp hc with h | h
    · rcases List.eq_of_mem_replicate h with rfl
      decide
    · exact hdig c h
  · rw [parseHex_mk_of_ne_nil _ (by
      intro hcon
      exact hne (List.append_eq_nil.mp hcon).2)]
    rw [parseHex_leading_zeros]
    exact hval

/-- Every signature emitted by the DRBG loop comes from some in-range nonce
candidate. -/
theorem signLoop_inv (z d : Nat) : ∀ (fuel : Nat) (st : List Nat × List Nat)
    (rsv : Nat × Nat × Nat), signLoop z d fuel st = some rsv →
    ∃ k, (1 ≤ k ∧ k < secpN) ∧ signCandidate z d k = some rsv := by
  intro fuel
  induction fuel with
  | zero => intro st rsv h; cases h
  | succ f ih =>
      intro st rsv h
      obtain ⟨K, V⟩ := st
      rw [signLoop] at h
      set V1 := hmacSha256 K V with hV1
      set k := bytesToNat V1 with hk
      by_cases hrange : 1 ≤ k ∧ k < secpN
      · simp only [if_pos hrange] at h
        cases hcand : signCandidate z d k with
        | some rsv2 =>
            rw [hcand] at h
            simp only [Option.some.injEq] at h
            exact ⟨k, hrange, by rw [hcand, h]⟩
        | none =>
            rw [hcand] at h
            simp only at h
            exact ih _ rsv h
      · simp only [if_neg hrange] at h
        exact ih _ rsv h

/-- The group order is odd and below `2^256` (numeric facts used in the
signature-format arguments). -/
theorem secpN_facts : secpN % 2 = 1 ∧ secpN < 2 ^ 256 ∧ 2 ^ 255 < secpN := by
  refine ⟨by norm_num [secpN], by norm_num [secpN], by norm_num [secpN]⟩

/-- Everything the rest of the development needs about a successful
`signCandidate`: the nonce point, the shape of `r`, `s` and the recovery
bit, the range bounds and the low-s normalization. -/
theorem signCandidate_inv (z d k r s recovery : Nat)
    (h : signCandidate z d k = some (r, s, recovery)) :
    ∃ rx ry, pMulSec k secpG = some (rx, ry) ∧
      r = rx % secpN ∧ 1 ≤ r ∧ r < secpN ∧
      1 ≤ s ∧ s < secpN ∧ s ≤ secpN / 2 ∧ recovery < 4 ∧
      (let s0 := invMod k secpN * ((z + r * d) % secpN) % secpN
       (s = s0 ∧ recovery = (if rx ≥ secpN then 2 else 0) + ry % 2) ∨
       (s = secpN - s0 ∧ recovery = ((if rx ≥ secpN then 2 else 0) + ry % 2) ^^^ 1)) := by
  have hNodd : secpN % 2 = 1 := secpN_facts.1
  have hNpos : 0 < secpN := Nat.pos_of_ne_zero (NeZero.ne secpN)
  rw [signCandidate] at h
  cases hmul : pMulSec k secpG with
  | none => rw [hmul] at h; cases h
  | some rxy =>
      obtain ⟨rx, ry⟩ := rxy
      rw [hmul] at h
      simp only at h
      by_cases hr0 : rx % secpN = 0
      · rw [if_pos hr0] at h; cases h
      · rw [if_neg hr0] at h
        set s0 := invMod k secpN * ((z + rx % secpN * d) % secpN) % secpN with hs0
        by_cases hs00 : s0 = 0
        · rw [if_pos hs00] at h; cases h
        · rw [if_neg hs00] at h
          have hs0lt : s0 < secpN := Nat.mod_lt _ hNpos
          set rec0 := (if rx ≥ secpN then 2 else 0) + ry % 2 with hrec0
          have hrec0lt : rec0 < 4 := by
            rw [hrec0]
            have : ry % 2 < 2 := Nat.mod_lt _ (by norm_num)
            split <;> omega
          by_cases hlow : s0 > secpN / 2
          · rw [if_pos hlow] at h
            simp only [Option.some.injEq, Prod.mk.injEq] at h
            obtain ⟨h1, h2, h3⟩ := h
            subst h1
            subst h2
            subst h3
            refine ⟨rx, ry, rfl, rfl, by omega, Nat.mod_lt _ hNpos, by omega, by omega,
              by omega, ?_, ?_⟩
            · have : rec0 ^^^ 1 < 4 := by
                have h4 : rec0 < 4 := hrec0lt
                interval_cases rec0 <;> decide
              exact this
            · right
              exact ⟨rfl, rfl⟩
          · rw [if_neg hlow] at h
            simp only [Option.some.injEq, Prod.mk.injEq] at h
            obtain ⟨h1, h2, h3⟩ := h
            subst h1
            subst h2
            subst h3
            exact ⟨rx, ry, rfl, rfl, by omega, Nat.mod_lt _ hNpos, by omega, hs0lt,
              by omega, hrec0lt, Or.inl ⟨rfl, rfl⟩⟩



/-- Numeric facts about the field modulus. -/
theorem secpP_facts : secpP % 4 = 3 ∧ secpP % 2 = 1 ∧ secpP < 2 ^ 256 ∧ secpP ≤ 2 ^ 257 := by
  refine ⟨by norm_num [secpP], by norm_num [secpP], by norm_num [secpP], by norm_num [secpP]⟩

/-- The curve equation of the reference curve in its plain form. -/
theorem secpW_equation_iff (x y : ZMod secpP) :
    secpW.Equation x y ↔ y ^ 2 = x ^ 3 + 7 := by
  rw [WeierstrassCurve.Affine.equation_iff]
  have h1 : secpW.a₁ = 0 := rfl
  have h2 : secpW.a₂ = 0 := rfl
  have h3 : secpW.a₃ = 0 := rfl
  have h4 : secpW.a₄ = 0 := rfl
  have h6 : secpW.a₆ = 7 := rfl
  rw [h1, h2, h3, h4, h6]
  constructor
  · intro h
    calc y ^ 2 = y ^ 2 + 0 * x * y + 0 * y := by ring
      _ = x ^ 3 + 0 * x ^ 2 + 0 * x + 7 := h
      _ = x ^ 3 + 7 := by ring
  · intro h
    calc y ^ 2 + 0 * x * y + 0 * y = y ^ 2 := by ring
      _ = x ^ 3 + 7 := h
      _ = x ^ 3 + 0 * x ^ 2 + 0 * x + 7 := by ring

/-- The candidate square root: its square matches whenever the input is a
cast square, and it is one of the two roots. -/
theorem sqrtMod_spec (y2N : Nat) (y : ZMod secpP) (hy2 : (y2N : ZMod secpP) = y ^ 2) :
    ((sqrtMod y2N : Nat) : ZMod secpP) = y ∨ ((sqrtMod y2N : Nat) : ZMod secpP) = -y := by
  have hlt : (secpP + 1) / 4 < 2 ^ 257 := by
    have := secpP_facts.2.2.2
    omega
  have hcast : ((sqrtMod y2N : Nat) : ZMod secpP) = (y2N : ZMod secpP) ^ ((secpP + 1) / 4) := by
    rw [sqrtMod, powMod_cast secpP 257 y2N _ hlt]
  have h4dvd : 4 ∣ secpP + 1 := by
    have := secpP_facts.1
    omega
  have hmul4 : 4 * ((secpP + 1) / 4) = secpP + 1 := Nat.mul_div_cancel' h4dvd
  have hqpos : 0 < (secpP + 1) / 4 := by
    rcases Nat.eq_zero_or_pos ((secpP + 1) / 4) with h | h
    · rw [h] at hmul4
      omega
    · exact h
  have hsq : ((sqrtMod y2N : Nat) : ZMod secpP) ^ 2 = y ^ 2 := by
    rw [hcast, hy2, ← pow_mul]
    by_cases hy0 : y = 0
    · subst hy0
      have h20 : (0 : ZMod secpP) ^ 2 = 0 := by norm_num
      rw [h20, zero_pow (Nat.mul_pos hqpos (by norm_num)).ne']
    · have hy1 : y ^ (secpP - 1) = 1 := ZMod.pow_card_sub_one_eq_one hy0
      have h2le : 2 ≤ secpP := (Fact.out (p := secpP.Prime)).two_le
      have hexp : 2 * ((secpP + 1) / 4 * 2) = 2 + (secpP - 1) := by omega
      calc (y ^ 2) ^ ((secpP + 1) / 4 * 2) = y ^ (2 * ((secpP + 1) / 4 * 2)) := by
            conv_rhs => rw [pow_mul]
        _ = y ^ (2 + (secpP - 1)) := by rw [hexp]
        _ = y ^ 2 * y ^ (secpP - 1) := by rw [pow_add]
        _ = y ^ 2 := by rw [hy1, mul_one]
  have hfact : (((sqrtMod y2N : Nat) : ZMod secpP) - y) *
      (((sqrtMod y2N : Nat) : ZMod secpP) + y) = 0 := by
    have : ((sqrtMod y2N : Nat) : ZMod secpP) ^ 2 - y ^ 2 = 0 := by
      rw [hsq]; ring
    calc (((sqrtMod y2N : Nat) : ZMod secpP) - y) *
        (((sqrtMod y2N : Nat) : ZMod secpP) + y)
        = ((sqrtMod y2N : Nat) : ZMod secpP) ^ 2 - y ^ 2 := by ring
      _ = 0 := this
  rcases mul_eq_zero.mp hfact with h | h
  · exact Or.inl (sub_eq_zero.mp h)
  · exact Or.inr (eq_neg_of_add_eq_zero_left h)

/-- Decoding inverts the compressed encoding on curve points. -/
theorem decodePoint_encodeCompressed (x y : ZMod secpP) (heq : y ^ 2 = x ^ 3 + 7) :
    decodePoint (encodeCompressed (x.val, y.val)) = some (x.val, y.val) := by
  have hPpos : 0 < secpP := Nat.pos_of_ne_zero (NeZero.ne secpP)
  have hPodd : secpP % 2 = 1 := secpP_facts.2.1
  have hxlt : x.val < 2 ^ (8 * 32) := lt_of_lt_of_le (ZMod.val_lt x) (by norm_num [secpP])
  have hlen : (natToBytes 32 x.val).length = 32 := natToBytes_length 32 x.val
  have hrt : bytesToNat (natToBytes 32 x.val) = x.val := bytesToNat_natToBytes 32 x.val hxlt
  have hy2cast : ((x.val * x.val % secpP * x.val + 7) % secpP : Nat) =
      ((x.val * x.val % secpP * x.val + 7) % secpP : Nat) := rfl
  set y2N : Nat := (x.val * x.val % secpP * x.val + 7) % secpP with hy2N
  have hy2Ncast : ((y2N : Nat) : ZMod secpP) = y ^ 2 := by
    rw [hy2N, cast_mod]
    push_cast
    rw [cast_mod]
    push_cast
    rw [castVal]
    rw [heq]
    ring
  have hy2Nlt : y2N < secpP := Nat.mod_lt _ hPpos
  set t : Nat := sqrtMod y2N with ht
  have htlt : t < secpP := by
    rw [ht, sqrtMod]
    exact powMod_lt secpP hPpos 257 y2N _ (by have := secpP_facts.2.2.2; omega)
  have hroot := sqrtMod_spec y2N y hy2Ncast
  have htsq : t * t % secpP = y2N := by
    have hc : ((t * t % secpP : Nat) : ZMod secpP) = ((y2N : Nat) : ZMod secpP) := by
      rw [cast_mod]
      push_cast
      rw [hy2Ncast]
      rcases hroot with h | h
      · rw [← ht] at h
        rw [h]
        ring
      · rw [← ht] at h
        rw [h]
        ring
    have hv := congrArg ZMod.val hc
    rwa [ZMod.val_cast_of_lt (Nat.mod_lt _ hPpos), ZMod.val_cast_of_lt hy2Nlt] at hv
  rw [← ht] at hroot
  have hcases : t = y.val ∨ (y ≠ 0 ∧ t = secpP - y.val) := by
    rcases hroot with h | h
    · left
      have hv := congrArg ZMod.val h
      rwa [ZMod.val_cast_of_lt htlt] at hv
    · by_cases hy0 : y = 0
      · left
        have hv := congrArg ZMod.val h
        rw [ZMod.val_cast_of_lt htlt] at hv
        rw [hv, hy0]
        simp
      · right
        refine ⟨hy0, ?_⟩
        have hv := congrArg ZMod.val h
        rw [ZMod.val_cast_of_lt htlt, ZMod.neg_val, if_neg hy0] at hv
        exact hv
  have hyltP : y.val < secpP := ZMod.val_lt y
  have hyne : y ≠ 0 → y.val ≠ 0 := fun h hc => h ((ZMod.val_eq_zero y).mp hc)
  have hencode : encodeCompressed (x.val, y.val) =
      (if y.val % 2 = 0 then 2 else 3) :: natToBytes 32 x.val := rfl
  have hdec : ∀ parity, parity = y.val % 2 →
      decodeCompressedX parity (natToBytes 32 x.val) = some (x.val, y.val) := by
    intro parity hparity
    rw [decodeCompressedX, if_pos hlen]
    simp only [hrt]
    rw [← hy2N, ← ht]
    rw [if_pos ⟨ZMod.val_lt x, htsq⟩]
    simp only [Option.some.injEq, Prod.mk.injEq]
    refine ⟨trivial, ?_⟩
    rcases hcases with h | ⟨hy0, h⟩
    · rw [if_pos (by omega : t % 2 = parity)]
      exact h
    · have hyv0 : y.val ≠ 0 := hyne hy0
      have hflip : ¬ t % 2 = parity := by omega
      rw [if_neg hflip]
      have hsub : secpP - t = y.val := by omega
      rw [hsub]
      exact Nat.mod_eq_of_lt hyltP
  by_cases hpar : y.val % 2 = 0
  · rw [hencode, if_pos hpar]
    show decodeCompressedX 0 (natToBytes 32 x.val) = some (x.val, y.val)
    exact hdec 0 hpar.symm
  · rw [hencode, if_neg hpar]
    show decodeCompressedX 1 (natToBytes 32 x.val) = some (x.val, y.val)
    exact hdec 1 (by omega)


open WeierstrassCurve.Affine

/-- Inversion of `reprPoint` on finite points. -/
theorem reprPoint_eq_some (P : secpW.Point) (a b : Nat)
    (h : reprPoint P = some (a, b)) :
    ∃ (x y : ZMod secpP) (hxy : secpW.Nonsingular x y),
      P = Point.some hxy ∧ x.val = a ∧ y.val = b := by
  cases P with
  | zero => cases h
  | @some x y hxy =>
      refine ⟨x, y, hxy, rfl, ?_, ?_⟩
      · exact (Prod.mk.injEq _ _ _ _ ▸ (Option.some.injEq _ _ ▸ h)).1
      · exact (Prod.mk.injEq _ _ _ _ ▸ (Option.some.injEq _ _ ▸ h)).2

/-- The value of a cast, as a remainder. -/
theorem val_natCast_mod (m a : Nat) [NeZero m] : ((a : ZMod m)).val = a % m :=
  ZMod.val_natCast a

/-- A nonzero residue from a positive `Nat` below the modulus. -/
theorem cast_ne_zero_of_range (m a : Nat) [NeZero m] (h1 : 1 ≤ a) (h2 : a < m) :
    (a : ZMod m) ≠ 0 := by
  intro hc
  have hv := congrArg ZMod.val hc
  rw [ZMod.val_cast_of_lt h2, ZMod.val_zero] at hv
  omega

/-- The scalar identity behind ECDSA verification, in `ZMod secpN`: the
verification scalar `u1 + u2 * d` is congruent to the nonce (or its
negation, for a low-s flipped signature). -/
theorem verify_scalar_eq (z d k r s : Nat)
    (hs1 : 1 ≤ s) (hs2 : s < secpN)
    (hcase : ((s : ZMod secpN) * k = ((z + r * d : Nat) : ZMod secpN)) ∨
             ((s : ZMod secpN) * k = -((z + r * d : Nat) : ZMod secpN))) :
    (((z * invMod s secpN % secpN + (r * invMod s secpN % secpN) * d : Nat)) : ZMod secpN)
      = (k : ZMod secpN) ∨
    (((z * invMod s secpN % secpN + (r * invMod s secpN % secpN) * d : Nat)) : ZMod secpN)
      = -(k : ZMod secpN) := by
  have hsne : (s : ZMod secpN) ≠ 0 := cast_ne_zero_of_range secpN s hs1 hs2
  have hNle : secpN ≤ 2 ^ 257 := by norm_num [secpN]
  have hinv : ((invMod s secpN : Nat) : ZMod secpN) = (s : ZMod secpN)⁻¹ :=
    cast_invMod secpN hNle s hsne
  have hsum : (((z * invMod s secpN % secpN + (r * invMod s secpN % secpN) * d : Nat)) :
      ZMod secpN) = ((z + r * d : Nat) : ZMod secpN) * (s : ZMod secpN)⁻¹ := by
    push_cast
    rw [cast_mod, cast_mod]
    push_cast
    rw [hinv]
    ring
  have hsinv : (s : ZMod secpN) * (s : ZMod secpN)⁻¹ = 1 := mul_inv_cancel₀ hsne
  rcases hcase with hc | hc
  · left
    rw [hsum, ← hc]
    calc (s : ZMod secpN) * k * (s : ZMod secpN)⁻¹
        = (s : ZMod secpN) * (s : ZMod secpN)⁻¹ * k := by ring
      _ = (k : ZMod secpN) := by rw [hsinv, one_mul]
  · right
    rw [hsum]
    have : ((z + r * d : Nat) : ZMod secpN) = -((s : ZMod secpN) * k) := by
      rw [hc]; ring
    rw [this]
    calc -((s : ZMod secpN) * k) * (s : ZMod secpN)⁻¹
        = -((s : ZMod secpN) * (s : ZMod secpN)⁻¹ * k) := by ring
      _ = -(k : ZMod secpN) := by rw [hsinv, one_mul]

/-- Sufficient conditions for the verifier to accept, stated over the raw
ingredients of `ecdsaVerifyHash`. -/
theorem ecdsaVerifyHash_true_of (msgHash pk : List Nat) (r s qx qy rx ry : Nat)
    (hdec : decodePoint pk = some (qx, qy))
    (hs : ¬ s > secpN / 2)
    (hadd : pAdd (pMulSec (bytesToNat msgHash * invMod s secpN % secpN) secpG)
        (pMulSec (r * invMod s secpN % secpN) (some (qx, qy))) = some (rx, ry))
    (hr : rx % secpN = r) :
    ecdsaVerifyHash msgHash r s pk = true := by
  rw [ecdsaVerifyHash, hdec]
  split
  case h_1 x heq => exact Option.noConfusion heq
  case h_2 x q heq =>
      simp only [Option.some.injEq] at heq
      subst heq
      rw [if_neg hs]
      show ecdsaVerifyFinish r
          (pAdd (pMulSec (bytesToNat msgHash * invMod s secpN % secpN) secpG)
            (pMulSec (r * invMod s secpN % secpN) (some (qx, qy)))) = true
      rw [hadd]
      show decide (rx % secpN = r) = true
      exact decide_eq_true hr

/-- The heart of the sign/verify round trip: a signature produced by
`ecdsaSignHash` verifies under the signer's public key. -/
theorem ecdsaVerify_of_sign (msgHash priv pk : List Nat) (r s recovery : Nat)
    (hsign : ecdsaSignHash msgHash priv = some (r, s, recovery))
    (hpk : KeyDerivation.getPublicKey priv = some pk) :
    ecdsaVerifyHash msgHash r s pk = true := by
  have hNpos : 0 < secpN := Nat.pos_of_ne_zero (NeZero.ne secpN)
  have hN256 : secpN < 2 ^ 256 := secpN_facts.2.1
  -- unpack the signing run
  rw [ecdsaSignHash] at hsign
  by_cases hvalid : isValidSecretKey priv = true
  · rw [if_pos hvalid] at hsign
    set d := bytesToNat priv with hd
    set z := bytesToNat msgHash with hz
    obtain ⟨k, ⟨hk1, hk2⟩, hcand⟩ := signLoop_inv z d 1000 _ _ hsign
    obtain ⟨rx, ry, hmulk, hrdef, hr1, hr2, hs1, hs2, hslow, hrec4, hshape⟩ :=
      signCandidate_inv z d k r s recovery hcand
    -- unpack the public key
    rw [KeyDerivation.getPublicKey, if_pos hvalid] at hpk
    have hdlt : d < 2 ^ 257 := by
      have hb : isValidSecretKey priv = true := hvalid
      rw [isValidSecretKey] at hb
      simp only [Bool.and_eq_true, decide_eq_true_eq] at hb
      have := hb.2
      omega
    have hmulrepr := pMulSec_repr d hdlt secpGpt
    rw [reprPoint_secpGpt] at hmulrepr
    cases hmulq : pMulSec d secpG with
    | none => rw [hmulq] at hpk; cases hpk
    | some q =>
        rw [hmulq] at hpk
        simp only [Option.some.injEq] at hpk
        rw [hmulq] at hmulrepr
        obtain ⟨xq, yq, hQns, hQeq, hxq, hyq⟩ :=
          reprPoint_eq_some (d • secpGpt) q.1 q.2 (by rw [← hmulrepr])
        -- decode the compressed key
        have hdec : decodePoint pk = some (xq.val, yq.val) := by
          rw [← hpk]
          have hq12 : q = (xq.val, yq.val) := by
            rcases q with ⟨q1, q2⟩
            simp only [Prod.mk.injEq]
            exact ⟨hxq.symm, hyq.symm⟩
          rw [hq12]
          exact decodePoint_encodeCompressed xq yq
            ((secpW_equation_iff xq yq).mp hQns.1)
        -- the nonce point
        have hklt : k < 2 ^ 257 := by omega
        have hmulkrepr := pMulSec_repr k hklt secpGpt
        rw [reprPoint_secpGpt, hmulk] at hmulkrepr
        obtain ⟨xr, yr, hRns, hReq, hxr, hyr⟩ :=
          reprPoint_eq_some (k • secpGpt) rx ry hmulkrepr.symm
        -- the verification scalars
        set si := invMod s secpN with hsi
        set u1 := z * si % secpN with hu1
        set u2 := r * si % secpN with hu2
        have hu1lt : u1 < 2 ^ 257 := by
          have : u1 < secpN := Nat.mod_lt _ hNpos
          omega
        have hu2lt : u2 < 2 ^ 257 := by
          have : u2 < secpN := Nat.mod_lt _ hNpos
          omega
        -- the verification point, through the representation
        have hverpt : pAdd (pMulSec u1 secpG) (pMulSec u2 (some (xq.val, yq.val))) =
            reprPoint (u1 • secpGpt + u2 • (d • secpGpt)) := by
          have h1 := pMulSec_repr u1 hu1lt secpGpt
          rw [reprPoint_secpGpt] at h1
          have h2 := pMulSec_repr u2 hu2lt (d • secpGpt)
          have hQrepr : reprPoint (d • secpGpt) = some (xq.val, yq.val) := by
            rw [hQeq]
            rfl
          rw [hQrepr] at h2
          rw [h1, h2]
          exact reprPoint_add _ _
        -- the scalar congruence
        have hcast_case : ((s : ZMod secpN) * k = ((z + r * d : Nat) : ZMod secpN)) ∨
            ((s : ZMod secpN) * k = -((z + r * d : Nat) : ZMod secpN)) := by
          have hkne : (k : ZMod secpN) ≠ 0 := cast_ne_zero_of_range secpN k hk1 hk2
          have hNle : secpN ≤ 2 ^ 257 := by norm_num [secpN]
          have hinvk : ((invMod k secpN : Nat) : ZMod secpN) = (k : ZMod secpN)⁻¹ :=
            cast_invMod secpN hNle k hkne
          have hs0cast : ((invMod k secpN * ((z + r * d) % secpN) % secpN : Nat) :
              ZMod secpN) = (k : ZMod secpN)⁻¹ * ((z + r * d : Nat) : ZMod secpN) := by
            rw [cast_mod]
            push_cast
            rw [cast_mod]
            push_cast
            rw [hinvk]
          have hkinv : (k : ZMod secpN)⁻¹ * (k : ZMod secpN) = 1 :=
            inv_mul_cancel₀ hkne
          rcases hshape with ⟨hseq, _⟩ | ⟨hseq, _⟩
          · left
            rw [hseq, hs0cast]
            calc (k : ZMod secpN)⁻¹ * ((z + r * d : Nat) : ZMod secpN) * k
                = (k : ZMod secpN)⁻¹ * (k : ZMod secpN) *
                  ((z + r * d : Nat) : ZMod secpN) := by ring
              _ = ((z + r * d : Nat) : ZMod secpN) := by rw [hkinv, one_mul]
          · right
            have hs0lt : invMod k secpN * ((z + r * d) % secpN) % secpN < secpN :=
              Nat.mod_lt _ hNpos
            have hsub : ((secpN - invMod k secpN * ((z + r * d) % secpN) % secpN : Nat) :
                ZMod secpN) =
                -((invMod k secpN * ((z + r * d) % secpN) % secpN : Nat) : ZMod secpN) := by
              have hble : secpN - invMod k secpN * ((z + r * d) % secpN) % secpN +
                  invMod k secpN * ((z + r * d) % secpN) % secpN = secpN := by omega
              have hc := congrArg (Nat.cast (R := ZMod secpN)) hble
              push_cast at hc
              rw [ZMod.natCast_self] at hc
              exact eq_neg_of_add_eq_zero_left hc
            rw [hseq, hsub, hs0cast]
            calc -((k : ZMod secpN)⁻¹ * ((z + r * d : Nat) : ZMod secpN)) * k
                = -((k : ZMod secpN)⁻¹ * (k : ZMod secpN) *
                  ((z + r * d : Nat) : ZMod secpN)) := by ring
              _ = -((z + r * d : Nat) : ZMod secpN) := by rw [hkinv, one_mul]
        have hscalar := verify_scalar_eq z d k r s hs1 hs2 hcast_case
        -- fold the scalars into the point
        have hpoint : u1 • secpGpt + u2 • (d • secpGpt) = k • secpGpt ∨
            u1 • secpGpt + u2 • (d • secpGpt) = -(k • secpGpt) := by
          have hcollapse : u1 • secpGpt + u2 • (d • secpGpt) =
              (u1 + u2 * d) • secpGpt := by
            rw [smul_smul, add_nsmul]
          have hmod : ∀ w : Nat, (w : ZMod secpN) = (k : ZMod secpN) ∨
              (w : ZMod secpN) = -(k : ZMod secpN) → w • secpGpt = k • secpGpt ∨
              w • secpGpt = -(k • secpGpt) := by
            intro w hw
            rcases hw with hw | hw
            · left
              have hv := congrArg ZMod.val hw
              rw [val_natCast_mod, ZMod.val_cast_of_lt hk2] at hv
              rw [← smul_secpGpt_mod w, hv]
            · right
              have hnk : -((k : Nat) : ZMod secpN) = ((secpN - k : Nat) : ZMod secpN) := by
                have hble : secpN - k + k = secpN := by omega
                have hc := congrArg (Nat.cast (R := ZMod secpN)) hble
                push_cast at hc
                rw [ZMod.natCast_self] at hc
                exact (eq_neg_of_add_eq_zero_left hc).symm
              rw [hnk] at hw
              have hv := congrArg ZMod.val hw
              rw [val_natCast_mod, ZMod.val_cast_of_lt (by omega : secpN - k < secpN)] at hv
              have hsplit : (secpN - k) • secpGpt = -(k • secpGpt) := by
                have hadd : (secpN - k) • secpGpt + k • secpGpt = 0 := by
                  rw [← add_nsmul, (by omega : secpN - k + k = secpN), secpN_smul_secpGpt]
                exact eq_neg_of_add_eq_zero_left hadd
              rw [← smul_secpGpt_mod w, hv, hsplit]
          rw [hcollapse]
          exact hmod (u1 + u2 * d) hscalar
        -- conclude: the verification point has x-value `rx`
        have hfinal : pAdd (pMulSec u1 secpG) (pMulSec u2 (some (xq.val, yq.val))) =
            some (rx, ry) ∨
            pAdd (pMulSec u1 secpG) (pMulSec u2 (some (xq.val, yq.val))) =
            some (rx, (secpP - ry) % secpP) := by
          rcases hpoint with hp | hp
          · left
            rw [hverpt, hp, hReq]
            show some (xr.val, yr.val) = some (rx, ry)
            rw [hxr, hyr]
          · right
            rw [hverpt, hp]
            have : reprPoint (-(k • secpGpt)) = pNeg (reprPoint (k • secpGpt)) :=
              (reprPoint_neg _).symm
            rw [this, hReq]
            show pNeg (some (xr.val, yr.val)) = some (rx, (secpP - ry) % secpP)
            rw [pNeg, hxr, hyr]
        -- assemble the verifier run
        rcases hfinal with hf | hf
        · exact ecdsaVerifyHash_true_of msgHash pk r s xq.val yq.val rx ry hdec
            (by omega) hf hrdef.symm
        · exact ecdsaVerifyHash_true_of msgHash pk r s xq.val yq.val rx
            ((secpP - ry) % secpP) hdec (by omega) hf hrdef.symm
  · rw [if_neg hvalid] at hsign
    cases hsign


/-- Every signature the deterministic signer emits has `r` and `s` in
`[1, n)`, `s` in the low half, and a recovery id below 4. -/
theorem ecdsaSignHash_ranges (msgHash priv : List Nat) (r s recovery : Nat)
    (h : ecdsaSignHash msgHash priv = some (r, s, recovery)) :
    1 ≤ r ∧ r < secpN ∧ 1 ≤ s ∧ s < secpN ∧ s ≤ secpN / 2 ∧ recovery < 4 := by
  rw [ecdsaSignHash] at h
  by_cases hvalid : isValidSecretKey priv = true
  · rw [if_pos hvalid] at h
    obtain ⟨k, hk, hcand⟩ :=
      signLoop_inv (bytesToNat msgHash) (bytesToNat priv) 1000 _ _ h
    obtain ⟨rx, ry, hmul, hrdef, hr1, hr2, hs1, hs2, hslow, hrec4, hshape⟩ :=
      signCandidate_inv _ _ _ _ _ _ hcand
    exact ⟨hr1, hr2, hs1, hs2, hslow, hrec4⟩
  · rw [if_neg hvalid] at h
    cases h

/-- The formatted signature splits as the `0x` tag plus the three hex
fields. -/
theorem formatSignature_split (r s recovery : Nat) :
    (MessageSigner.formatSignature r s recovery).data.take 2 = ['0', 'x'] ∧
    (MessageSigner.formatSignature r s recovery).drop 2 =
      padStart (natToHex r) 64 ++ padStart (natToHex s) 64
        ++ padStart (natToHex (recovery + 27)) 2 := by
  have hdata : (MessageSigner.formatSignature r s recovery).data =
      '0' :: 'x' :: ((padStart (natToHex r) 64).data ++ ((padStart (natToHex s) 64).data
        ++ (padStart (natToHex (recovery + 27)) 2).data)) := by
    rw [MessageSigner.formatSignature]
    simp only [String.data_append, List.append_assoc]
    rfl
  constructor
  · rw [hdata]
    rfl
  · apply String.ext
    rw [String.data_drop, hdata]
    simp only [String.data_append, List.append_assoc]
    rfl

/-- `MessageSigner.cleanSignature` strips exactly the `0x` tag off a formatted
signature. -/
theorem cleanSignature_formatSignature (r s recovery : Nat) :
    MessageSigner.cleanSignature (MessageSigner.formatSignature r s recovery) =
      padStart (natToHex r) 64 ++ padStart (natToHex s) 64
        ++ padStart (natToHex (recovery + 27)) 2 := by
  rw [MessageSigner.cleanSignature, if_pos (formatSignature_split r s recovery).1]
  exact (formatSignature_split r s recovery).2

/-- Slicing a `64 ++ 64 ++ 2`-character string recovers the three fields. -/
theorem sliceFields (A B C : String) (hA : A.data.length = 64)
    (hB : B.data.length = 64) (hC : C.data.length = 2) :
    strSlice (A ++ B ++ C) 0 64 = A ∧ strSlice (A ++ B ++ C) 64 128 = B ∧
      strSlice (A ++ B ++ C) 128 130 = C := by
  have hdata : (A ++ B ++ C).data = (A.data ++ B.data) ++ C.data := by
    simp only [String.data_append]
  have hAB : (A.data ++ B.data).length = 128 := by
    rw [List.length_append, hA, hB]
  refine ⟨?_, ?_, ?_⟩
  · apply String.ext
    show (((A ++ B ++ C).data.take 64).drop 0) = A.data
    rw [List.drop_zero, hdata, List.append_assoc,
      List.take_left' (n := 64) hA]
  · apply String.ext
    show (((A ++ B ++ C).data.take 128).drop 64) = B.data
    rw [hdata, List.take_left' (n := 128) hAB, List.drop_left' (n := 64) hA]
  · apply String.ext
    show (((A ++ B ++ C).data.take 130).drop 128) = C.data
    have hall : ((A.data ++ B.data) ++ C.data).length ≤ 130 := by
      rw [List.length_append, hAB, hC]
    rw [hdata, List.take_of_length_le hall, List.drop_left' (n := 128) hAB]

/-- When both hex fields of a signature parse and pass the range checks,
`verifySignature` is exactly the core verification equation. -/
theorem verifySignature_parses (msg : JSMessage) (sig : String) (pk : List Nat)
    (r s : Nat)
    (hr : parseHex (strSlice (MessageSigner.cleanSignature sig) 0 64) = some r)
    (hs : parseHex (strSlice (MessageSigner.cleanSignature sig) 64 128) = some s)
    (hrange : 1 ≤ r ∧ r < secpN ∧ 1 ≤ s ∧ s < secpN) :
    MessageSigner.verifySignature msg sig pk =
      ecdsaVerifyHash (sha256 (MessageSigner.prefixMessage (messageToBytes msg))) r s pk := by
  rw [MessageSigner.verifySignature, hr, hs]
  show (if 1 ≤ r ∧ r < secpN ∧ 1 ≤ s ∧ s < secpN then
      ecdsaVerifyHash (sha256 (MessageSigner.prefixMessage (messageToBytes msg))) r s pk
    else false) = _
  rw [if_pos hrange]

/-- A successful `signMessage` is `formatSignature` applied to a successful
core signing run on the prefixed hash. -/
theorem signMessage_some (env : Env) (msg : JSMessage) (key : List Nat)
    (sig : String) (h : MessageSigner.signMessage env msg key = some sig) :
    ∃ r s recovery,
      ecdsaSignHash (sha256 (MessageSigner.prefixMessage (messageToBytes msg))) key
        = some (r, s, recovery) ∧
      sig = MessageSigner.formatSignature r s recovery := by
  rw [MessageSigner.signMessage] at h
  replace h : (ecdsaSignHash (sha256 (MessageSigner.prefixMessage (messageToBytes msg))) key).map
      (fun rsv => MessageSigner.formatSignature rsv.1 rsv.2.1 rsv.2.2) = some sig := h
  rw [Option.map_eq_some'] at h
  obtain ⟨⟨r, s, recovery⟩, hrun, hfmt⟩ := h
  exact ⟨r, s, recovery, hrun, hfmt.symm⟩

/-- The three parsed fields of a formatted signature, given the range
bounds the signer guarantees. -/
theorem formatSignature_parse (r s recovery : Nat) (hr : r < 16 ^ 64)
    (hs : s < 16 ^ 64) (hv : recovery + 27 < 16 ^ 2) :
    parseHex (strSlice (MessageSigner.cleanSignature (MessageSigner.formatSignature r s recovery)) 0 64)
        = some r ∧
    parseHex (strSlice (MessageSigner.cleanSignature (MessageSigner.formatSignature r s recovery)) 64 128)
        = some s ∧
    parseHex (strSlice (MessageSigner.cleanSignature (MessageSigner.formatSignature r s recovery)) 128 130)
        = some (recovery + 27) := by
  obtain ⟨hAlen, hAdig, hAparse⟩ :=
    padStart_natToHex_spec 64 r (by norm_num) (by norm_num) hr
  obtain ⟨hBlen, hBdig, hBparse⟩ :=
    padStart_natToHex_spec 64 s (by norm_num) (by norm_num) hs
  obtain ⟨hClen, hCdig, hCparse⟩ :=
    padStart_natToHex_spec 2 (recovery + 27) (by norm_num) (by norm_num) hv
  obtain ⟨h1, h2, h3⟩ := sliceFields _ _ _ hAlen hBlen hClen
  rw [cleanSignature_formatSignature, h1, h2, h3]
  exact ⟨hAparse, hBparse, hCparse⟩

/-- **C4.** Sign/verify round trip: whenever `MessageSigner.signMessage`
produces a signature for a message under a private key, and
`KeyDerivation.getPublicKey` produces the matching public key,
`MessageSigner.verifySignature` accepts that signature for the same message
under that public key. -/
theorem c4_sign_verify_roundtrip (env : Env) (message : JSMessage)
    (privateKey pk : List Nat) (sig : String)
    (hsig : MessageSigner.signMessage env message privateKey = some sig)
    (hpk : KeyDerivation.getPublicKey privateKey = some pk) :
    MessageSigner.verifySignature message sig pk = true := by
  obtain ⟨r, s, recovery, hrun, rfl⟩ :=
    signMessage_some env message privateKey sig hsig
  obtain ⟨hr1, hr2, hs1, hs2, hslow, hrec4⟩ :=
    ecdsaSignHash_ranges _ _ _ _ _ hrun
  have h16 : (16 : Nat) ^ 64 = 2 ^ 256 := by norm_num
  have hrlt : r < 16 ^ 64 := by rw [h16]; exact lt_trans hr2 secpN_facts.2.1
  have hslt : s < 16 ^ 64 := by rw [h16]; exact lt_trans hs2 secpN_facts.2.1
  have hvlt : recovery + 27 < 16 ^ 2 := by
    have : (16 : Nat) ^ 2 = 256 := by norm_num
    omega
  obtain ⟨hpr, hps, hpv⟩ := formatSignature_parse r s recovery hrlt hslt hvlt
  rw [verifySignature_parses message _ pk r s hpr hps ⟨hr1, hr2, hs1, hs2⟩]
  exact ecdsaVerify_of_sign _ _ _ _ _ _ hrun hpk

/-- **C5.** Signature wire format: a successful `signMessage` output starts
with the two characters `0x`, the remainder is exactly 130 hex characters,
and its three fixed-width fields parse back to the `r`, `s` and
`recovery + 27` of the underlying signing run. -/
theorem c5_signature_wire_format (env : Env) (message : JSMessage)
    (privateKey : List Nat) (sig : String)
    (hsig : MessageSigner.signMessage env message privateKey = some sig) :
    ∃ r s recovery,
      ecdsaSignHash (sha256 (MessageSigner.prefixMessage (messageToBytes message))) privateKey
        = some (r, s, recovery) ∧
      sig.data.take 2 = ['0', 'x'] ∧
      (sig.drop 2).data.length = 130 ∧
      (∀ c ∈ (sig.drop 2).data, (hexDigitVal c).isSome) ∧
      parseHex (strSlice (sig.drop 2) 0 64) = some r ∧
      parseHex (strSlice (sig.drop 2) 64 128) = some s ∧
      parseHex (strSlice (sig.drop 2) 128 130) = some (recovery + 27) := by
  obtain ⟨r, s, recovery, hrun, rfl⟩ :=
    signMessage_some env message privateKey sig hsig
  obtain ⟨hr1, hr2, hs1, hs2, hslow, hrec4⟩ :=
    ecdsaSignHash_ranges _ _ _ _ _ hrun
  have h16 : (16 : Nat) ^ 64 = 2 ^ 256 := by norm_num
  have hrlt : r < 16 ^ 64 := by rw [h16]; exact lt_trans hr2 secpN_facts.2.1
  have hslt : s < 16 ^ 64 := by rw [h16]; exact lt_trans hs2 secpN_facts.2.1
  have hvlt : recovery + 27 < 16 ^ 2 := by
    have : (16 : Nat) ^ 2 = 256 := by norm_num
    omega
  obtain ⟨hAlen, hAdig, hAparse⟩ :=
    padStart_natToHex_spec 64 r (by norm_num) (by norm_num) hrlt
  obtain ⟨hBlen, hBdig, hBparse⟩ :=
    padStart_natToHex_spec 64 s (by norm_num) (by norm_num) hslt
  obtain ⟨hClen, hCdig, hCparse⟩ :=
    padStart_natToHex_spec 2 (recovery + 27) (by norm_num) (by norm_num) hvlt
  obtain ⟨htake, hdrop⟩ := formatSignature_split r s recovery
  obtain ⟨h1, h2, h3⟩ := sliceFields _ _ _ hAlen hBlen hClen
  refine ⟨r, s, recovery, hrun, htake, ?_, ?_, ?_, ?_, ?_⟩
  · rw [hdrop]
    simp only [String.data_append, List.length_append]
    omega
  · intro c hc
    rw [hdrop] at hc
    simp only [String.data_append, List.mem_append] at hc
    rcases hc with (hc | hc) | hc
    · exact hAdig c hc
    · exact hBdig c hc
    · exact hCdig c hc
  · rw [hdrop, h1]
    exact hAparse
  · rw [hdrop, h2]
    exact hBparse
  · rw [hdrop, h3]
    exact hCparse


/-- Chaining the three `set` calls of `prefixMessage` on a zeroed buffer of
exactly the right size produces the plain concatenation. -/
theorem setAt_chain (P L M : List Nat) :
    setAt (setAt (setAt (List.replicate (P.length + L.length + M.length) 0) 0 P)
        P.length L) (P.length + L.length) M = P ++ L ++ M := by
  have h1 : setAt (List.replicate (P.length + L.length + M.length) 0) 0 P =
      P ++ List.replicate (L.length + M.length) 0 := by
    rw [setAt, List.drop_replicate]
    have hlen : P.length + L.length + M.length - (0 + P.length) =
        L.length + M.length := by omega
    rw [hlen]
    rfl
  have h2 : setAt (P ++ List.replicate (L.length + M.length) 0) P.length L =
      (P ++ L) ++ List.replicate M.length 0 := by
    rw [setAt, List.take_left]
    have hd : (P ++ List.replicate (L.length + M.length) 0).drop
        (P.length + L.length) = List.replicate M.length 0 := by
      rw [List.drop_append, List.drop_replicate]
      have hlen : L.length + M.length - L.length = M.length := by omega
      rw [hlen]
    rw [hd]
  have h3 : setAt ((P ++ L) ++ List.replicate M.length 0)
      (P.length + L.length) M = (P ++ L) ++ M := by
    rw [setAt]
    have ht : ((P ++ L) ++ List.replicate M.length 0).take
        (P.length + L.length) = P ++ L :=
      List.take_left' (by rw [List.length_append])
    have hd : ((P ++ L) ++ List.replicate M.length 0).drop
        (P.length + L.length + M.length) = [] := by
      apply List.drop_eq_nil_of_le
      rw [List.length_append, List.length_append, List.length_replicate]
    rw [ht, hd, List.append_nil]
  rw [h1, h2, h3]

/-- The allocate-and-set construction of `prefixMessage` is the
concatenation of prefix, decimal length and message. -/
theorem prefixMessage_eq (message : List Nat) :
    MessageSigner.prefixMessage message =
      utf8Encode "\x19Ethereum Signed Message:\n"
        ++ utf8Encode (Nat.repr message.length) ++ message := by
  rw [MessageSigner.prefixMessage]
  exact setAt_chain _ _ _

/-- The UTF-8 bytes of the fixed Ethereum personal-message prefix. -/
theorem prefixBytes_eq : utf8Encode "\x19Ethereum Signed Message:\n" =
    [0x19, 0x45, 0x74, 0x68, 0x65, 0x72, 0x65, 0x75, 0x6d, 0x20, 0x53, 0x69,
     0x67, 0x6e, 0x65, 0x64, 0x20, 0x4d, 0x65, 0x73, 0x73, 0x61, 0x67, 0x65,
     0x3a, 0x0a] := by decide

/-- UTF-8 encoding of a pure-ASCII character list is the list of code
points. -/
theorem utf8_ascii_list (l : List Char) (h : ∀ c ∈ l, c.toNat < 128) :
    l.flatMap (fun c => utf8Char c.toNat) = l.map Char.toNat := by
  induction l with
  | nil => rfl
  | cons c cs ih =>
      show utf8Char c.toNat ++ cs.flatMap (fun c => utf8Char c.toNat)
        = c.toNat :: cs.map Char.toNat
      rw [utf8Char, if_pos (h c (List.mem_cons_self c cs))]
      rw [ih (fun x hx => h x (List.mem_cons_of_mem c hx))]
      rfl

/-- Decimal digit characters have the expected code points. -/
theorem digitChar_toNat (d : Nat) (h : d < 10) :
    (Nat.digitChar d).toNat = 48 + d := by
  interval_cases d <;> rfl

/-- The digit-producing loop behind `Nat.repr`: the produced characters are
ASCII decimal digits and parse back to the input. -/
theorem toDigitsCore_spec : ∀ (fuel n : Nat) (ds : List Char), n < 10 ^ (fuel + 1) →
    ∃ digs, Nat.toDigitsCore 10 (fuel + 1) n ds = digs ++ ds ∧ digs ≠ [] ∧
      (∀ c ∈ digs, 48 ≤ c.toNat ∧ c.toNat ≤ 57) ∧
      digs.foldl (fun a c => a * 10 + (c.toNat - 48)) 0 = n := by
  have hunfold : ∀ (f n : Nat) (ds : List Char), Nat.toDigitsCore 10 (f + 1) n ds =
      if n / 10 = 0 then Nat.digitChar (n % 10) :: ds
      else Nat.toDigitsCore 10 f (n / 10) (Nat.digitChar (n % 10) :: ds) :=
    fun f n ds => rfl
  have hdigit : ∀ n : Nat, 48 ≤ (Nat.digitChar (n % 10)).toNat ∧
      (Nat.digitChar (n % 10)).toNat ≤ 57 := by
    intro n
    have h10 : n % 10 < 10 := Nat.mod_lt _ (by norm_num)
    rw [digitChar_toNat _ h10]
    omega
  have hfold1 : ∀ n : Nat, [Nat.digitChar (n % 10)].foldl
      (fun a c => a * 10 + (c.toNat - 48)) 0 = n % 10 := by
    intro n
    have h10 : n % 10 < 10 := Nat.mod_lt _ (by norm_num)
    show 0 * 10 + ((Nat.digitChar (n % 10)).toNat - 48) = n % 10
    rw [digitChar_toNat _ h10]
    omega
  intro fuel
  induction fuel with
  | zero =>
      intro n ds h
      have hn : n < 10 := by simpa using h
      have hdiv : n / 10 = 0 := Nat.div_eq_of_lt hn
      refine ⟨[Nat.digitChar (n % 10)], ?_, by simp, ?_, ?_⟩
      · rw [hunfold, if_pos hdiv]
        rfl
      · intro c hc
        rcases List.mem_singleton.mp hc with rfl
        exact hdigit n
      · rw [hfold1]
        omega
  | succ f ih =>
      intro n ds h
      by_cases hdiv : n / 10 = 0
      · refine ⟨[Nat.digitChar (n % 10)], ?_, by simp, ?_, ?_⟩
        · rw [hunfold, if_pos hdiv]
          rfl
        · intro c hc
          rcases List.mem_singleton.mp hc with rfl
          exact hdigit n
        · rw [hfold1]
          omega
      · have hrec : n / 10 < 10 ^ (f + 1) := by
          rw [pow_succ] at h
          exact Nat.div_lt_of_lt_mul (by omega)
        obtain ⟨digs, heq, hne, hdig, hval⟩ :=
          ih (n / 10) (Nat.digitChar (n % 10) :: ds) hrec
        refine ⟨digs ++ [Nat.digitChar (n % 10)], ?_, ?_, ?_, ?_⟩
        · rw [hunfold, if_neg hdiv, heq, List.append_assoc]
          rfl
        · intro hcon
          exact hne (List.append_eq_nil.mp hcon).1
        · intro c hc
          rcases List.mem_append.mp hc with h | h
          · exact hdig c h
          · rcases List.mem_singleton.mp h with rfl
            exact hdigit n
        · rw [List.foldl_append, hval]
          show (n / 10) * 10 + ((Nat.digitChar (n % 10)).toNat - 48) = n
          rw [digitChar_toNat _ (Nat.mod_lt _ (by norm_num))]
          omega

/-- The UTF-8 bytes of `Nat.repr n` are ASCII decimal digits and parse back
to `n`. -/
theorem repr_digits (n : Nat) :
    (∀ b ∈ utf8Encode (Nat.repr n), 48 ≤ b ∧ b ≤ 57) ∧
    (utf8Encode (Nat.repr n)).foldl (fun a b => a * 10 + (b - 48)) 0 = n := by
  have hbound : n < 10 ^ (n + 1) := by
    calc n < 10 ^ n := Nat.lt_pow_self (by norm_num) n
      _ ≤ 10 ^ (n + 1) := Nat.pow_le_pow_right (by norm_num) (by omega)
  obtain ⟨digs, heq, hne, hdig, hval⟩ := toDigitsCore_spec n n [] hbound
  have hrepr : (Nat.repr n).data = digs := by
    show (Nat.toDigits 10 n).asString.data = digs
    show Nat.toDigitsCore 10 (n + 1) n [] = digs
    rw [heq, List.append_nil]
  have hascii : ∀ c ∈ (Nat.repr n).data, c.toNat < 128 := by
    rw [hrepr]
    intro c hc
    exact lt_of_le_of_lt (hdig c hc).2 (by norm_num)
  have henc : utf8Encode (Nat.repr n) = (Nat.repr n).data.map Char.toNat := by
    rw [utf8Encode]
    exact utf8_ascii_list _ hascii
  rw [henc, hrepr]
  constructor
  · intro b hb
    obtain ⟨c, hc, rfl⟩ := List.mem_map.mp hb
    exact hdig c hc
  · rw [List.foldl_map]
    exact hval

/-- **C6.** Sign, verify and recover all hash, with SHA-256, one and the
same prefixed buffer: the UTF-8 bytes of the fixed prefix
(`0x19` then `Ethereum Signed Message:` and a newline, listed concretely),
then the decimal byte length of the message as ASCII digit characters, then
the raw message bytes. -/
theorem c6_prefixed_hash_construction (message : JSMessage) :
    (MessageSigner.prefixMessage (messageToBytes message) =
      [0x19, 0x45, 0x74, 0x68, 0x65, 0x72, 0x65, 0x75, 0x6d, 0x20, 0x53, 0x69,
       0x67, 0x6e, 0x65, 0x64, 0x20, 0x4d, 0x65, 0x73, 0x73, 0x61, 0x67, 0x65,
       0x3a, 0x0a]
        ++ utf8Encode (Nat.repr (messageToBytes message).length)
        ++ messageToBytes message) ∧
    (∀ b ∈ utf8Encode (Nat.repr (messageToBytes message).length),
      48 ≤ b ∧ b ≤ 57) ∧
    ((utf8Encode (Nat.repr (messageToBytes message).length)).foldl
      (fun a b => a * 10 + (b - 48)) 0 = (messageToBytes message).length) ∧
    (∀ env key, MessageSigner.signMessage env message key =
      (ecdsaSignHash (sha256 (MessageSigner.prefixMessage (messageToBytes message)))
        key).map (fun rsv => MessageSigner.formatSignature rsv.1 rsv.2.1 rsv.2.2)) ∧
    (∀ sig, MessageSigner.recoverPublicKey message sig =
      MessageSigner.recoverFromHash
        (sha256 (MessageSigner.prefixMessage (messageToBytes message))) sig) ∧
    (∀ sig pk r s,
      parseHex (strSlice (MessageSigner.cleanSignature sig) 0 64) = some r →
      parseHex (strSlice (MessageSigner.cleanSignature sig) 64 128) = some s →
      1 ≤ r → r < secpN → 1 ≤ s → s < secpN →
      MessageSigner.verifySignature message sig pk =
        ecdsaVerifyHash (sha256 (MessageSigner.prefixMessage (messageToBytes message)))
          r s pk) := by
  refine ⟨?_, (repr_digits _).1, (repr_digits _).2, fun env key => rfl,
    fun sig => rfl, ?_⟩
  · rw [prefixMessage_eq, prefixBytes_eq]
  · intro sig pk r s hr hs h1 h2 h3 h4
    exact verifySignature_parses message sig pk r s hr hs ⟨h1, h2, h3, h4⟩


/-- Whatever the validity loop returns passed the validity test. -/
theorem ensureValid_some_valid : ∀ (fuel : Nat) (k0 key : List Nat),
    KeyDerivation.ensureValidPrivateKey fuel k0 = some key →
    isValidSecretKey key = true := by
  intro fuel
  induction fuel with
  | zero => intro k0 key h; cases h
  | succ f ih =>
      intro k0 key h
      rw [show KeyDerivation.ensureValidPrivateKey (f + 1) k0 =
          (if isValidSecretKey k0 then some k0
           else KeyDerivation.ensureValidPrivateKey f (sha256 k0)) from rfl] at h
      by_cases hv : isValidSecretKey k0
      · rw [if_pos hv] at h
        cases h
        exact hv
      · rw [if_neg hv] at h
        exact ih _ _ h

/-- **C1.** The validity retry loop of key derivation has no iteration cap
and no exhaustion error in the code: for every bound `fuel`, the loop is
still running after `fuel` validity tests exactly when none of the first
`fuel` SHA-256 iterates of the candidate is a valid scalar — the loop simply
continues for as long as candidates stay invalid, and there is no
`KeyDerivationExhaustion`-style fatal result distinct from looping. -/
theorem c1_retry_loop_uncapped (fuel : Nat) (key : List Nat) :
    KeyDerivation.ensureValidPrivateKey fuel key = none ↔
      ∀ i < fuel, isValidSecretKey (sha256^[i] key) = false := by
  induction fuel generalizing key with
  | zero =>
      constructor
      · intro _ i hi
        omega
      · intro _
        rfl
  | succ f ih =>
      rw [show KeyDerivation.ensureValidPrivateKey (f + 1) key =
          (if isValidSecretKey key then some key
           else KeyDerivation.ensureValidPrivateKey f (sha256 key)) from rfl]
      by_cases hv : isValidSecretKey key
      · rw [if_pos hv]
        constructor
        · intro h
          cases h
        · intro h
          have h0 := h 0 (Nat.succ_pos f)
          rw [Function.iterate_zero_apply] at h0
          rw [hv] at h0
          cases h0
      · rw [if_neg hv]
        rw [ih (sha256 key)]
        constructor
        · intro h i hi
          cases i with
          | zero =>
              rw [Function.iterate_zero_apply]
              exact (Bool.not_eq_true _).mp hv
          | succ j =>
              rw [Function.iterate_succ_apply]
              exact h j (by omega)
        · intro h i hi
          have hstep := h (i + 1) (by omega)
          rw [Function.iterate_succ_apply] at hstep
          exact hstep

/-- **C2.** Every key that `deriveSigningKey` returns is a 32-byte scalar
`k` with `1 ≤ k < n` for the secp256k1 group order `n`. -/
theorem c2_derived_key_in_range (env : Env) (fuel : Nat)
    (credentialId userId : String) (salt : Option (List Nat)) (key : List Nat)
    (h : KeyDerivation.deriveSigningKey env fuel credentialId userId salt
      = some key) :
    key.length = 32 ∧ 1 ≤ bytesToNat key ∧ bytesToNat key < secpN := by
  have hval : isValidSecretKey key = true :=
    ensureValid_some_valid fuel
      (hkdf (utf8Encode (credentialId ++ userId)) salt
        (utf8Encode "passface-signing-key-v1") 32) key h
  rw [isValidSecretKey] at hval
  simp only [Bool.and_eq_true, decide_eq_true_eq] at hval
  exact ⟨hval.1.1, hval.1.2, hval.2⟩

/-- **C3.** Derivation and signing are deterministic: neither
`deriveSigningKey` nor `signMessage` consults the ambient runtime (entropy
source or clock), so two calls in different runtime states return identical
results for the same inputs. -/
theorem c3_derivation_and_signing_deterministic :
    (∀ env1 env2 fuel credentialId userId salt,
      KeyDerivation.deriveSigningKey env1 fuel credentialId userId salt =
        KeyDerivation.deriveSigningKey env2 fuel credentialId userId salt) ∧
    (∀ env1 env2 message privateKey,
      MessageSigner.signMessage env1 message privateKey =
        MessageSigner.signMessage env2 message privateKey) :=
  ⟨fun _ _ _ _ _ _ => rfl, fun _ _ _ _ => rfl⟩

/-- **C7.** `verifySignature` is a total Boolean function, and it returns
`true` only in the one good case: both hex fields of the (0x-stripped)
signature parse, both pass the range checks, and the core verification
equation holds — on every other input, malformed ones included, it returns
`false` rather than an error. -/
theorem c7_verify_never_throws (message : JSMessage) (signature : String)
    (publicKey : List Nat) :
    MessageSigner.verifySignature message signature publicKey = true ↔
      ∃ r s, parseHex (strSlice (MessageSigner.cleanSignature signature) 0 64)
          = some r ∧
        parseHex (strSlice (MessageSigner.cleanSignature signature) 64 128)
          = some s ∧
        (1 ≤ r ∧ r < secpN ∧ 1 ≤ s ∧ s < secpN) ∧
        ecdsaVerifyHash (sha256 (MessageSigner.prefixMessage
          (messageToBytes message))) r s publicKey = true := by
  rcases hp : parseHex (strSlice (MessageSigner.cleanSignature signature) 0 64)
    with _ | r
  · rw [MessageSigner.verifySignature, hp]
    rcases hq : parseHex (strSlice (MessageSigner.cleanSignature signature) 64 128)
      with _ | s
    · show false = true ↔ _
      constructor
      · intro h
        cases h
      · rintro ⟨r, s, h1, _, _, _⟩
        cases h1
    · show false = true ↔ _
      constructor
      · intro h
        cases h
      · rintro ⟨r, s, h1, _, _, _⟩
        cases h1
  · rw [MessageSigner.verifySignature, hp]
    rcases hq : parseHex (strSlice (MessageSigner.cleanSignature signature) 64 128)
      with _ | s
    · show false = true ↔ _
      constructor
      · intro h
        cases h
      · rintro ⟨r2, s2, h1, h2, _, _⟩
        cases h2
    · show (if 1 ≤ r ∧ r < secpN ∧ 1 ≤ s ∧ s < secpN then
          ecdsaVerifyHash (sha256 (MessageSigner.prefixMessage
            (messageToBytes message))) r s publicKey
        else false) = true ↔ _
      by_cases hrange : 1 ≤ r ∧ r < secpN ∧ 1 ≤ s ∧ s < secpN
      · rw [if_pos hrange]
        constructor
        · intro h
          exact ⟨r, s, rfl, rfl, hrange, h⟩
        · rintro ⟨r2, s2, h1, h2, hrange2, hver⟩
          cases h1
          cases h2
          exact hver
      · rw [if_neg hrange]
        constructor
        · intro h
          cases h
        · rintro ⟨r2, s2, h1, h2, hrange2, _⟩
          cases h1
          cases h2
          exact absurd hrange2 hrange


/-- One SHA-256 round keeps the state length. -/
theorem sha256Round_length (st : List Nat) (kw : Nat × Nat) :
    (sha256Round st kw).length = st.length := by
  rcases st with _ | ⟨a, _ | ⟨b, _ | ⟨c, _ | ⟨d, _ | ⟨e, _ | ⟨f, _ | ⟨g,
    _ | ⟨h, _ | ⟨i, t⟩⟩⟩⟩⟩⟩⟩⟩⟩ <;> rfl

/-- The round fold keeps the state length. -/
theorem foldl_sha256Round_length : ∀ (pairs : List (Nat × Nat)) (st : List Nat),
    (pairs.foldl sha256Round st).length = st.length := by
  intro pairs
  induction pairs with
  | nil => intro st; rfl
  | cons p ps ih =>
      intro st
      show (ps.foldl sha256Round (sha256Round st p)).length = st.length
      rw [ih, sha256Round_length]

/-- The compression function keeps the state length. -/
theorem sha256Compress_length (h block : List Nat) :
    (sha256Compress h block).length = h.length := by
  show ((h.zip ((sha256K.zip (sha256Schedule (bytesToWords32 block))).foldl
    sha256Round h)).map _).length = h.length
  rw [List.length_map, List.length_zip, foldl_sha256Round_length, Nat.min_self]

/-- The block fold keeps the state length. -/
theorem foldl_sha256Compress_length : ∀ (blocks : List (List Nat)) (st : List Nat),
    (blocks.foldl sha256Compress st).length = st.length := by
  intro blocks
  induction blocks with
  | nil => intro st; rfl
  | cons b bs ih =>
      intro st
      show (bs.foldl sha256Compress (sha256Compress st b)).length = st.length
      rw [ih, sha256Compress_length]

/-- Serializing 32-bit words yields four bytes each. -/
theorem flatMap_word32_length : ∀ ws : List Nat,
    (ws.flatMap word32ToBytes).length = 4 * ws.length := by
  intro ws
  induction ws with
  | nil => rfl
  | cons w rest ih =>
      show (word32ToBytes w ++ rest.flatMap word32ToBytes).length = _
      rw [List.length_append, ih]
      show 4 + 4 * rest.length = 4 * (rest.length + 1)
      omega

/-- SHA-256 digests are 32 bytes long. -/
theorem sha256_length (msg : List Nat) : (sha256 msg).length = 32 := by
  show (((toBlocks ((sha256Pad msg).length / 64) (sha256Pad msg)).foldl
    sha256Compress sha256IV).flatMap word32ToBytes).length = 32
  rw [flatMap_word32_length, foldl_sha256Compress_length]
  rfl

/-- SHA-256 digest bytes are bytes. -/
theorem sha256_bytes_lt (msg : List Nat) : ∀ b ∈ sha256 msg, b < 256 := by
  intro b hb
  replace hb : b ∈ ((toBlocks ((sha256Pad msg).length / 64) (sha256Pad msg)).foldl
      sha256Compress sha256IV).flatMap word32ToBytes := hb
  rcases List.mem_flatMap.mp hb with ⟨w, _, hw⟩
  rcases hw with _ | ⟨_, _ | ⟨_, _ | ⟨_, hw4⟩⟩⟩
  · exact Nat.mod_lt _ (by norm_num)
  · exact Nat.mod_lt _ (by norm_num)
  · exact Nat.mod_lt _ (by norm_num)
  · rcases hw4 with _ | ⟨_, hnil⟩
    · exact Nat.mod_lt _ (by norm_num)
    · cases hnil

/-- Every character the hex digit writer emits is the image of a digit. -/
theorem natToHexCore_mem : ∀ (fuel x : Nat) (c : Char),
    c ∈ natToHexCore fuel x → ∃ d, d < 16 ∧ c = hexDigit d := by
  intro fuel
  induction fuel with
  | zero => intro x c hc; cases hc
  | succ f ih =>
      intro x c hc
      by_cases hx : x < 16
      · rw [natToHexCore_small f x hx] at hc
        rcases List.mem_singleton.mp hc with rfl
        exact ⟨x, hx, rfl⟩
      · rw [natToHexCore_big f x hx] at hc
        rcases List.mem_append.mp hc with h | h
        · exact ih _ _ h
        · rcases List.mem_singleton.mp h with rfl
          exact ⟨x % 16, Nat.mod_lt _ (by norm_num), rfl⟩

/-- Characters of a zero-padded hex field are lowercase hex digits. -/
theorem padStart_hex_lowercase (b w : Nat) (c : Char)
    (hc : c ∈ (padStart (natToHex b) w).data) :
    (48 ≤ c.toNat ∧ c.toNat ≤ 57) ∨ (97 ≤ c.toNat ∧ c.toNat ≤ 102) := by
  replace hc : c ∈ List.replicate (w - (natToHex b).length) (Char.ofNat 48)
      ++ natToHexCore 80 b := hc
  rcases List.mem_append.mp hc with h | h
  · rcases List.eq_of_mem_replicate h with rfl
    left
    exact ⟨by decide, by decide⟩
  · obtain ⟨d, hd, rfl⟩ := natToHexCore_mem 80 b c h
    exact hexDigit_lowercase d hd

/-- Joining two-character hex fields: total length and lowercase-hex
characters. -/
theorem hexJoin_spec : ∀ (bs : List Nat), (∀ b ∈ bs, b < 256) →
    ((bs.map (fun b => padStart (natToHex b) 2)).map String.data).flatten.length
      = 2 * bs.length ∧
    (∀ c ∈ ((bs.map (fun b => padStart (natToHex b) 2)).map String.data).flatten,
      (48 ≤ c.toNat ∧ c.toNat ≤ 57) ∨ (97 ≤ c.toNat ∧ c.toNat ≤ 102)) := by
  intro bs
  induction bs with
  | nil => exact fun _ => ⟨rfl, fun c hc => absurd hc (List.not_mem_nil c)⟩
  | cons b rest ih =>
      intro hlt
      have hb : b < 256 := hlt b (List.mem_cons_self b rest)
      have hb16 : b < 16 ^ 2 := by
        rw [show (16 : Nat) ^ 2 = 256 from by norm_num]
        exact hb
      obtain ⟨ihlen, ihmem⟩ := ih (fun x hx => hlt x (List.mem_cons_of_mem b hx))
      have hlen2 : (padStart (natToHex b) 2).data.length = 2 :=
        (padStart_natToHex_spec 2 b (by norm_num) (by norm_num) hb16).1
      constructor
      · show ((padStart (natToHex b) 2).data
            ++ ((rest.map (fun b => padStart (natToHex b) 2)).map
              String.data).flatten).length = 2 * (rest.length + 1)
        rw [List.length_append, ihlen, hlen2]
        omega
      · intro c hc
        rcases List.mem_append.mp hc with h | h
        · exact padStart_hex_lowercase b 2 c h
        · exact ihmem c h

/-- `getEthereumAddress` as a map over the uncompressed public key: SHA-256
of the key without its leading byte, last 20 digest bytes, hex-encoded. -/
theorem getEthereumAddress_eq (privateKey : List Nat) :
    KeyDerivation.getEthereumAddress privateKey =
      (KeyDerivation.getPublicKeyUncompressed privateKey).map (fun publicKey =>
        "0x" ++ String.join (((sha256 (publicKey.drop 1)).drop
          ((sha256 (publicKey.drop 1)).length - 20)).map
          (fun b => padStart (natToHex b) 2))) := by
  cases h : KeyDerivation.getPublicKeyUncompressed privateKey with
  | none =>
      rw [KeyDerivation.getEthereumAddress, h]
      rfl
  | some pk =>
      rw [KeyDerivation.getEthereumAddress, h]
      rfl

set_option maxHeartbeats 4000000 in
/-- **C10.** `getEthereumAddress` hashes the uncompressed public key minus
its leading `04` byte with SHA-256 (not Keccak-256, despite the comment in
the source), and returns `0x` plus exactly 40 lowercase hex characters for
the last 20 digest bytes; at the key `1` the result differs from the
standard Keccak-256 Ethereum address of the same key. -/
theorem c10_eth_address_sha256_not_keccak :
    (∀ privateKey, KeyDerivation.getEthereumAddress privateKey =
      (KeyDerivation.getPublicKeyUncompressed privateKey).map (fun publicKey =>
        "0x" ++ String.join (((sha256 (publicKey.drop 1)).drop
          ((sha256 (publicKey.drop 1)).length - 20)).map
          (fun b => padStart (natToHex b) 2)))) ∧
    (∀ privateKey addr,
      KeyDerivation.getEthereumAddress privateKey = some addr →
      addr.data.take 2 = ['0', 'x'] ∧ addr.data.length = 42 ∧
      ∀ c ∈ addr.data.drop 2,
        (48 ≤ c.toNat ∧ c.toNat ≤ 57) ∨ (97 ≤ c.toNat ∧ c.toNat ≤ 102)) ∧
    KeyDerivation.getEthereumAddress (natToBytes 32 1) ≠ none ∧
    standardEthereumAddress (natToBytes 32 1) ≠ none ∧
    KeyDerivation.getEthereumAddress (natToBytes 32 1) ≠
      standardEthereumAddress (natToBytes 32 1) := by
  refine ⟨getEthereumAddress_eq, ?_, by decide, by decide, by decide⟩
  intro privateKey addr h
  rw [getEthereumAddress_eq] at h
  rw [Option.map_eq_some'] at h
  obtain ⟨pk, hpk, haddr⟩ := h
  have hlen32 : (sha256 (pk.drop 1)).length = 32 := sha256_length _
  have htail_lt : ∀ b ∈ (sha256 (pk.drop 1)).drop
      ((sha256 (pk.drop 1)).length - 20), b < 256 := by
    intro b hb
    exact sha256_bytes_lt _ b (List.mem_of_mem_drop hb)
  obtain ⟨hjlen, hjmem⟩ := hexJoin_spec ((sha256 (pk.drop 1)).drop
    ((sha256 (pk.drop 1)).length - 20)) htail_lt
  have hjoin_data : (String.join (((sha256 (pk.drop 1)).drop
      ((sha256 (pk.drop 1)).length - 20)).map
      (fun b => padStart (natToHex b) 2))).data =
      ((((sha256 (pk.drop 1)).drop ((sha256 (pk.drop 1)).length - 20)).map
        (fun b => padStart (natToHex b) 2)).map String.data).flatten :=
    String.data_join _
  have hdata : addr.data = '0' :: 'x' :: (String.join (((sha256 (pk.drop 1)).drop
      ((sha256 (pk.drop 1)).length - 20)).map
      (fun b => padStart (natToHex b) 2))).data := by
    rw [← haddr]
    rfl
  have htail_len : ((sha256 (pk.drop 1)).drop
      ((sha256 (pk.drop 1)).length - 20)).length = 20 := by
    rw [List.length_drop, hlen32]
  refine ⟨?_, ?_, ?_⟩
  · rw [hdata]
    rfl
  · rw [hdata, List.length_cons, List.length_cons, hjoin_data, hjlen, htail_len]
  · intro c hc
    rw [hdata] at hc
    replace hc : c ∈ (String.join (((sha256 (pk.drop 1)).drop
        ((sha256 (pk.drop 1)).length - 20)).map
        (fun b => padStart (natToHex b) 2))).data := hc
    rw [hjoin_data] at hc
    exact hjmem c hc


/-- `getD` into a list of 4-byte words yields a 4-byte word. -/
theorem getD_length_four (ws : List (List Nat)) (n : Nat) (hn : n < ws.length)
    (hall : ∀ w ∈ ws, w.length = 4) : (ws.getD n []).length = 4 := by
  rw [List.getD_eq_getElem?_getD, List.getElem?_eq_getElem hn, Option.getD_some]
  exact hall _ (List.getElem_mem hn)

/-- `getD` into a list of byte words yields bytes. -/
theorem getD_bytes_lt (ws : List (List Nat)) (n : Nat)
    (hall : ∀ w ∈ ws, ∀ b ∈ w, b < 256) : ∀ b ∈ ws.getD n [], b < 256 := by
  by_cases hn : n < ws.length
  · rw [List.getD_eq_getElem?_getD, List.getElem?_eq_getElem hn, Option.getD_some]
    exact hall _ (List.getElem_mem hn)
  · rw [List.getD_eq_getElem?_getD, List.getElem?_eq_none (by omega),
      Option.getD_none]
    intro b hb
    cases hb

/-- `getD` from a byte table with a byte default is a byte. -/
theorem getD_lt_256 (l : List Nat) (hl : ∀ x ∈ l, x < 256) (n d : Nat)
    (hd : d < 256) : l.getD n d < 256 := by
  by_cases hn : n < l.length
  · rw [List.getD_eq_getElem?_getD, List.getElem?_eq_getElem hn, Option.getD_some]
    exact hl _ (List.getElem_mem hn)
  · rw [List.getD_eq_getElem?_getD, List.getElem?_eq_none (by omega),
      Option.getD_none]
    exact hd

/-- The S-box produces bytes. -/
theorem sbox_lt (b : Nat) : sbox b < 256 :=
  getD_lt_256 aesSBox (by decide) b 0 (by norm_num)

/-- The round constants are bytes. -/
theorem aesRcon_lt (j : Nat) : aesRcon j < 256 :=
  getD_lt_256 [0, 1, 2, 4, 8, 16, 32, 64] (by decide) j 0 (by norm_num)

/-- XOR of two bytes is a byte. -/
theorem xor_byte_lt (a b : Nat) (ha : a < 256) (hb : b < 256) : a ^^^ b < 256 :=
  @Nat.xor_lt_two_pow a b 8 ha hb

/-- GF(2^8) doubling produces bytes. -/
theorem xtime_lt (b : Nat) : xtime b < 256 := Nat.mod_lt _ (by norm_num)

/-- XOR-combining two byte strings gives bytes. -/
theorem zipWith_xor_lt : ∀ (l1 l2 : List Nat), (∀ a ∈ l1, a < 256) →
    (∀ b ∈ l2, b < 256) →
    ∀ c ∈ List.zipWith (fun a b => a ^^^ b) l1 l2, c < 256 := by
  intro l1
  induction l1 with
  | nil => intro l2 _ _ c hc; cases hc
  | cons a l1 ih =>
      intro l2 h1 h2 c hc
      cases l2 with
      | nil => cases hc
      | cons b l2 =>
          rcases List.mem_cons.mp hc with rfl | hc
          · exact xor_byte_lt a b (h1 a (List.mem_cons_self a l1))
              (h2 b (List.mem_cons_self b l2))
          · exact ih l2 (fun x hx => h1 x (List.mem_cons_of_mem a hx))
              (fun x hx => h2 x (List.mem_cons_of_mem b hx)) c hc

/-- The key-schedule word transformation keeps length 4 and byte bounds. -/
theorem aesTempWord_spec (i : Nat) (prev : List Nat) (hlen : prev.length = 4)
    (hbytes : ∀ b ∈ prev, b < 256) :
    (aesTempWord i prev).length = 4 ∧ ∀ b ∈ aesTempWord i prev, b < 256 := by
  rw [aesTempWord]
  by_cases h0 : i % 8 = 0
  · rw [if_pos h0]
    have hsub_len : ((prev.drop 1 ++ prev.take 1).map sbox).length = 4 := by
      rw [List.length_map, List.length_append, List.length_drop,
        List.length_take, hlen]
      omega
    have hsub_mem : ∀ b ∈ (prev.drop 1 ++ prev.take 1).map sbox, b < 256 := by
      intro b hb
      obtain ⟨c, _, rfl⟩ := List.mem_map.mp hb
      exact sbox_lt c
    rcases hsub : (prev.drop 1 ++ prev.take 1).map sbox with _ | ⟨s0, srest⟩
    · rw [hsub] at hsub_len
      simp at hsub_len
    · rw [hsub] at hsub_len hsub_mem
      show ((s0 ^^^ aesRcon (i / 8)) :: srest).length = 4 ∧ _
      refine ⟨by simpa using hsub_len, ?_⟩
      intro b hb
      rcases List.mem_cons.mp hb with rfl | hb
      · exact xor_byte_lt _ _ (hsub_mem s0 (List.mem_cons_self s0 srest))
          (aesRcon_lt (i / 8))
      · exact hsub_mem b (List.mem_cons_of_mem s0 hb)
  · rw [if_neg h0]
    by_cases h4 : i % 8 = 4
    · rw [if_pos h4]
      refine ⟨by rw [List.length_map, hlen], ?_⟩
      intro b hb
      obtain ⟨c, _, rfl⟩ := List.mem_map.mp hb
      exact sbox_lt c
    · rw [if_neg h4]
      exact ⟨hlen, hbytes⟩

/-- The key expansion loop: word count grows by the fuel, words stay 4-byte
byte words. -/
theorem aesExpandLoop_spec : ∀ (count i : Nat) (ws : List (List Nat)),
    8 ≤ i → ws.length = i →
    (∀ w ∈ ws, w.length = 4 ∧ ∀ b ∈ w, b < 256) →
    (aesExpandLoop count i ws).length = i + count ∧
    ∀ w ∈ aesExpandLoop count i ws, w.length = 4 ∧ ∀ b ∈ w, b < 256 := by
  intro count
  induction count with
  | zero =>
      intro i ws h8 hlen hall
      exact ⟨by simpa using hlen, hall⟩
  | succ c ih =>
      intro i ws h8 hlen hall
      have hall_len : ∀ w ∈ ws, w.length = 4 := fun w hw => (hall w hw).1
      have hall_bytes : ∀ w ∈ ws, ∀ b ∈ w, b < 256 := fun w hw => (hall w hw).2
      have hback_len : (ws.getD (i - 8) []).length = 4 :=
        getD_length_four ws (i - 8) (by omega) hall_len
      have hback_bytes : ∀ b ∈ ws.getD (i - 8) [], b < 256 :=
        getD_bytes_lt ws (i - 8) hall_bytes
      have hprev_len : (ws.getD (i - 1) []).length = 4 :=
        getD_length_four ws (i - 1) (by omega) hall_len
      have hprev_bytes : ∀ b ∈ ws.getD (i - 1) [], b < 256 :=
        getD_bytes_lt ws (i - 1) hall_bytes
      obtain ⟨htlen, htbytes⟩ := aesTempWord_spec i _ hprev_len hprev_bytes
      have hw_len : (List.zipWith (fun a b => a ^^^ b) (ws.getD (i - 8) [])
          (aesTempWord i (ws.getD (i - 1) []))).length = 4 := by
        rw [List.length_zipWith, hback_len, htlen]
        omega
      have hw_bytes := zipWith_xor_lt _ _ hback_bytes htbytes
      have hstep : aesExpandLoop (c + 1) i ws = aesExpandLoop c (i + 1)
          (ws ++ [List.zipWith (fun a b => a ^^^ b) (ws.getD (i - 8) [])
            (aesTempWord i (ws.getD (i - 1) []))]) := rfl
      rw [hstep]
      obtain ⟨rl, rmem⟩ := ih (i + 1)
        (ws ++ [List.zipWith (fun a b => a ^^^ b) (ws.getD (i - 8) [])
          (aesTempWord i (ws.getD (i - 1) []))]) (by omega)
        (by simp [hlen])
        (by
          intro w hw
          rcases List.mem_append.mp hw with h | h
          · exact hall w h
          · rcases List.mem_singleton.mp h with rfl
            exact ⟨hw_len, hw_bytes⟩)
      exact ⟨by rw [rl]; omega, rmem⟩

/-- `bytesToWords32` produces one word per four bytes. -/
theorem bytesToWords32_length (l : List Nat) :
    (bytesToWords32 l).length = l.length / 4 := by
  have key : ∀ (n : Nat) (l : List Nat), l.length ≤ n →
      (bytesToWords32 l).length = l.length / 4 := by
    intro n
    induction n with
    | zero =>
        intro l h
        rcases l with _ | ⟨a, t⟩
        · rfl
        · simp at h
    | succ m ih =>
        intro l h
        rcases l with _ | ⟨a, _ | ⟨b, _ | ⟨c, _ | ⟨d, rest⟩⟩⟩⟩
        · rfl
        · simp [bytesToWords32]
        · simp [bytesToWords32]
        · simp [bytesToWords32]
        · rw [bytesToWords32]
          rw [List.length_cons, ih rest (by
            simp only [List.length_cons] at h
            omega)]
          simp only [List.length_cons]
          omega
  exact key l.length l (le_refl _)

/-- The AES-256 key schedule of a 32-byte key: 60 words of 4 bytes each. -/
theorem aesKeySchedule_spec (key : List Nat) (hkey : key.length = 32) :
    (aesKeySchedule key).length = 60 ∧
    ∀ w ∈ aesKeySchedule key, w.length = 4 ∧ ∀ b ∈ w, b < 256 := by
  have hinit_len : ((bytesToWords32 key).map word32ToBytes).length = 8 := by
    rw [List.length_map, bytesToWords32_length, hkey]
  have hinit : ∀ w ∈ (bytesToWords32 key).map word32ToBytes,
      w.length = 4 ∧ ∀ b ∈ w, b < 256 := by
    intro w hw
    obtain ⟨x, _, rfl⟩ := List.mem_map.mp hw
    refine ⟨rfl, ?_⟩
    intro b hb
    rcases hb with _ | ⟨_, _ | ⟨_, _ | ⟨_, h4⟩⟩⟩
    · exact Nat.mod_lt _ (by norm_num)
    · exact Nat.mod_lt _ (by norm_num)
    · exact Nat.mod_lt _ (by norm_num)
    · rcases h4 with _ | ⟨_, hnil⟩
      · exact Nat.mod_lt _ (by norm_num)
      · cases hnil
  obtain ⟨hl, hm⟩ := aesExpandLoop_spec 52 8 _ (le_refl 8) hinit_len hinit
  exact ⟨hl, hm⟩

/-- SubBytes keeps the length. -/
theorem aesSubBytes_len (st : List Nat) : (aesSubBytes st).length = st.length :=
  List.length_map st sbox

/-- SubBytes produces bytes. -/
theorem aesSubBytes_lt (st : List Nat) : ∀ b ∈ aesSubBytes st, b < 256 := by
  intro b hb
  obtain ⟨c, _, rfl⟩ := List.mem_map.mp hb
  exact sbox_lt c

/-- ShiftRows keeps the length. -/
theorem aesShiftRows_len (st : List Nat) :
    (aesShiftRows st).length = st.length := by
  rcases st with _ | ⟨b0, _ | ⟨b1, _ | ⟨b2, _ | ⟨b3, _ | ⟨b4, _ | ⟨b5, _ | ⟨b6,
    _ | ⟨b7, _ | ⟨b8, _ | ⟨b9, _ | ⟨b10, _ | ⟨b11, _ | ⟨b12, _ | ⟨b13,
    _ | ⟨b14, _ | ⟨b15, _ | ⟨b16, t⟩⟩⟩⟩⟩⟩⟩⟩⟩⟩⟩⟩⟩⟩⟩⟩⟩ <;> rfl

/-- ShiftRows permutes, so byte bounds carry over. -/
theorem aesShiftRows_lt (st : List Nat) (h : ∀ b ∈ st, b < 256) :
    ∀ b ∈ aesShiftRows st, b < 256 := by
  rcases st with _ | ⟨b0, _ | ⟨b1, _ | ⟨b2, _ | ⟨b3, _ | ⟨b4, _ | ⟨b5, _ | ⟨b6,
    _ | ⟨b7, _ | ⟨b8, _ | ⟨b9, _ | ⟨b10, _ | ⟨b11, _ | ⟨b12, _ | ⟨b13,
    _ | ⟨b14, _ | ⟨b15, _ | ⟨b16, t⟩⟩⟩⟩⟩⟩⟩⟩⟩⟩⟩⟩⟩⟩⟩⟩⟩ <;>
    first
      | exact h
      | · intro b hb
          simp only [aesShiftRows, List.mem_cons, List.not_mem_nil,
            or_false] at hb
          rcases hb with rfl | rfl | rfl | rfl | rfl | rfl | rfl | rfl | rfl
            | rfl | rfl | rfl | rfl | rfl | rfl | rfl <;> (apply h; simp)

/-- MixColumn on one column keeps the length. -/
theorem aesMixColumn_len (c : List Nat) :
    (aesMixColumn c).length = c.length := by
  rcases c with _ | ⟨a0, _ | ⟨a1, _ | ⟨a2, _ | ⟨a3, _ | ⟨a4, t⟩⟩⟩⟩⟩ <;> rfl

/-- MixColumn produces bytes from bytes. -/
theorem aesMixColumn_lt (c : List Nat) (h : ∀ b ∈ c, b < 256) :
    ∀ b ∈ aesMixColumn c, b < 256 := by
  rcases c with _ | ⟨a0, _ | ⟨a1, _ | ⟨a2, _ | ⟨a3, _ | ⟨a4, t⟩⟩⟩⟩⟩
  · exact h
  · exact h
  · exact h
  · exact h
  · have h0 : a0 < 256 := h a0 (by simp)
    have h1 : a1 < 256 := h a1 (by simp)
    have h2 : a2 < 256 := h a2 (by simp)
    have h3 : a3 < 256 := h a3 (by simp)
    intro b hb
    simp only [aesMixColumn, List.mem_cons, List.not_mem_nil, or_false] at hb
    rcases hb with rfl | rfl | rfl | rfl <;>
      (repeat
        first
          | exact xtime_lt _
          | exact h0
          | exact h1
          | exact h2
          | exact h3
          | apply xor_byte_lt)
  · exact h

/-- MixColumns of a 16-byte state keeps the length. -/
theorem aesMixColumns_len (st : List Nat) (hst : st.length = 16) :
    (aesMixColumns st).length = 16 := by
  rw [aesMixColumns]
  rw [List.length_append, List.length_append, List.length_append]
  rw [aesMixColumn_len, aesMixColumn_len, aesMixColumn_len, aesMixColumn_len]
  rw [List.length_take, List.length_take, List.length_take, List.length_drop,
    List.length_drop, List.length_drop, hst]
  omega

/-- MixColumns produces bytes from bytes. -/
theorem aesMixColumns_lt (st : List Nat) (h : ∀ b ∈ st, b < 256) :
    ∀ b ∈ aesMixColumns st, b < 256 := by
  intro b hb
  rw [aesMixColumns] at hb
  rcases List.mem_append.mp hb with hb | hb4
  · rcases List.mem_append.mp hb with hb | hb3
    · rcases List.mem_append.mp hb with hb | hb2
      · exact aesMixColumn_lt _
          (fun x hx => h x (List.mem_of_mem_take hx)) b hb
      · exact aesMixColumn_lt _
          (fun x hx => h x (List.mem_of_mem_drop (List.mem_of_mem_take hx)))
          b hb2
    · exact aesMixColumn_lt _
        (fun x hx => h x (List.mem_of_mem_drop (List.mem_of_mem_take hx)))
        b hb3
  · exact aesMixColumn_lt _
      (fun x hx => h x (List.mem_of_mem_drop hx)) b hb4

/-- AddRoundKey with an in-range round keeps a 16-byte byte state. -/
theorem aesAddRoundKey_spec (ws : List (List Nat)) (round : Nat)
    (st : List Nat) (hws_len : ws.length = 60)
    (hws : ∀ w ∈ ws, w.length = 4 ∧ ∀ b ∈ w, b < 256)
    (hround : 4 * round + 3 < 60) (hst : st.length = 16)
    (hstb : ∀ b ∈ st, b < 256) :
    (aesAddRoundKey ws round st).length = 16 ∧
    ∀ b ∈ aesAddRoundKey ws round st, b < 256 := by
  have hl : ∀ w ∈ ws, w.length = 4 := fun w hw => (hws w hw).1
  have hbnd : ∀ w ∈ ws, ∀ b ∈ w, b < 256 := fun w hw => (hws w hw).2
  have h0 : (ws.getD (4 * round) []).length = 4 :=
    getD_length_four ws _ (by omega) hl
  have h1 : (ws.getD (4 * round + 1) []).length = 4 :=
    getD_length_four ws _ (by omega) hl
  have h2 : (ws.getD (4 * round + 2) []).length = 4 :=
    getD_length_four ws _ (by omega) hl
  have h3 : (ws.getD (4 * round + 3) []).length = 4 :=
    getD_length_four ws _ (by omega) hl
  have hklen : (ws.getD (4 * round) [] ++ ws.getD (4 * round + 1) []
      ++ ws.getD (4 * round + 2) [] ++ ws.getD (4 * round + 3) []).length
      = 16 := by
    rw [List.length_append, List.length_append, List.length_append,
      h0, h1, h2, h3]
  have hkbnd : ∀ b ∈ ws.getD (4 * round) [] ++ ws.getD (4 * round + 1) []
      ++ ws.getD (4 * round + 2) [] ++ ws.getD (4 * round + 3) [], b < 256 := by
    intro b hb
    rcases List.mem_append.mp hb with hb | hb
    · rcases List.mem_append.mp hb with hb | hb
      · rcases List.mem_append.mp hb with hb | hb
        · exact getD_bytes_lt ws _ hbnd b hb
        · exact getD_bytes_lt ws _ hbnd b hb
      · exact getD_bytes_lt ws _ hbnd b hb
    · exact getD_bytes_lt ws _ hbnd b hb
  constructor
  · rw [aesAddRoundKey, List.length_zipWith, hklen, hst]
    omega
  · intro b hb
    rw [aesAddRoundKey] at hb
    exact zipWith_xor_lt _ _ hstb hkbnd b hb

/-- The middle rounds keep a 16-byte byte state. -/
theorem aesRounds_spec (ws : List (List Nat)) (hws_len : ws.length = 60)
    (hws : ∀ w ∈ ws, w.length = 4 ∧ ∀ b ∈ w, b < 256) :
    ∀ (k : Nat) (st : List Nat), st.length = 16 → (∀ b ∈ st, b < 256) →
    (aesRounds ws k st).length = 16 ∧ ∀ b ∈ aesRounds ws k st, b < 256 := by
  intro k
  induction k with
  | zero => intro st hst hstb; exact ⟨hst, hstb⟩
  | succ j ih =>
      intro st hst hstb
      have hsub_len : (aesSubBytes st).length = 16 := by
        rw [aesSubBytes_len, hst]
      have hshift_len : (aesShiftRows (aesSubBytes st)).length = 16 := by
        rw [aesShiftRows_len, hsub_len]
      have hmix_len := aesMixColumns_len _ hshift_len
      have hmix_lt := aesMixColumns_lt _
        (aesShiftRows_lt _ (aesSubBytes_lt st))
      obtain ⟨hark_len, hark_lt⟩ := aesAddRoundKey_spec ws (14 - (j + 1)) _
        hws_len hws (by omega) hmix_len hmix_lt
      show ((aesRounds ws j (aesAddRoundKey ws (14 - (j + 1))
        (aesMixColumns (aesShiftRows (aesSubBytes st))))).length = 16 ∧ _)
      exact ih _ hark_len hark_lt

/-- AES-256 encryption of a 16-byte byte block under a 32-byte key is a
16-byte byte block. -/
theorem aesEncryptBlock_spec (key block : List Nat) (hkey : key.length = 32)
    (hblock : block.length = 16) (hbb : ∀ b ∈ block, b < 256) :
    (aesEncryptBlock key block).length = 16 ∧
    ∀ b ∈ aesEncryptBlock key block, b < 256 := by
  obtain ⟨hws_len, hws⟩ := aesKeySchedule_spec key hkey
  obtain ⟨h0_len, h0_lt⟩ := aesAddRoundKey_spec _ 0 block hws_len hws
    (by omega) hblock hbb
  obtain ⟨hr_len, hr_lt⟩ := aesRounds_spec _ hws_len hws 13 _ h0_len h0_lt
  have hsub_len : (aesSubBytes (aesRounds (aesKeySchedule key) 13
      (aesAddRoundKey (aesKeySchedule key) 0 block))).length = 16 := by
    rw [aesSubBytes_len, hr_len]
  have hshift_len : (aesShiftRows (aesSubBytes (aesRounds (aesKeySchedule key)
      13 (aesAddRoundKey (aesKeySchedule key) 0 block)))).length = 16 := by
    rw [aesShiftRows_len, hsub_len]
  obtain ⟨hfin_len, hfin_lt⟩ := aesAddRoundKey_spec _ 14 _ hws_len hws
    (by omega) hshift_len (aesShiftRows_lt _ (aesSubBytes_lt _))
  exact ⟨hfin_len, hfin_lt⟩


/-- HMAC-SHA-256 outputs are 32 bytes. -/
theorem hmacSha256_length (key msg : List Nat) :
    (hmacSha256 key msg).length = 32 := sha256_length _

/-- HMAC-SHA-256 outputs are bytes. -/
theorem hmacSha256_lt (key msg : List Nat) :
    ∀ b ∈ hmacSha256 key msg, b < 256 :=
  fun b hb => sha256_bytes_lt _ b hb

/-- Each HKDF-Expand round contributes 32 bytes. -/
theorem hkdfExpandLoop_length (prk info : List Nat) : ∀ (count : Nat)
    (prev : List Nat) (ctr : Nat),
    (hkdfExpandLoop prk info count prev ctr).length = 32 * count := by
  intro count
  induction count with
  | zero => intro prev ctr; rfl
  | succ c ih =>
      intro prev ctr
      show (hmacSha256 prk (prev ++ info ++ [ctr % 256])
        ++ hkdfExpandLoop prk info c
          (hmacSha256 prk (prev ++ info ++ [ctr % 256])) (ctr + 1)).length = _
      rw [List.length_append, ih, hmacSha256_length]
      omega

/-- HKDF-Expand rounds produce bytes. -/
theorem hkdfExpandLoop_lt (prk info : List Nat) : ∀ (count : Nat)
    (prev : List Nat) (ctr : Nat),
    ∀ b ∈ hkdfExpandLoop prk info count prev ctr, b < 256 := by
  intro count
  induction count with
  | zero => intro prev ctr b hb; cases hb
  | succ c ih =>
      intro prev ctr b hb
      replace hb : b ∈ hmacSha256 prk (prev ++ info ++ [ctr % 256])
        ++ hkdfExpandLoop prk info c
          (hmacSha256 prk (prev ++ info ++ [ctr % 256])) (ctr + 1) := hb
      rcases List.mem_append.mp hb with h | h
      · exact hmacSha256_lt _ _ b h
      · exact ih _ _ b h

/-- HKDF returns exactly the requested number of bytes. -/
theorem hkdf_length (ikm : List Nat) (salt : Option (List Nat))
    (info : List Nat) (len : Nat) : (hkdf ikm salt info len).length = len := by
  show ((hkdfExpandLoop (hkdfExtract salt ikm) info ((len + 31) / 32) [] 1).take
    len).length = len
  rw [List.length_take, hkdfExpandLoop_length]
  have := Nat.div_add_mod (len + 31) 32
  omega

/-- HKDF output bytes are bytes. -/
theorem hkdf_lt (ikm : List Nat) (salt : Option (List Nat)) (info : List Nat)
    (len : Nat) : ∀ b ∈ hkdf ikm salt info len, b < 256 := by
  intro b hb
  replace hb : b ∈ (hkdfExpandLoop (hkdfExtract salt ikm) info
    ((len + 31) / 32) [] 1).take len := hb
  exact hkdfExpandLoop_lt _ _ _ _ _ b (List.mem_of_mem_take hb)

/-- The password-derived cipher key is 32 bytes. -/
theorem deriveKey_length (password : String) (salt : List Nat) :
    (Encryption.deriveKey password salt).length = 32 :=
  hkdf_length _ _ _ _

/-- The password-derived cipher key is made of bytes. -/
theorem deriveKey_lt (password : String) (salt : List Nat) :
    ∀ b ∈ Encryption.deriveKey password salt, b < 256 :=
  fun b hb => hkdf_lt _ _ _ _ b hb

/-- The flattened counter-block encryptions: 16 bytes per counter, all
bytes. -/
theorem gcmKeystream_flat_spec (key : List Nat) (j0 : Nat)
    (hkey : key.length = 32) : ∀ l : List Nat,
    ((l.flatMap (fun i => aesEncryptBlock key
      (natToBytes 16 (inc32 j0 (i + 1))))).length = 16 * l.length ∧
    ∀ b ∈ l.flatMap (fun i => aesEncryptBlock key
      (natToBytes 16 (inc32 j0 (i + 1)))), b < 256) := by
  intro l
  induction l with
  | nil => exact ⟨rfl, fun b hb => absurd hb (List.not_mem_nil b)⟩
  | cons x rest ih =>
      obtain ⟨hblock_len, hblock_lt⟩ := aesEncryptBlock_spec key
        (natToBytes 16 (inc32 j0 (x + 1))) hkey (natToBytes_length 16 _)
        (natToBytes_lt 16 _)
      constructor
      · show (aesEncryptBlock key (natToBytes 16 (inc32 j0 (x + 1)))
          ++ rest.flatMap _).length = _
        rw [List.length_append, hblock_len, ih.1]
        simp only [List.length_cons]
        omega
      · intro b hb
        replace hb : b ∈ aesEncryptBlock key (natToBytes 16 (inc32 j0 (x + 1)))
          ++ rest.flatMap (fun i => aesEncryptBlock key
            (natToBytes 16 (inc32 j0 (i + 1)))) := hb
        rcases List.mem_append.mp hb with h | h
        · exact hblock_lt b h
        · exact ih.2 b h

/-- The GCM keystream has exactly the requested length and is made of
bytes. -/
theorem gcmKeystream_spec (key : List Nat) (j0 len : Nat)
    (hkey : key.length = 32) :
    (gcmKeystream key j0 len).length = len ∧
    ∀ b ∈ gcmKeystream key j0 len, b < 256 := by
  obtain ⟨hflat_len, hflat_lt⟩ := gcmKeystream_flat_spec key j0 hkey
    (List.range (len / 16 + 1))
  constructor
  · show (((List.range (len / 16 + 1)).flatMap _).take len).length = len
    rw [List.length_take, hflat_len, List.length_range]
    have := Nat.div_add_mod len 16
    omega
  · intro b hb
    replace hb : b ∈ ((List.range (len / 16 + 1)).flatMap
      (fun i => aesEncryptBlock key (natToBytes 16 (inc32 j0 (i + 1))))).take
        len := hb
    exact hflat_lt b (List.mem_of_mem_take hb)

/-- The GCM tag is 16 bytes. -/
theorem gcmTag_length (key iv ct : List Nat) : (gcmTag key iv ct).length = 16 :=
  natToBytes_length 16 _

/-- The GCM tag is made of bytes. -/
theorem gcmTag_lt (key iv ct : List Nat) : ∀ b ∈ gcmTag key iv ct, b < 256 :=
  natToBytes_lt 16 _

/-- XOR-ing with the same keystream twice is the identity. -/
theorem xor_unzip : ∀ (pt ks : List Nat), pt.length ≤ ks.length →
    List.zipWith (fun a b => a ^^^ b)
      (List.zipWith (fun a b => a ^^^ b) pt ks) ks = pt := by
  intro pt
  induction pt with
  | nil => intro ks _; rfl
  | cons p pt ih =>
      intro ks hks
      cases ks with
      | nil => simp at hks
      | cons k ks =>
          show ((p ^^^ k) ^^^ k) :: List.zipWith _ (List.zipWith _ pt ks) ks
            = p :: pt
          rw [Nat.xor_cancel_right, ih ks (by simpa using hks)]

/-- The AES-GCM round trip: decrypting an encryption under the same key and
IV authenticates and returns the plaintext. -/
theorem gcm_roundtrip (key iv pt : List Nat) (hkey : key.length = 32) :
    gcmDecrypt key iv (gcmEncrypt key iv pt) = some pt := by
  obtain ⟨hks_len, _⟩ := gcmKeystream_spec key
    (bytesToNat (iv ++ [0, 0, 0, 1])) pt.length hkey
  set j0 := bytesToNat (iv ++ [0, 0, 0, 1]) with hj0
  set ct := List.zipWith (fun a b => a ^^^ b) pt (gcmKeystream key j0 pt.length)
    with hct
  have hctlen : ct.length = pt.length := by
    rw [hct, List.length_zipWith, hks_len]
    omega
  set tag := gcmTag key iv ct with htag
  have htaglen : tag.length = 16 := natToBytes_length 16 _
  have henc : gcmEncrypt key iv pt = ct ++ tag := rfl
  rw [henc]
  have hlen_ge : ¬ (ct ++ tag).length < 16 := by
    rw [List.length_append, htaglen]
    omega
  have hsplit : ct.length = (ct ++ tag).length - 16 := by
    rw [List.length_append, htaglen]
    omega
  have htake : (ct ++ tag).take ((ct ++ tag).length - 16) = ct :=
    List.take_left' hsplit
  have hdrop : (ct ++ tag).drop ((ct ++ tag).length - 16) = tag :=
    List.drop_left' hsplit
  rw [gcmDecrypt, if_neg hlen_ge, htake, hdrop]
  show (if tag = gcmTag key iv ct then
      some (List.zipWith (fun a b => a ^^^ b) ct (gcmKeystream key j0 ct.length))
    else none) = some pt
  rw [if_pos rfl, hctlen, hct]
  exact congrArg some (xor_unzip pt _ (le_of_eq hks_len.symm))

/-- The encryption output is the ciphertext (same length as the plaintext)
plus the 16-byte tag, all bytes when the plaintext is bytes. -/
theorem gcmEncrypt_spec (key iv pt : List Nat) (hkey : key.length = 32)
    (hpt : ∀ b ∈ pt, b < 256) :
    (gcmEncrypt key iv pt).length = pt.length + 16 ∧
    ∀ b ∈ gcmEncrypt key iv pt, b < 256 := by
  obtain ⟨hks_len, hks_lt⟩ := gcmKeystream_spec key
    (bytesToNat (iv ++ [0, 0, 0, 1])) pt.length hkey
  have henc : gcmEncrypt key iv pt =
      List.zipWith (fun a b => a ^^^ b) pt
        (gcmKeystream key (bytesToNat (iv ++ [0, 0, 0, 1])) pt.length)
      ++ gcmTag key iv (List.zipWith (fun a b => a ^^^ b) pt
        (gcmKeystream key (bytesToNat (iv ++ [0, 0, 0, 1])) pt.length)) := rfl
  rw [henc]
  constructor
  · rw [List.length_append, List.length_zipWith, hks_len, gcmTag_length]
    omega
  · intro b hb
    rcases List.mem_append.mp hb with h | h
    · exact zipWith_xor_lt _ _ hpt hks_lt b h
    · exact gcmTag_lt _ _ _ b h

/-- **C8.** Cipher round trip: decrypting the output of `encrypt` — its
ciphertext, IV and salt — with the same password returns exactly the
original plaintext bytes. -/
theorem c8_cipher_roundtrip (env : Env) (data : List Nat) (password : String) :
    Encryption.decrypt (Encryption.encrypt env data password).1
      (Encryption.encrypt env data password).2.1
      (Encryption.encrypt env data password).2.2 password = some data := by
  show gcmDecrypt (Encryption.deriveKey password (env.randomBytes 0 16))
    (env.randomBytes 1 12)
    (gcmEncrypt (Encryption.deriveKey password (env.randomBytes 0 16))
      (env.randomBytes 1 12) data) = some data
  exact gcm_roundtrip _ _ _ (deriveKey_length _ _)


/-- Decoding inverts the alphabet on 6-bit values. -/
theorem b64Val_b64Char : ∀ v, v < 64 → b64Val (b64Char v) = some v := by decide

/-- Alphabet characters are never the padding character. -/
theorem b64Char_ne_pad : ∀ v, v < 64 → b64Char v ≠ Char.ofNat 61 := by decide

/-- Decoding a 2-character group with double padding. -/
theorem b64Decode_pad2 (c1 c2 : Char) (v1 v2 : Nat) (h1 : b64Val c1 = some v1)
    (h2 : b64Val c2 = some v2) :
    b64DecodeChunks [c1, c2, Char.ofNat 61, Char.ofNat 61]
      = some [v1 * 4 + v2 / 16] := by
  rw [b64DecodeChunks, h1, h2]
  simp

/-- Decoding a 3-character group with single padding. -/
theorem b64Decode_pad1 (c1 c2 c3 : Char) (v1 v2 v3 : Nat)
    (h1 : b64Val c1 = some v1) (h2 : b64Val c2 = some v2)
    (h3 : b64Val c3 = some v3) (hne : c3 ≠ Char.ofNat 61) :
    b64DecodeChunks [c1, c2, c3, Char.ofNat 61]
      = some [v1 * 4 + v2 / 16, v2 % 16 * 16 + v3 / 4] := by
  rw [b64DecodeChunks, h1, h2]
  simp [hne, h3]

/-- Decoding a full 4-character group. -/
theorem b64Decode_full (c1 c2 c3 c4 : Char) (v1 v2 v3 v4 : Nat)
    (rest : List Char) (bs : List Nat)
    (h1 : b64Val c1 = some v1) (h2 : b64Val c2 = some v2)
    (h3 : b64Val c3 = some v3) (h4 : b64Val c4 = some v4)
    (hne3 : c3 ≠ Char.ofNat 61) (hne4 : c4 ≠ Char.ofNat 61)
    (hrest : b64DecodeChunks rest = some bs) :
    b64DecodeChunks (c1 :: c2 :: c3 :: c4 :: rest)
      = some ([v1 * 4 + v2 / 16, v2 % 16 * 16 + v3 / 4, v3 % 4 * 64 + v4]
        ++ bs) := by
  rw [b64DecodeChunks, h1, h2]
  simp [hne3, hne4, h3, h4, hrest]

/-- Base64 decoding inverts base64 encoding on byte strings. -/
theorem b64_roundtrip : ∀ (bytes : List Nat), (∀ b ∈ bytes, b < 256) →
    b64DecodeChunks (b64EncodeChunks bytes) = some bytes := by
  have key : ∀ (n : Nat) (bytes : List Nat), bytes.length ≤ n →
      (∀ b ∈ bytes, b < 256) →
      b64DecodeChunks (b64EncodeChunks bytes) = some bytes := by
    intro n
    induction n with
    | zero =>
        intro bytes h hb
        rcases bytes with _ | ⟨a, t⟩
        · rfl
        · simp at h
    | succ m ih =>
        intro bytes h hb
        rcases bytes with _ | ⟨a, _ | ⟨b, _ | ⟨c, rest⟩⟩⟩
        · rfl
        · have ha : a < 256 := hb a (by simp)
          have hv1 : a / 4 < 64 := by omega
          have hv2 : a % 4 * 16 < 64 := by omega
          show b64DecodeChunks [b64Char (a / 4), b64Char (a % 4 * 16),
            Char.ofNat 61, Char.ofNat 61] = some [a]
          rw [b64Decode_pad2 _ _ _ _ (b64Val_b64Char _ hv1)
            (b64Val_b64Char _ hv2)]
          have he1 : a / 4 * 4 + a % 4 * 16 / 16 = a := by omega
          rw [he1]
        · have ha : a < 256 := hb a (by simp)
          have hbb : b < 256 := hb b (by simp)
          have hv1 : a / 4 < 64 := by omega
          have hv2 : a % 4 * 16 + b / 16 < 64 := by omega
          have hv3 : b % 16 * 4 < 64 := by omega
          show b64DecodeChunks [b64Char (a / 4), b64Char (a % 4 * 16 + b / 16),
            b64Char (b % 16 * 4), Char.ofNat 61] = some [a, b]
          rw [b64Decode_pad1 _ _ _ _ _ _ (b64Val_b64Char _ hv1)
            (b64Val_b64Char _ hv2) (b64Val_b64Char _ hv3)
            (b64Char_ne_pad _ hv3)]
          have he1 : a / 4 * 4 + (a % 4 * 16 + b / 16) / 16 = a := by omega
          have he2 : (a % 4 * 16 + b / 16) % 16 * 16 + b % 16 * 4 / 4 = b := by
            omega
          rw [he1, he2]
        · have ha : a < 256 := hb a (by simp)
          have hbb : b < 256 := hb b (by simp)
          have hc : c < 256 := hb c (by simp)
          have hv1 : a / 4 < 64 := by omega
          have hv2 : a % 4 * 16 + b / 16 < 64 := by omega
          have hv3 : b % 16 * 4 + c / 64 < 64 := by omega
          have hv4 : c % 64 < 64 := by omega
          have hrec := ih rest (by
              simp only [List.length_cons] at h
              omega)
            (fun x hx => hb x (by simp [hx]))
          show b64DecodeChunks (b64Char (a / 4)
            :: b64Char (a % 4 * 16 + b / 16) :: b64Char (b % 16 * 4 + c / 64)
            :: b64Char (c % 64) :: b64EncodeChunks rest) = some (a :: b :: c :: rest)
          rw [b64Decode_full _ _ _ _ _ _ _ _ (b64EncodeChunks rest) rest
            (b64Val_b64Char _ hv1) (b64Val_b64Char _ hv2)
            (b64Val_b64Char _ hv3) (b64Val_b64Char _ hv4)
            (b64Char_ne_pad _ hv3) (b64Char_ne_pad _ hv4) hrec]
          have he1 : a / 4 * 4 + (a % 4 * 16 + b / 16) / 16 = a := by omega
          have he2 : (a % 4 * 16 + b / 16) % 16 * 16
              + (b % 16 * 4 + c / 64) / 4 = b := by omega
          have he3 : (b % 16 * 4 + c / 64) % 4 * 64 + c % 64 = c := by omega
          rw [he1, he2, he3]
          rfl
  exact fun bytes => key bytes.length bytes (le_refl _)


/-- When a record with the key is present, `put` replaces it and `get` finds
the replacement. -/
theorem find?_map_put (rec : SigningKeyRecord) : ∀ db : KeyDB,
    (db.find? (fun r => r.id = rec.id)).isSome = true →
    (db.map (fun r => if r.id = rec.id then rec else r)).find?
      (fun r => r.id = rec.id) = some rec := by
  intro db
  induction db with
  | nil => intro h; simp at h
  | cons r rest ih =>
      intro h
      by_cases hid : r.id = rec.id
      · rw [List.map_cons, if_pos hid]
        exact List.find?_cons_of_pos _ (by simp)
      · rw [List.map_cons, if_neg hid]
        rw [List.find?_cons_of_neg _ (by simpa using hid)]
        apply ih
        rw [List.find?_cons_of_neg _ (by simpa using hid)] at h
        exact h

/-- When no record with the key is present, `put` appends and `get` finds
the appended record. -/
theorem find?_append_put (rec : SigningKeyRecord) : ∀ db : KeyDB,
    db.find? (fun r => r.id = rec.id) = none →
    (db ++ [rec]).find? (fun r => r.id = rec.id) = some rec := by
  intro db
  induction db with
  | nil =>
      intro _
      exact List.find?_cons_of_pos _ (by simp)
  | cons r rest ih =>
      intro h
      by_cases hid : r.id = rec.id
      · rw [List.find?_cons_of_pos _ (by simpa using hid)] at h
        cases h
      · rw [List.cons_append, List.find?_cons_of_neg _ (by simpa using hid)]
        apply ih
        rw [List.find?_cons_of_neg _ (by simpa using hid)] at h
        exact h

/-- `get` after `put` returns the stored record. -/
theorem dbGet_dbPut (db : KeyDB) (rec : SigningKeyRecord) :
    dbGet (dbPut db rec) rec.id = some rec := by
  by_cases hfind : (db.find? (fun r => r.id = rec.id)).isSome
  · rw [dbGet, dbPut, if_pos hfind]
    exact find?_map_put rec db hfind
  · rw [dbGet, dbPut, if_neg hfind]
    apply find?_append_put
    rcases hcase : db.find? (fun r => r.id = rec.id) with _ | v
    · exact hcase
    · rw [hcase] at hfind
      simp at hfind

/-- What `retrieveKey` computes on a freshly stored record: GCM decryption
of the stored ciphertext under the queried password's derived key. -/
theorem retrieveKey_storeKey (env : Env) (db : KeyDB) (credentialId : String)
    (privateKey : List Nat) (password password2 : String)
    (metadata : Option (String × String)) (hbytes : ∀ b ∈ privateKey, b < 256) :
    KeyStorage.retrieveKey
      (KeyStorage.storeKey env db credentialId privateKey password metadata)
      credentialId password2 =
    gcmDecrypt (Encryption.deriveKey password2 (env.randomBytes 0 16))
      (env.randomBytes 1 12)
      (gcmEncrypt (Encryption.deriveKey password (env.randomBytes 0 16))
        (env.randomBytes 1 12) privateKey) := by
  have hb64 : ∀ bytes : List Nat, (∀ b ∈ bytes, b < 256) →
      Encryption.base64ToBytes (Encryption.bytesToBase64 bytes) = some bytes :=
    fun bytes h => b64_roundtrip bytes h
  have hkey1 : (Encryption.deriveKey password (env.randomBytes 0 16)).length
      = 32 := deriveKey_length _ _
  have hct_lt : ∀ b ∈ (Encryption.encrypt env privateKey password).1,
      b < 256 := by
    intro b hb
    exact (gcmEncrypt_spec _ _ _ hkey1 hbytes).2 b hb
  have hiv_lt : ∀ b ∈ (Encryption.encrypt env privateKey password).2.1,
      b < 256 := by
    intro b hb
    replace hb : b ∈ (List.range 12).map (fun j => env.entropy 1 j % 256) := hb
    obtain ⟨j, _, rfl⟩ := List.mem_map.mp hb
    exact Nat.mod_lt _ (by norm_num)
  have hsalt_lt : ∀ b ∈ (Encryption.encrypt env privateKey password).2.2,
      b < 256 := by
    intro b hb
    replace hb : b ∈ (List.range 16).map (fun j => env.entropy 0 j % 256) := hb
    obtain ⟨j, _, rfl⟩ := List.mem_map.mp hb
    exact Nat.mod_lt _ (by norm_num)
  have hget := dbGet_dbPut db
    (SigningKeyRecord.mk credentialId
      (Encryption.bytesToBase64 (Encryption.encrypt env privateKey password).1)
      (Encryption.bytesToBase64
        (Encryption.encrypt env privateKey password).2.1)
      (Encryption.bytesToBase64
        (Encryption.encrypt env privateKey password).2.2)
      env.now metadata)
  rw [KeyStorage.retrieveKey]
  rw [show dbGet
      (KeyStorage.storeKey env db credentialId privateKey password metadata)
      credentialId
      = some (SigningKeyRecord.mk credentialId
        (Encryption.bytesToBase64
          (Encryption.encrypt env privateKey password).1)
        (Encryption.bytesToBase64
          (Encryption.encrypt env privateKey password).2.1)
        (Encryption.bytesToBase64
          (Encryption.encrypt env privateKey password).2.2)
        env.now metadata) from hget]
  show KeyStorage.decryptRecord
    (SigningKeyRecord.mk credentialId
      (Encryption.bytesToBase64 (Encryption.encrypt env privateKey password).1)
      (Encryption.bytesToBase64
        (Encryption.encrypt env privateKey password).2.1)
      (Encryption.bytesToBase64
        (Encryption.encrypt env privateKey password).2.2)
      env.now metadata) password2 = _
  rw [KeyStorage.decryptRecord]
  simp only [hb64 _ hct_lt, hb64 _ hiv_lt, hb64 _ hsalt_lt]
  rfl

/-- **C9.** The vault contract, as the code implements it: retrieving with
the storing password returns the original key bytes; retrieving with any
password behaves exactly as GCM decryption of the stored ciphertext under
that password's derived key (so a wrong password yields the absent result
precisely when GCM authentication fails, and a password deriving the same
key yields the original bytes); a missing record also yields the absent
result, indistinguishable from an authentication failure; and every path
returns a value rather than raising. -/
theorem c9_vault_store_retrieve (env : Env) (db : KeyDB)
    (credentialId : String) (privateKey : List Nat) (password : String)
    (metadata : Option (String × String))
    (hbytes : ∀ b ∈ privateKey, b < 256) :
    KeyStorage.retrieveKey
      (KeyStorage.storeKey env db credentialId privateKey password metadata)
      credentialId password = some privateKey ∧
    (∀ password2, KeyStorage.retrieveKey
      (KeyStorage.storeKey env db credentialId privateKey password metadata)
      credentialId password2 =
      gcmDecrypt (Encryption.deriveKey password2 (env.randomBytes 0 16))
        (env.randomBytes 1 12)
        (gcmEncrypt (Encryption.deriveKey password (env.randomBytes 0 16))
          (env.randomBytes 1 12) privateKey)) ∧
    (∀ password2, Encryption.deriveKey password2 (env.randomBytes 0 16) =
        Encryption.deriveKey password (env.randomBytes 0 16) →
      KeyStorage.retrieveKey
        (KeyStorage.storeKey env db credentialId privateKey password metadata)
        credentialId password2 = some privateKey) ∧
    (∀ (db2 : KeyDB) (id2 password2 : String), dbGet db2 id2 = none →
      KeyStorage.retrieveKey db2 id2 password2 = none) := by
  refine ⟨?_, ?_, ?_, ?_⟩
  · rw [retrieveKey_storeKey env db credentialId privateKey password password
      metadata hbytes]
    exact gcm_roundtrip _ _ _ (deriveKey_length _ _)
  · intro password2
    exact retrieveKey_storeKey env db credentialId privateKey password
      password2 metadata hbytes
  · intro password2 hk
    rw [retrieveKey_storeKey env db credentialId privateKey password password2
      metadata hbytes, hk]
    exact gcm_roundtrip _ _ _ (deriveKey_length _ _)
  · intro db2 id2 password2 hnone
    rw [KeyStorage.retrieveKey, hnone]

/-- Big-endian encoding inverts the byte-string value. -/
theorem natToBytes_bytesToNat : ∀ (l : List Nat), (∀ b ∈ l, b < 256) →
    natToBytes l.length (bytesToNat l) = l := by
  intro l
  induction l using List.reverseRecOn with
  | nil => intro _; rfl
  | append_singleton l b ih =>
      intro h
      have hb : b < 256 := h b (by simp)
      have hl : ∀ x ∈ l, x < 256 := fun x hx => h x (by simp [hx])
      have hlen : (l ++ [b]).length = l.length + 1 := by simp
      rw [hlen]
      show natToBytes l.length (bytesToNat (l ++ [b]) >>> 8)
        ++ [bytesToNat (l ++ [b]) % 256] = l ++ [b]
      rw [bytesToNat_append]
      have h256 : (2 : Nat) ^ 8 = 256 := by norm_num
      have hshift : (bytesToNat l * 256 + b) >>> 8 = bytesToNat l := by
        rw [Nat.shiftRight_eq_div_pow, h256]
        omega
      have hmod : (bytesToNat l * 256 + b) % 256 = b := by omega
      rw [hshift, hmod, ih hl]

/-- Byte strings of equal length and equal big-endian value are equal. -/
theorem bytesToNat_inj (l1 l2 : List Nat) (h1 : ∀ b ∈ l1, b < 256)
    (h2 : ∀ b ∈ l2, b < 256) (hlen : l1.length = l2.length)
    (h : bytesToNat l1 = bytesToNat l2) : l1 = l2 := by
  have e1 := natToBytes_bytesToNat l1 h1
  have e2 := natToBytes_bytesToNat l2 h2
  rw [← e1, ← e2, hlen, h]

/-- The claimed contract "any different password retrieves the absent
result" is false of the code: the password space is infinite while derived
keys are finitely many, so some different password derives the same key and
retrieves the stored bytes. -/
theorem c9_wrong_password_counterexample :
    ¬ (∀ (env : Env) (db : KeyDB) (credentialId : String)
        (privateKey : List Nat) (password password2 : String)
        (metadata : Option (String × String)),
      (∀ b ∈ privateKey, b < 256) → password2 ≠ password →
      KeyStorage.retrieveKey
        (KeyStorage.storeKey env db credentialId privateKey password metadata)
        credentialId password2 = none) := by
  intro hclaim
  have hlen : ∀ n : Nat, (Encryption.deriveKey (Nat.repr n)
      (envZero.randomBytes 0 16)).length = 32 := fun n => deriveKey_length _ _
  have hlt : ∀ n : Nat, ∀ b ∈ Encryption.deriveKey (Nat.repr n)
      (envZero.randomBytes 0 16), b < 256 := fun n => deriveKey_lt _ _
  have hbound : ∀ n : Nat, bytesToNat (Encryption.deriveKey (Nat.repr n)
      (envZero.randomBytes 0 16)) < 256 ^ 32 := by
    intro n
    have hv := bytesToNat_lt _ (hlt n)
    rwa [hlen n] at hv
  obtain ⟨n1, n2, hne, heq⟩ := Finite.exists_ne_map_eq_of_infinite
    (fun n : Nat => (⟨bytesToNat (Encryption.deriveKey (Nat.repr n)
      (envZero.randomBytes 0 16)), hbound n⟩ : Fin (256 ^ 32)))
  have hkeys : Encryption.deriveKey (Nat.repr n1) (envZero.randomBytes 0 16) =
      Encryption.deriveKey (Nat.repr n2) (envZero.randomBytes 0 16) := by
    have hval : bytesToNat (Encryption.deriveKey (Nat.repr n1)
        (envZero.randomBytes 0 16)) = bytesToNat (Encryption.deriveKey
        (Nat.repr n2) (envZero.randomBytes 0 16)) := congrArg Fin.val heq
    exact bytesToNat_inj _ _ (hlt n1) (hlt n2) (by rw [hlen, hlen]) hval
  have hrepr_ne : Nat.repr n2 ≠ Nat.repr n1 := by
    intro hc
    have h1 := (repr_digits n1).2
    have h2 := (repr_digits n2).2
    rw [hc] at h2
    exact hne (h1.symm.trans h2)
  have hsome : KeyStorage.retrieveKey
      (KeyStorage.storeKey envZero [] "id" [1] (Nat.repr n1) none)
      "id" (Nat.repr n2) = some [1] := by
    rw [retrieveKey_storeKey envZero [] "id" [1] (Nat.repr n1) (Nat.repr n2)
      none (by decide)]
    rw [show Encryption.deriveKey (Nat.repr n2) (envZero.randomBytes 0 16) =
        Encryption.deriveKey (Nat.repr n1) (envZero.randomBytes 0 16) from
        hkeys.symm]
    exact gcm_roundtrip _ _ _ (deriveKey_length _ _)
  have hnone := hclaim envZero [] "id" [1] (Nat.repr n1) (Nat.repr n2) none
    (by decide) hrepr_ne
  rw [hnone] at hsome
  cases hsome


/-- One concrete derivation run. -/
theorem deriveEval : KeyDerivation.deriveSigningKey envZero 1 "cred" "user"
    none = some [225, 236, 37, 213, 232, 148, 174, 28, 155, 202, 166, 134, 25,
      215, 247, 98, 147, 156, 21, 203, 13, 94, 37, 128, 17, 94, 158, 131, 132,
      178, 6, 77] := by decide

/-- The compressed public key of the scalar 1 (the base point). -/
theorem pkEval : KeyDerivation.getPublicKey (natToBytes 32 1) =
    some [2, 121, 190, 102, 126, 249, 220, 187, 172, 85, 160, 98, 149, 206,
      135, 11, 7, 2, 155, 252, 219, 45, 206, 40, 217, 89, 242, 129, 91, 22,
      248, 23, 152] := by decide

set_option maxHeartbeats 40000000 in
/-- One concrete signing run: the empty message under the key 1. -/
theorem sigEval : MessageSigner.signMessage envZero (Sum.inr [])
    (natToBytes 32 1) =
    some "0x44ce38eb9117af26b7715b4afe934e96fb6582a4015410d85914fc1264101a9864bf1f0a3b503eeb291d8c93d0cd17466388c6db60a4b8cb5cf1c60b66899c7e1b"
    := by decide

/-- Concrete instance of the derived-key range theorem. -/
theorem c2_derived_key_in_range_witness :
    (KeyDerivation.deriveSigningKey envZero 1 "cred" "user" none =
      some [225, 236, 37, 213, 232, 148, 174, 28, 155, 202, 166, 134, 25, 215,
        247, 98, 147, 156, 21, 203, 13, 94, 37, 128, 17, 94, 158, 131, 132,
        178, 6, 77]) ∧
    (([225, 236, 37, 213, 232, 148, 174, 28, 155, 202, 166, 134, 25, 215, 247,
        98, 147, 156, 21, 203, 13, 94, 37, 128, 17, 94, 158, 131, 132, 178, 6,
        77] : List Nat).length = 32 ∧
      1 ≤ bytesToNat [225, 236, 37, 213, 232, 148, 174, 28, 155, 202, 166,
        134, 25, 215, 247, 98, 147, 156, 21, 203, 13, 94, 37, 128, 17, 94,
        158, 131, 132, 178, 6, 77] ∧
      bytesToNat [225, 236, 37, 213, 232, 148, 174, 28, 155, 202, 166, 134,
        25, 215, 247, 98, 147, 156, 21, 203, 13, 94, 37, 128, 17, 94, 158,
        131, 132, 178, 6, 77] < secpN) :=
  ⟨deriveEval, c2_derived_key_in_range envZero 1 "cred" "user" none _ deriveEval⟩

/-- Concrete instance of the sign/verify round trip. -/
theorem c4_sign_verify_roundtrip_witness :
    (MessageSigner.signMessage envZero (Sum.inr []) (natToBytes 32 1) =
      some "0x44ce38eb9117af26b7715b4afe934e96fb6582a4015410d85914fc1264101a9864bf1f0a3b503eeb291d8c93d0cd17466388c6db60a4b8cb5cf1c60b66899c7e1b") ∧
    (KeyDerivation.getPublicKey (natToBytes 32 1) =
      some [2, 121, 190, 102, 126, 249, 220, 187, 172, 85, 160, 98, 149, 206,
        135, 11, 7, 2, 155, 252, 219, 45, 206, 40, 217, 89, 242, 129, 91, 22,
        248, 23, 152]) ∧
    MessageSigner.verifySignature (Sum.inr [])
      "0x44ce38eb9117af26b7715b4afe934e96fb6582a4015410d85914fc1264101a9864bf1f0a3b503eeb291d8c93d0cd17466388c6db60a4b8cb5cf1c60b66899c7e1b"
      [2, 121, 190, 102, 126, 249, 220, 187, 172, 85, 160, 98, 149, 206, 135,
        11, 7, 2, 155, 252, 219, 45, 206, 40, 217, 89, 242, 129, 91, 22, 248,
        23, 152] = true :=
  ⟨sigEval, pkEval, c4_sign_verify_roundtrip envZero (Sum.inr [])
    (natToBytes 32 1) _ _ sigEval pkEval⟩

/-- Concrete instance of the wire-format theorem. -/
theorem c5_signature_wire_format_witness :
    (MessageSigner.signMessage envZero (Sum.inr []) (natToBytes 32 1) =
      some "0x44ce38eb9117af26b7715b4afe934e96fb6582a4015410d85914fc1264101a9864bf1f0a3b503eeb291d8c93d0cd17466388c6db60a4b8cb5cf1c60b66899c7e1b") ∧
    (∃ r s recovery,
      ecdsaSignHash (sha256 (MessageSigner.prefixMessage
        (messageToBytes (Sum.inr [])))) (natToBytes 32 1)
        = some (r, s, recovery) ∧
      ("0x44ce38eb9117af26b7715b4afe934e96fb6582a4015410d85914fc1264101a9864bf1f0a3b503eeb291d8c93d0cd17466388c6db60a4b8cb5cf1c60b66899c7e1b" : String).data.take 2 = ['0', 'x'] ∧
      (("0x44ce38eb9117af26b7715b4afe934e96fb6582a4015410d85914fc1264101a9864bf1f0a3b503eeb291d8c93d0cd17466388c6db60a4b8cb5cf1c60b66899c7e1b" : String).drop 2).data.length = 130 ∧
      (∀ c ∈ (("0x44ce38eb9117af26b7715b4afe934e96fb6582a4015410d85914fc1264101a9864bf1f0a3b503eeb291d8c93d0cd17466388c6db60a4b8cb5cf1c60b66899c7e1b" : String).drop 2).data, (hexDigitVal c).isSome) ∧
      parseHex (strSlice (("0x44ce38eb9117af26b7715b4afe934e96fb6582a4015410d85914fc1264101a9864bf1f0a3b503eeb291d8c93d0cd17466388c6db60a4b8cb5cf1c60b66899c7e1b" : String).drop 2) 0 64) = some r ∧
      parseHex (strSlice (("0x44ce38eb9117af26b7715b4afe934e96fb6582a4015410d85914fc1264101a9864bf1f0a3b503eeb291d8c93d0cd17466388c6db60a4b8cb5cf1c60b66899c7e1b" : String).drop 2) 64 128) = some s ∧
      parseHex (strSlice (("0x44ce38eb9117af26b7715b4afe934e96fb6582a4015410d85914fc1264101a9864bf1f0a3b503eeb291d8c93d0cd17466388c6db60a4b8cb5cf1c60b66899c7e1b" : String).drop 2) 128 130) = some (recovery + 27)) :=
  ⟨sigEval, c5_signature_wire_format envZero (Sum.inr []) (natToBytes 32 1)
    _ sigEval⟩

/-- Concrete instance of the vault contract. -/
theorem c9_vault_store_retrieve_witness :
    (∀ b ∈ ([1, 2, 3] : List Nat), b < 256) ∧
    (KeyStorage.retrieveKey
      (KeyStorage.storeKey envZero [] "id" [1, 2, 3] "pw" none)
      "id" "pw" = some [1, 2, 3] ∧
    (∀ password2, KeyStorage.retrieveKey
      (KeyStorage.storeKey envZero [] "id" [1, 2, 3] "pw" none)
      "id" password2 =
      gcmDecrypt (Encryption.deriveKey password2 (envZero.randomBytes 0 16))
        (envZero.randomBytes 1 12)
        (gcmEncrypt (Encryption.deriveKey "pw" (envZero.randomBytes 0 16))
          (envZero.randomBytes 1 12) [1, 2, 3])) ∧
    (∀ password2, Encryption.deriveKey password2 (envZero.randomBytes 0 16) =
        Encryption.deriveKey "pw" (envZero.randomBytes 0 16) →
      KeyStorage.retrieveKey
        (KeyStorage.storeKey envZero [] "id" [1, 2, 3] "pw" none)
        "id" password2 = some [1, 2, 3]) ∧
    (∀ (db2 : KeyDB) (id2 password2 : String), dbGet db2 id2 = none →
      KeyStorage.retrieveKey db2 id2 password2 = none)) :=
  ⟨by decide, c9_vault_store_retrieve envZero [] "id" [1, 2, 3] "pw" none
    (by decide)⟩


end Passface
